import Mathlib

/-! Owner/view property cells of `bindable_properties`.

A shallow embedding of `src/bindable_properties.h` and `src/bindable_properties.cpp`.

* Objects live in a heap indexed by addresses; a pointer is an `Option Addr`
  (`none` is `nullptr`).  Addresses are handed out in increasing order and
  are not reused.
* `std::function` handlers are the variants of `Func`; the user callables
  stored in them are small programs over the public API (`Stmt`, `Expr`),
  capturing the properties they mention by reference.
* Calls that can re-enter (handlers, loops over the list) take a fuel
  argument; running out of fuel is the error `Err.out_of_fuel`.
* Every invocation of a user callable appends an `Event` to the log,
  together with a snapshot of the heap at that moment.
-/

set_option linter.unusedSectionVars false
set_option linter.unusedVariables false

namespace bindable_properties

/-- Address of a `property_base` object. -/
abbrev Addr := Nat

/-- The enum `details::call_type`. -/
inductive call_type
  | initial_binding
  | binding
  | setter
  | initial_notification
  | notification
  deriving DecidableEq, Repr

/-- Ways in which a call can fail to return. -/
inductive Err
  | out_of_fuel
  | bad_function_call
  | null_deref
  deriving DecidableEq, Repr

/-- Value expressions of user callables: `p.value()` is `read p`; operands are
evaluated left to right. -/
inductive Expr (T : Type)
  | lit (c : T)
  | read (p : Addr)
  | app (f : T → T → T) (a b : Expr T)

/-- Statements of user callables: `p = e`, `p.set(e)`, `p.request_change(e)`. -/
inductive Stmt (T : Type)
  | assign (p : Addr) (e : Expr T)
  | set (p : Addr) (e : Expr T)
  | request_change (p : Addr) (e : Expr T)

/-- A setter or notifier lambda behind `arguments_adapter`: it receives the
property and the value and runs a sequence of statements. -/
abbrev Callable (T : Type) := Addr → T → List (Stmt T)

/-- The contents of `property_base::func`: empty, one of the functors of
`namespace details`, or the lambda installed by `register_property`
(which captures the shared `binding_state`, here its index). -/
inductive Func (T : Type)
  | empty
  | default_setter
  | default_notifier
  | property_setter (setter : Callable T)
  | property_notifier (notifier : Callable T)
  | property_binder (binding : Expr T) (setter notifier : Callable T)
  | dependency (state : Nat)

/-- Test `if (func)` of `std::function`. -/
def Func.nonempty {T : Type} : Func T → Bool
  | .empty => false
  | _ => true

/-- One `property<T>` object: the three pointers and the handler of
`property_base`, and the value slot.  A bare `property_base` (a member of
`binding_state`) has no value slot in the source; here its slot is never
read or written. -/
structure Node (T : Type) where
  owner : Option Addr
  next : Option Addr
  prev : Option Addr
  func : Func T
  val : T

/-- The struct `details::binding_state`, with its two members as addresses. -/
structure binding_state where
  prop : Addr
  deps : List Addr

/-- Which user callable was invoked. -/
inductive Callee
  | setter
  | notifier
  | compute
  deriving DecidableEq, Repr

/-- One invocation of a user callable: which one, on which node, with which
value, and the heap as it was at the moment of the call. -/
structure Event (T : Type) where
  callee : Callee
  node : Addr
  value : Option T
  heap : Addr → Node T

/-- The whole program state: the heap, the next fresh address, the two
thread-local variables of `bindable_properties.cpp`, every `binding_state`
ever made, and the log of callable invocations. -/
structure World (T : Type) where
  heap : Addr → Node T
  size : Nat
  is_currently_binding : Bool
  current : Option Nat
  states : List binding_state
  log : List (Event T)

/-- A `void*` argument of a handler: null, the address of a temporary
holding `v`, or the address of the value slot of a node. -/
inductive ValPtr (T : Type)
  | null
  | imm (v : T)
  | slot (a : Addr)

variable {T : Type}

/-- Overwrite the object at address `a`. -/
def World.setNode (w : World T) (a : Addr) (n : Node T) : World T :=
  { w with heap := fun b => if b = a then n else w.heap b }

/-- Assignment `a->owner = o`. -/
def World.setOwner (w : World T) (a : Addr) (o : Option Addr) : World T :=
  w.setNode a { w.heap a with owner := o }

/-- Assignment `a->next = x`. -/
def World.setNext (w : World T) (a : Addr) (x : Option Addr) : World T :=
  w.setNode a { w.heap a with next := x }

/-- Assignment `a->prev = x`. -/
def World.setPrev (w : World T) (a : Addr) (x : Option Addr) : World T :=
  w.setNode a { w.heap a with prev := x }

/-- Assignment `a->func = f`. -/
def World.setFunc (w : World T) (a : Addr) (f : Func T) : World T :=
  w.setNode a { w.heap a with func := f }

/-- Assignment `a->val = v`. -/
def World.setVal (w : World T) (a : Addr) (v : T) : World T :=
  w.setNode a { w.heap a with val := v }

/-- Append an invocation record, with the current heap as snapshot. -/
def World.record (w : World T) (c : Callee) (a : Addr) (v : Option T) : World T :=
  { w with log := w.log ++ [{ callee := c, node := a, value := v, heap := w.heap }] }

/-- Dereference `*static_cast<T*>(value)`. -/
def deref (value : ValPtr T) (w : World T) : Except Err T :=
  match value with
  | .null => .error .null_deref
  | .imm v => .ok v
  | .slot a => .ok (w.heap a).val

/-- The method `property_base::is_owner`: `this == owner`. -/
def is_owner (w : World T) (this : Addr) : Bool :=
  (w.heap this).owner == some this

/-- The method `property_base::is_zombie`: `owner == nullptr`. -/
def is_zombie (w : World T) (this : Addr) : Bool :=
  (w.heap this).owner == none

/-- The method `property_base::is_view`. -/
def is_view (w : World T) (this : Addr) : Bool :=
  !is_owner w this && !is_zombie w this

/-- The method `property_base::attach_to`, statement by statement. -/
def attach_to (this other : Addr) (w : World T) : World T :=
  let w1 := w.setNext this (w.heap other).next
  let w2 := w1.setPrev this (some other)
  let w3 := match (w2.heap other).next with
    | some n => w2.setPrev n (some this)
    | none => w2
  let w4 := w3.setNext other (some this)
  w4.setOwner this (w4.heap other).owner

/-- The loop `while (crawler) { crawler->owner = o; crawler = crawler->next; }`
used by `detach` (with `o = nullptr`) and by the move assignment
(with `o = this`). -/
def retarget : Nat → Option Addr → Option Addr → World T → Except Err (World T)
  | 0, _, _, _ => .error .out_of_fuel
  | _ + 1, none, _, w => .ok w
  | n + 1, some c, o, w =>
    let w1 := w.setOwner c o
    retarget n (w1.heap c).next o w1

/-- The method `property_base::detach`. -/
def detach (fuel : Nat) (this : Addr) (w : World T) : Except Err (World T) := do
  let w1 ←
    if is_owner w this then
      match (w.heap this).next with
      | some nx => retarget fuel (some nx) none (w.setPrev nx none)
      | none => pure w
    else
      let wa := match (w.heap this).prev with
        | some p => w.setNext p (w.heap this).next
        | none => w
      let wb := match (wa.heap this).next with
        | some nx => wa.setPrev nx (wa.heap this).prev
        | none => wa
      pure wb
  pure (((w1.setNext this none).setPrev this none).setOwner this none)

/-- The counting loop of `num_views`. -/
def count_views : Nat → Option Addr → World T → Nat → Except Err Nat
  | 0, _, _, _ => .error .out_of_fuel
  | _ + 1, none, _, result => .ok result
  | n + 1, some c, w, result => count_views n (w.heap c).next w (result + 1)

/-- The method `property_base::num_views`. -/
def num_views (fuel : Nat) (this : Addr) (w : World T) : Except Err Nat :=
  if is_zombie w this then .ok 0
  else match (w.heap this).owner with
    | some o => count_views fuel (w.heap o).next w 0
    | none => .ok 0

/-- A fresh object at address `w.size`, before its constructor body runs. -/
def alloc (w : World T) (n : Node T) : World T :=
  { w.setNode w.size n with size := w.size + 1 }

/-- The constructor `property_base::property_base(const property_base&)`
for a new bare `property_base` at address `w.size`: `attach_to(other)`,
`func` default-constructed (empty). -/
def base_copy (other : Addr) (w : World T) : World T :=
  let this := w.size
  let w1 := alloc w
    { owner := none, next := none, prev := none, func := .empty, val := (w.heap other).val }
  attach_to this other w1

/-- The assignment `property_base::operator=(const property_base&)`. -/
def base_copy_assign (fuel : Nat) (this other : Addr) (w : World T) :
    Except Err (World T) := do
  let w1 ← detach fuel this w
  pure (attach_to this other w1)

/-- The assignment `property_base::operator=(property_base&&)`.  Moving
from a `std::function` leaves the source empty. -/
def base_move_assign (fuel : Nat) (this other : Addr) (w : World T) :
    Except Err (World T) := do
  let w1 ← detach fuel this w
  let w2 := attach_to this other w1
  let f := (w2.heap other).func
  let w3 := (w2.setFunc other .empty).setFunc this f
  let w4 ← if is_owner w3 other then retarget fuel (some other) (some this) w3 else pure w3
  detach fuel other w4

/-- The constructor `property(const value_type& initial)`; the new object is
at address `w.size`. -/
def property_new (initial : T) (w : World T) : World T :=
  alloc w
    { owner := some w.size, next := none, prev := none, func := .default_setter,
      val := initial }

/-- The copy constructor `property(const self& other)`; the new object is at
address `w.size`. -/
def property_copy (other : Addr) (w : World T) : World T :=
  let this := w.size
  let w1 := alloc w
    { owner := none, next := none, prev := none, func := .empty, val := (w.heap other).val }
  let w2 := attach_to this other w1
  let w3 := w2.setVal this (w2.heap other).val
  w3.setFunc this .default_notifier

/-- The move constructor `property(self&& other)`; the new object is at
address `w.size`. -/
def property_move (fuel : Nat) (other : Addr) (w : World T) : Except Err (World T) := do
  let this := w.size
  let w1 := alloc w
    { owner := some this, next := none, prev := none, func := .empty,
      val := (w.heap other).val }
  let w2 ← base_move_assign fuel this other w1
  let w3 := w2.setVal this (w2.heap other).val
  pure (w3.setFunc this (if is_owner w3 this then .default_setter else .default_notifier))

/-- The copy assignment `property::operator=(const self& other)`. -/
def property_copy_assign (fuel : Nat) (this other : Addr) (w : World T) :
    Except Err (World T) := do
  let w1 ← base_copy_assign fuel this other w
  let w2 := w1.setVal this (w1.heap other).val
  pure (w2.setFunc this .default_notifier)

/-- The move assignment `property::operator=(self&& other)`: the base
assignment has already moved `other.func` away when it is moved again. -/
def property_move_assign (fuel : Nat) (this other : Addr) (w : World T) :
    Except Err (World T) := do
  let w1 ← base_move_assign fuel this other w
  let w2 := w1.setVal this (w1.heap other).val
  let f := (w2.heap other).func
  pure ((w2.setFunc other .empty).setFunc this f)

/-- The destructor `~property_base`.  (The members destroyed with the object
hold no other property: callables capture by reference.) -/
def destroy (fuel : Nat) (this : Addr) (w : World T) : Except Err (World T) :=
  detach fuel this w

/-- The method `property::become_owner`. -/
def become_owner (fuel : Nat) (this : Addr) (w : World T) : Except Err (World T) := do
  let w1 ← detach fuel this w
  pure ((w1.setOwner this (some this)).setFunc this .default_setter)

/-- The method `property::set_setter`. -/
def set_setter (this : Addr) (lambda : Callable T) (w : World T) : Bool × World T :=
  if !is_owner w this then (false, w)
  else (true, w.setFunc this (.property_setter lambda))

/-- The method `property::set_notifier`. -/
def set_notifier (this : Addr) (lambda : Callable T) (w : World T) : Bool × World T :=
  (true, w.setFunc this (.property_notifier lambda))

/-- The function `details::set_current_prop`: a new `binding_state` holding
a copy of `prop` replaces the thread-local one; the old one is destroyed
when nothing else refers to it, that is when it has no dependency (each
dependency holds a reference to the state it belongs to). -/
def set_current_prop (fuel : Nat) (prop : Addr) (w : World T) : Except Err (World T) :=
  let copy := w.size
  let w1 := base_copy prop w
  let w2 := { w1 with states := w1.states ++ [{ prop := copy, deps := [] }],
                      current := some w1.states.length }
  match w.current with
  | none => pure w2
  | some old =>
    match w.states.get? old with
    | none => pure w2
    | some st => if st.deps.isEmpty then detach fuel st.prop w2 else pure w2

/-- The function `details::register_property`.  When the vector `deps`
grows, its elements are moved to new storage; the move constructor puts
each moved element in the place of the old one in its list and hands over
the handler, so only addresses change.  Here the elements keep their
address. -/
def register_property (bound_prop : Addr) (w : World T) : Except Err (World T) :=
  match w.current with
  | none => .error .null_deref
  | some i =>
    match w.states.get? i with
    | none => .error .null_deref
    | some st =>
      if st.deps.any (fun p => (w.heap p).owner == (w.heap bound_prop).owner) then pure w
      else
        let dep := w.size
        let w1 := base_copy bound_prop w
        let w2 := w1.setFunc dep (.dependency i)
        pure { w2 with states := w2.states.set i { st with deps := st.deps ++ [dep] } }

/-- The method `property::value`. -/
def value (this : Addr) (w : World T) : Except Err (T × World T) := do
  let w1 ← if w.is_currently_binding then register_property this w else pure w
  pure ((w1.heap this).val, w1)

/-- Evaluation of a value expression of a user callable. -/
def eval : Expr T → World T → Except Err (T × World T)
  | .lit c, w => pure (c, w)
  | .read p, w => value p w
  | .app f a b, w => do
    let (x, w1) ← eval a w
    let (y, w2) ← eval b w1
    pure (f x y, w2)

variable [DecidableEq T]

mutual

/-- The call `this->func(this, value, type)` on a non-empty or empty `func`. -/
def invoke : Nat → Addr → ValPtr T → call_type → World T → Except Err (World T)
  | 0, _, _, _, _ => .error .out_of_fuel
  | n + 1, this, value, type, w =>
    match (w.heap this).func with
    | .empty => .error .bad_function_call
    | .default_setter => do
      let v ← deref value w
      assign n this v w
    | .default_notifier => do
      let v ← deref value w
      pure (w.setVal this v)
    | .property_setter setter =>
      match type with
      | .setter => do
        let v ← deref value w
        run n (setter this v) (w.record .setter this (some v))
      | _ => pure w
    | .property_notifier notifier =>
      match type with
      | .initial_notification => do
        let v ← deref value w
        pure (w.setVal this v)
      | .notification => do
        let v ← deref value w
        run n (notifier this v) (w.record .notifier this (some v))
      | .setter =>
        if is_owner w this then do
          let v ← deref value w
          set_directly_as_owner n this v w
        else pure w
      | _ => pure w
    | .property_binder binding setter notifier =>
      match type with
      | .initial_binding => do
        let w1 := { w with is_currently_binding := true }
        let w2 ← set_current_prop n this w1
        let (v, w3) ← eval binding (w2.record .compute this none)
        let w4 ← set_directly_as_owner n this v w3
        pure { w4 with is_currently_binding := false }
      | .binding => do
        let (v, w1) ← eval binding (w.record .compute this none)
        set_directly_as_owner n this v w1
      | .setter => do
        let v ← deref value w
        run n (setter this v) (w.record .setter this (some v))
      | .notification => do
        let (v, w1) ← bindable_properties.value this w
        run n (notifier this v) (w1.record .notifier this (some v))
      | _ => pure w
    | .dependency state =>
      match type with
      | .notification =>
        match w.states.get? state with
        | none => .error .null_deref
        | some st =>
          match (w.heap st.prop).owner with
          | some o => update n o w
          | none => pure w
      | _ => pure w
termination_by structural fuel => fuel

/-- The method `property_base::update`. -/
def update : Nat → Addr → World T → Except Err (World T)
  | 0, _, _ => .error .out_of_fuel
  | n + 1, this, w =>
    if (w.heap this).func.nonempty then invoke n this .null .binding w else pure w
termination_by structural fuel => fuel

/-- One of the two loops of `notify_all`, from `crawler` on. -/
def pass : Nat → call_type → ValPtr T → Option Addr → World T → Except Err (World T)
  | 0, _, _, _, _ => .error .out_of_fuel
  | _ + 1, _, _, none, w => pure w
  | n + 1, type, value, some crawler, w => do
    let w1 ← if (w.heap crawler).func.nonempty then invoke n crawler value type w else pure w
    pass n type value (w1.heap crawler).next w1
termination_by structural fuel => fuel

/-- The method `property_base::notify_all`. -/
def notify_all : Nat → Addr → ValPtr T → World T → Except Err (World T)
  | 0, _, _, _ => .error .out_of_fuel
  | n + 1, this, value, w => do
    let w1 ← pass n .initial_notification value (some this) w
    pass n .notification value (some this) w1
termination_by structural fuel => fuel

/-- The method `property::set_directly_as_owner`; `notify_all(&val)` passes
the address of the value slot, not a copy of the value. -/
def set_directly_as_owner : Nat → Addr → T → World T → Except Err (World T)
  | 0, _, _, _ => .error .out_of_fuel
  | n + 1, this, new_val, w =>
    if (w.heap this).val ≠ new_val then
      notify_all n this (.slot this) (w.setVal this new_val)
    else pure w
termination_by structural fuel => fuel

/-- The method `property::set_using_setter_as_owner`; `func` is called
without a test for emptiness. -/
def set_using_setter_as_owner : Nat → Addr → T → World T → Except Err (World T)
  | 0, _, _, _ => .error .out_of_fuel
  | n + 1, this, new_val, w =>
    if (w.heap this).val ≠ new_val then invoke n this (.imm new_val) .setter w
    else pure w
termination_by structural fuel => fuel

/-- The value assignment `property::operator=(const_reference)`. -/
def assign : Nat → Addr → T → World T → Except Err (World T)
  | 0, _, _, _ => .error .out_of_fuel
  | n + 1, this, val, w =>
    if is_owner w this then set_directly_as_owner n this val w else pure w
termination_by structural fuel => fuel

/-- The method `property::set`. -/
def set : Nat → Addr → T → World T → Except Err (World T)
  | 0, _, _, _ => .error .out_of_fuel
  | n + 1, this, val, w =>
    if !is_owner w this then
      match (w.heap this).owner with
      | some o => set_using_setter_as_owner n o val w
      | none => pure w
    else set_directly_as_owner n this val w
termination_by structural fuel => fuel

/-- The method `property::request_change`. -/
def request_change : Nat → Addr → T → World T → Except Err (World T)
  | 0, _, _, _ => .error .out_of_fuel
  | n + 1, this, val, w =>
    match (w.heap this).owner with
    | some o => set_using_setter_as_owner n o val w
    | none => pure w
termination_by structural fuel => fuel

/-- One statement of a user callable. -/
def exec : Nat → Stmt T → World T → Except Err (World T)
  | 0, _, _ => .error .out_of_fuel
  | n + 1, .assign p e, w => do
    let (v, w1) ← eval e w
    assign n p v w1
  | n + 1, .set p e, w => do
    let (v, w1) ← eval e w
    set n p v w1
  | n + 1, .request_change p e, w => do
    let (v, w1) ← eval e w
    request_change n p v w1
termination_by structural fuel => fuel

/-- The body of a user callable. -/
def run : Nat → List (Stmt T) → World T → Except Err (World T)
  | 0, _, _ => .error .out_of_fuel
  | _ + 1, [], w => pure w
  | n + 1, s :: rest, w => do
    let w1 ← exec n s w
    run n rest w1
termination_by structural fuel => fuel

end

/-- The method `property::set_binding`. -/
def set_binding (fuel : Nat) (this : Addr) (binding : Expr T) (setter notifier : Callable T)
    (w : World T) : Except Err (Bool × World T) :=
  if !is_owner w this then pure (false, w)
  else do
    let w1 := w.setFunc this (.property_binder binding setter notifier)
    let w2 ← invoke fuel this .null .initial_binding w1
    pure (true, w2)

/-- The empty program state. -/
def World.init (filler : T) : World T :=
  { heap := fun _ => { owner := none, next := none, prev := none, func := .empty, val := filler },
    size := 0, is_currently_binding := false, current := none, states := [], log := [] }

/-! ## Vocabulary of the statements -/

/-- The value of an expression over the value slots as they are: what a
callable computes when it reads its properties now. -/
def Expr.now : Expr T → World T → T
  | .lit c, _ => c
  | .read p, w => (w.heap p).val
  | .app f a b, w => f (a.now w) (b.now w)

/-- The properties an expression reads, in evaluation order. -/
def Expr.reads : Expr T → List Addr
  | .lit _ => []
  | .read p => [p]
  | .app _ a b => a.reads ++ b.reads

/-- The functor `details::nop`, the default setter and notifier of `set_binding`. -/
def nop : Callable T := fun _ _ => []

/-- The error a call ended with, if it did not return. -/
def failure {α : Type} (r : Except Err α) : Option Err :=
  match r with
  | .error e => some e
  | .ok _ => none


/-- The nodes of `l` follow each other through `next`, `prev` points back,
and the last one has no successor. -/
def Linked (w : World T) : List Addr → Prop
  | [] => True
  | [a] => (w.heap a).next = none
  | a :: b :: rest => (w.heap a).next = some b ∧ (w.heap b).prev = some a ∧ Linked w (b :: rest)

/-- The list headed by the owner `o`: `views` are, in list order, the nodes
behind it, and each of them points to `o` as owner. -/
structure IsList (w : World T) (o : Addr) (views : List Addr) : Prop where
  nodup : (o :: views).Nodup
  linked : Linked w (o :: views)
  head : (w.heap o).prev = none
  owner : ∀ a ∈ o :: views, (w.heap a).owner = some o

/-- Decision procedure for `Linked`. -/
instance Linked_decidable (w : World T) : (l : List Addr) → Decidable (Linked w l)
  | [] => isTrue trivial
  | [a] => inferInstanceAs (Decidable ((w.heap a).next = none))
  | a :: b :: rest =>
    match Linked_decidable w (b :: rest) with
    | isTrue h =>
      if h1 : (w.heap a).next = some b then
        if h2 : (w.heap b).prev = some a then isTrue ⟨h1, h2, h⟩
        else isFalse (fun h3 => h2 h3.2.1)
      else isFalse (fun h3 => h1 h3.1)
    | isFalse h => isFalse (fun h3 => h h3.2.2)

/-- A callable that performs no statement: it only observes. -/
def Callable.quiet (c : Callable T) : Prop := ∀ a v, c a v = []

/-- Handlers of a view that was made by copying, possibly followed by
`set_notifier` with an observing callable. -/
def Func.mirrors : Func T → Prop
  | .default_notifier => True
  | .property_notifier notifier => Callable.quiet notifier
  | _ => False

/-- Handlers of an owner under which a notification pass leaves the owner
alone: the default one, a custom setter, an observing notifier, or none. -/
def Func.plain : Func T → Prop
  | .default_setter => True
  | .property_setter _ => True
  | .empty => True
  | .default_notifier => True
  | .property_notifier notifier => Callable.quiet notifier
  | _ => False

/-- Test for a handler installed by `set_notifier`. -/
def Func.is_notifier : Func T → Bool
  | .property_notifier _ => true
  | _ => false

/-- The invocations of user callables so far: which callable, on which
node, with which value. -/
def calls (w : World T) : List (Callee × Addr × Option T) :=
  w.log.map (fun e => (e.callee, e.node, e.value))

/-- The two worlds agree on everything but value slots and the log. -/
structure ValFrame (w w' : World T) : Prop where
  owner : ∀ a, (w'.heap a).owner = (w.heap a).owner
  next : ∀ a, (w'.heap a).next = (w.heap a).next
  prev : ∀ a, (w'.heap a).prev = (w.heap a).prev
  func : ∀ a, (w'.heap a).func = (w.heap a).func
  size : w'.size = w.size
  binding : w'.is_currently_binding = w.is_currently_binding
  current : w'.current = w.current
  states : w'.states = w.states

/-- The two worlds agree on everything but owner pointers. -/
structure OwnerFrame (w w' : World T) : Prop where
  next : ∀ a, (w'.heap a).next = (w.heap a).next
  prev : ∀ a, (w'.heap a).prev = (w.heap a).prev
  func : ∀ a, (w'.heap a).func = (w.heap a).func
  val : ∀ a, (w'.heap a).val = (w.heap a).val
  size : w'.size = w.size
  binding : w'.is_currently_binding = w.is_currently_binding
  current : w'.current = w.current
  states : w'.states = w.states
  log : w'.log = w.log

/-- Search for the integer square root from `k` upwards: the first `r ≥ k`
whose successor has a square above `n`. -/
def sqrt_up : Nat → Nat → Nat → Nat
  | 0, k, _ => k
  | fuel + 1, k, n => if (k + 1) * (k + 1) ≤ n then sqrt_up fuel (k + 1) n else k

/-- The function `std::sqrt` on the integers that are perfect squares, where
it is exact; the test `PythagorasExample` only meets such arguments
(841, 9801, 10201). -/
def isqrt (n : Int) : Int := Int.ofNat (sqrt_up n.toNat 0 n.toNat)

/-- The computeFn of the test `PythagorasExample`: `sqrt(x * x + y * y)`, with
`x` at address 0 and `y` at address 1. -/
def pythagoras_binding : Expr Int :=
  .app (fun a b => isqrt (a * a + b * b)) (.read 0) (.read 1)

/-- The setterFn of the test `PythagorasExample`:
`y.request_change((int)sqrt(value * value - x * x))`. -/
def pythagoras_setter : Callable Int :=
  fun _ value => [Stmt.request_change 1 (.app (fun v x => isqrt (v * v - x * x)) (.lit value) (.read 0))]

/-- The three properties of the test `PythagorasExample` before the binding
is set: `x = 20` at address 0, `y = 21` at address 1 and the hypotenuse,
default-constructed, at address 2. -/
def pythagoras_start : World Int :=
  property_new 0 (property_new 21 (property_new 20 (World.init 0)))

/-- The second world has at least the objects of the first, and each of
those has kept its handler. -/
structure Grow (w w' : World T) : Prop where
  size : w.size ≤ w'.size
  func : ∀ a, a < w.size → (w'.heap a).func = (w.heap a).func

/-- The list `l` with `new` put right behind `s`. -/
def insert_after (s new : Addr) : List Addr → List Addr
  | [] => []
  | a :: l => if a = s then a :: new :: l else a :: insert_after s new l

/-- An owner made by `property(v1)` in the state `w0`, followed by one copy
construction per entry of the script, latest first: entry `s` copies from
the object made `s` steps after the owner (`0` is the owner itself). -/
def copies (w0 : World T) (v1 : T) : List Nat → World T
  | [] => property_new v1 w0
  | s :: rest => property_copy (w0.size + s) (copies w0 v1 rest)

/-- Every entry of the script names the owner or a view made before it. -/
def valid_script : List Nat → Prop
  | [] => True
  | s :: rest => s ≤ rest.length ∧ valid_script rest

/-- Decision procedure for `valid_script`. -/
instance valid_script_decidable : (l : List Nat) → Decidable (valid_script l)
  | [] => isTrue trivial
  | s :: rest =>
    match valid_script_decidable rest with
    | isTrue h => if hs : s ≤ rest.length then isTrue ⟨hs, h⟩ else isFalse (fun h2 => hs h2.1)
    | isFalse h => isFalse (fun h2 => h h2.2)

/-- Every node that has an owner belongs to the list of that owner, and only
objects that exist have an owner. -/
structure Sound (w : World T) : Prop where
  listed : ∀ a o, (w.heap a).owner = some o → ∃ vs, IsList w o vs ∧ a ∈ o :: vs
  bound : ∀ a o, (w.heap a).owner = some o → a < w.size

/-- Evaluating `e` registers no dependency: either no binding is being
evaluated, or every property that `e` reads already has a subscription in
the current binding state. -/
def Settled (e : Expr T) (w : World T) : Prop :=
  w.is_currently_binding = false ∨
  ∃ i st, w.current = some i ∧ w.states.get? i = some st ∧
    ∀ p ∈ e.reads, st.deps.any (fun q => (w.heap q).owner == (w.heap p).owner) = true

/-- What a node `a` in the list of a bound property `b` may be: a node
without handler (the copy held by a binding state), a mirroring view, or a
subscription of a binding whose bound property is `b` itself. -/
def Role (w : World T) (b a : Addr) : Prop :=
  (w.heap a).func = .empty ∨ (w.heap a).func.mirrors ∨
  ∃ j st, (w.heap a).func = .dependency j ∧ w.states.get? j = some st ∧
    (w.heap st.prop).owner = some b

/-- The invocations of a notifier on node `b` so far, oldest first: the value
passed, and the value `b` held at that moment. -/
def notified (b : Addr) (w : World T) : List (Option T × T) :=
  w.log.filterMap (fun ev =>
    if ev.callee = .notifier ∧ ev.node = b then some (ev.value, (ev.heap b).val) else none)

/-- The setting of a recomputation of the bound property `b`: it heads the
list `b :: vs` of nodes that leave the binding alone, carries the binder
with computeFn `e` and an observing notifier, `e` is settled and reads
properties that have an owner and are no node of the list of `b`. -/
structure Bound (w : World T) (b : Addr) (vs : List Addr) (e : Expr T)
    (s nf : Callable T) : Prop where
  list : IsList w b vs
  role : ∀ a ∈ vs, Role w b a
  func : (w.heap b).func = .property_binder e s nf
  quiet : Callable.quiet nf
  settled : Settled e w
  reads : ∀ p ∈ e.reads, p ∉ b :: vs
  owned : ∀ p ∈ e.reads, ∃ o, (w.heap p).owner = some o

/-- What the evaluation of a computeFn that reads the properties `R` leaves
behind in the structure while the binding state `i` collects dependencies:
the objects that existed keep owner and handler; the new ones are
subscriptions of state `i` in the lists of properties of `R`; lists without
a property of `R` are as before; and every property of `R` is registered in
state `i`. -/
structure Reg (i : Nat) (R : List Addr) (w w' : World T) : Prop where
  sound : Sound w'
  size : w.size ≤ w'.size
  size_le : w'.size ≤ w.size + R.length
  owner : ∀ a, a < w.size → (w'.heap a).owner = (w.heap a).owner
  func : ∀ a, a < w.size → (w'.heap a).func = (w.heap a).func
  fresh : ∀ a, w.size ≤ a → a < w'.size →
    (w'.heap a).func = .dependency i ∧ ∃ p ∈ R, (w'.heap a).owner = (w.heap p).owner
  lists : ∀ o vs, IsList w o vs → (∀ p ∈ R, (w.heap p).owner ≠ some o) → IsList w' o vs
  binding : w'.is_currently_binding = w.is_currently_binding
  current : w'.current = w.current
  length : w'.states.length = w.states.length
  others : ∀ j, j ≠ i → w'.states.get? j = w.states.get? j
  state : ∀ st, w.states.get? i = some st → (∀ q ∈ st.deps, q < w.size) →
    ∃ st', w'.states.get? i = some st' ∧ st'.prop = st.prop ∧
      (∀ q ∈ st.deps, q ∈ st'.deps) ∧
      (∀ q ∈ st'.deps, q ∈ st.deps ∨ (w.size ≤ q ∧ q < w'.size)) ∧
      ∀ p ∈ R, st'.deps.any (fun q => (w'.heap q).owner == (w'.heap p).owner) = true

/-- The state in which `set_binding` on `b` first invokes computeFn: the
handler `f` is installed, the binding flag is set, a new binding state
holding a copy of `b` is current, and the invocation is recorded. -/
def prepared (b : Addr) (f : Func T) (w : World T) : World T :=
  World.record
    { base_copy b { w.setFunc b f with is_currently_binding := true } with
      states := (base_copy b { w.setFunc b f with is_currently_binding := true }).states ++
        [{ prop := w.size, deps := [] }],
      current :=
        some (base_copy b { w.setFunc b f with is_currently_binding := true }).states.length }
    .compute b none

/-- What `set_binding` with computeFn `e` on the owner `b`, whose views were
`vs`, leaves behind, from the state `w` to the state `w'`. -/
structure Installed (w w' : World T) (b : Addr) (vs : List Addr) (e : Expr T)
    (s nf : Callable T) : Prop where
  value : (w'.heap b).val = e.now w
  vals : ∀ a, a < w.size → a ∉ b :: vs → (w'.heap a).val = (w.heap a).val
  views : (w.heap b).val ≠ e.now w → ∀ a ∈ vs, (w'.heap a).val = e.now w
  fired : notified b w' = notified b w ++
    (if (w.heap b).val = e.now w then [] else [(some (e.now w), e.now w)])
  sound : Sound w'
  idle : w'.is_currently_binding = false
  owner : ∀ a, a < w.size → (w'.heap a).owner = (w.heap a).owner
  func : ∀ a, a < w.size → a ≠ b → (w'.heap a).func = (w.heap a).func
  binder : (w'.heap b).func = .property_binder e s nf
  size : w.size ≤ w'.size
  size_le : w'.size ≤ w.size + e.reads.length + 2
  fresh : ∀ a, w.size ≤ a → a < w'.size →
    ((w'.heap a).owner = some b ∧
      ((w'.heap a).func = .empty ∨ (w'.heap a).func = .dependency w.states.length)) ∨
    ((w'.heap a).func = .dependency w.states.length ∧
      ∃ p ∈ e.reads, (w'.heap a).owner = (w.heap p).owner)
  subscribed : ∀ p ∈ e.reads, ∃ d, w.size ≤ d ∧ d < w'.size ∧
    (w'.heap d).owner = (w.heap p).owner ∧ (w'.heap d).func = .dependency w.states.length
  current : w'.current = some w.states.length
  length : w'.states.length = w.states.length + 1
  others : ∀ j, j < w.states.length → w'.states.get? j = w.states.get? j
  state : ∃ st, w'.states.get? w.states.length = some st ∧ (w'.heap st.prop).owner = some b ∧
    (e.reads ≠ [] → st.deps ≠ [])

/-- The computeFn of `bound_prop` in the test `BindingsMultiplePropsTwoLayers`:
`prop1 + prop2 + prop3`, with the three properties at the addresses 0, 1, 2. -/
def layer_one : Expr Int :=
  .app (fun x y => x + y) (.app (fun x y => x + y) (.read 0) (.read 1)) (.read 2)

/-- The computeFn of `bound_prop2` in the test `BindingsMultiplePropsTwoLayers`:
`bound_prop + bound_prop`, with `bound_prop` at address 3. -/
def layer_two : Expr Int := .app (fun x y => x + y) (.read 3) (.read 3)

/-- The five properties of the test `BindingsMultiplePropsTwoLayers`, with
arbitrary initial values: `prop1`, `prop2`, `prop3` at the addresses 0, 1, 2,
`bound_prop` at 3 and `bound_prop2` at 4. -/
def layers_start (a1 a2 a3 a4 a5 : Int) : World Int :=
  property_new a5 (property_new a4 (property_new a3 (property_new a2
    (property_new a1 (World.init 0)))))

/-- A sequence of value assignments `p = x`, one after the other. -/
def writes (fuel : Nat) : List (Addr × T) → World T → Except Err (World T)
  | [], w => .ok w
  | (p, x) :: rest, w => assign fuel p x w >>= writes fuel rest

/-- The value a property holds after a sequence of assignments to owners,
when it held `init` before. -/
def written (p : Addr) (init : T) : List (Addr × T) → T
  | [] => init
  | (q, x) :: rest => written p (if q = p then x else init) rest

/-- The structure of the states of the test `BindingsMultiplePropsTwoLayers`
once both bindings are set: the three sources carry the default handler and
subscriptions of the first binding state; the list of `bound_prop` holds
nodes without handler, subscriptions of the first state and at least one
subscription of the second; the list of `bound_prop2` holds nodes without
handler and subscriptions of the second state. -/
structure Layers (w : World Int) : Prop where
  sound : Sound w
  idle : w.is_currently_binding = false
  src : ∀ p, p < 3 → (w.heap p).owner = some p ∧ (w.heap p).func = .default_setter
  b1 : (w.heap 3).owner = some 3 ∧ (w.heap 3).func = .property_binder layer_one nop nop
  b2 : (w.heap 4).owner = some 4 ∧ (w.heap 4).func = .property_binder layer_two nop nop
  st0 : ∃ st, w.states.get? 0 = some st ∧ (w.heap st.prop).owner = some 3
  st1 : ∃ st, w.states.get? 1 = some st ∧ (w.heap st.prop).owner = some 4
  cls_src : ∀ a p, p < 3 → (w.heap a).owner = some p → a ≠ p →
    (w.heap a).func = .dependency 0
  cls_b1 : ∀ a, (w.heap a).owner = some 3 → a ≠ 3 →
    (w.heap a).func = .empty ∨ (w.heap a).func = .dependency 0 ∨
      (w.heap a).func = .dependency 1
  cls_b2 : ∀ a, (w.heap a).owner = some 4 → a ≠ 4 →
    (w.heap a).func = .empty ∨ (w.heap a).func = .dependency 1
  sub_src : ∀ p, p < 3 → ∃ d, (w.heap d).owner = some p ∧ d ≠ p
  sub_b1 : ∃ d, (w.heap d).owner = some 3 ∧ (w.heap d).func = .dependency 1
  size : w.size ≤ 14

/-- The property on which a statement calls `operator=`, `set` or
`request_change`. -/
def Stmt.target : Stmt T → Addr
  | .assign p _ => p
  | .set p _ => p
  | .request_change p _ => p

/-- The value expression of a statement. -/
def Stmt.arg : Stmt T → Expr T
  | .assign _ e => e
  | .set _ e => e
  | .request_change _ e => e

/-- The invocations of setter callables so far, oldest first: on which node
and with which value. -/
def setter_calls (w : World T) : List (Addr × Option T) :=
  w.log.filterMap (fun ev => if ev.callee = .setter then some (ev.node, ev.value) else none)

/-- Handlers whose notifier callable, if they carry one, only observes. -/
def Func.observing : Func T → Prop
  | .property_notifier notifier => Callable.quiet notifier
  | .property_binder _ _ notifier => Callable.quiet notifier
  | _ => True

/-- Every notifier callable installed on an object only observes. -/
def Observing (w : World T) : Prop := ∀ a, a < w.size → (w.heap a).func.observing

/-- A statement of the setterFn of the binder `b` that pushes a value into a
dependency of the binding: its target is an owner other than `b` with the
default handler, whose list holds mirroring views and subscriptions of
bindings of `b`, at least one. -/
def Pushes (w : World T) (b : Addr) (st : Stmt T) : Prop :=
  st.target ≠ b ∧ (w.heap st.target).func = .default_setter ∧
  ∃ vp, IsList w st.target vp ∧
    (∀ a ∈ vp, (w.heap a).func.mirrors ∨ ∃ j bs, (w.heap a).func = .dependency j ∧
      w.states.get? j = some bs ∧ (w.heap bs.prop).owner = some b) ∧
    (∃ a ∈ vp, ∃ j bs, (w.heap a).func = .dependency j ∧
      w.states.get? j = some bs ∧ (w.heap bs.prop).owner = some b)

/-! ## Field updates -/

@[simp] theorem heap_setOwner_owner (w : World T) (a b : Addr) (x) :
    ((w.setOwner a x).heap b).owner = if b = a then x else (w.heap b).owner := by
  unfold World.setOwner World.setNode; dsimp only; split <;> rfl

@[simp] theorem heap_setOwner_next (w : World T) (a b : Addr) (x) :
    ((w.setOwner a x).heap b).next = (w.heap b).next := by
  unfold World.setOwner World.setNode; dsimp only; split <;> simp_all

@[simp] theorem heap_setOwner_prev (w : World T) (a b : Addr) (x) :
    ((w.setOwner a x).heap b).prev = (w.heap b).prev := by
  unfold World.setOwner World.setNode; dsimp only; split <;> simp_all

@[simp] theorem heap_setOwner_func (w : World T) (a b : Addr) (x) :
    ((w.setOwner a x).heap b).func = (w.heap b).func := by
  unfold World.setOwner World.setNode; dsimp only; split <;> simp_all

@[simp] theorem heap_setOwner_val (w : World T) (a b : Addr) (x) :
    ((w.setOwner a x).heap b).val = (w.heap b).val := by
  unfold World.setOwner World.setNode; dsimp only; split <;> simp_all

@[simp] theorem setOwner_size (w : World T) (a : Addr) (x) :
    (w.setOwner a x).size = w.size := rfl

@[simp] theorem setOwner_is_currently_binding (w : World T) (a : Addr) (x) :
    (w.setOwner a x).is_currently_binding = w.is_currently_binding := rfl

@[simp] theorem setOwner_current (w : World T) (a : Addr) (x) :
    (w.setOwner a x).current = w.current := rfl

@[simp] theorem setOwner_states (w : World T) (a : Addr) (x) :
    (w.setOwner a x).states = w.states := rfl

@[simp] theorem setOwner_log (w : World T) (a : Addr) (x) :
    (w.setOwner a x).log = w.log := rfl

@[simp] theorem heap_setNext_owner (w : World T) (a b : Addr) (x) :
    ((w.setNext a x).heap b).owner = (w.heap b).owner := by
  unfold World.setNext World.setNode; dsimp only; split <;> simp_all

@[simp] theorem heap_setNext_next (w : World T) (a b : Addr) (x) :
    ((w.setNext a x).heap b).next = if b = a then x else (w.heap b).next := by
  unfold World.setNext World.setNode; dsimp only; split <;> rfl

@[simp] theorem heap_setNext_prev (w : World T) (a b : Addr) (x) :
    ((w.setNext a x).heap b).prev = (w.heap b).prev := by
  unfold World.setNext World.setNode; dsimp only; split <;> simp_all

@[simp] theorem heap_setNext_func (w : World T) (a b : Addr) (x) :
    ((w.setNext a x).heap b).func = (w.heap b).func := by
  unfold World.setNext World.setNode; dsimp only; split <;> simp_all

@[simp] theorem heap_setNext_val (w : World T) (a b : Addr) (x) :
    ((w.setNext a x).heap b).val = (w.heap b).val := by
  unfold World.setNext World.setNode; dsimp only; split <;> simp_all

@[simp] theorem setNext_size (w : World T) (a : Addr) (x) :
    (w.setNext a x).size = w.size := rfl

@[simp] theorem setNext_is_currently_binding (w : World T) (a : Addr) (x) :
    (w.setNext a x).is_currently_binding = w.is_currently_binding := rfl

@[simp] theorem setNext_current (w : World T) (a : Addr) (x) :
    (w.setNext a x).current = w.current := rfl

@[simp] theorem setNext_states (w : World T) (a : Addr) (x) :
    (w.setNext a x).states = w.states := rfl

@[simp] theorem setNext_log (w : World T) (a : Addr) (x) :
    (w.setNext a x).log = w.log := rfl

@[simp] theorem heap_setPrev_owner (w : World T) (a b : Addr) (x) :
    ((w.setPrev a x).heap b).owner = (w.heap b).owner := by
  unfold World.setPrev World.setNode; dsimp only; split <;> simp_all

@[simp] theorem heap_setPrev_next (w : World T) (a b : Addr) (x) :
    ((w.setPrev a x).heap b).next = (w.heap b).next := by
  unfold World.setPrev World.setNode; dsimp only; split <;> simp_all

@[simp] theorem heap_setPrev_prev (w : World T) (a b : Addr) (x) :
    ((w.setPrev a x).heap b).prev = if b = a then x else (w.heap b).prev := by
  unfold World.setPrev World.setNode; dsimp only; split <;> rfl

@[simp] theorem heap_setPrev_func (w : World T) (a b : Addr) (x) :
    ((w.setPrev a x).heap b).func = (w.heap b).func := by
  unfold World.setPrev World.setNode; dsimp only; split <;> simp_all

@[simp] theorem heap_setPrev_val (w : World T) (a b : Addr) (x) :
    ((w.setPrev a x).heap b).val = (w.heap b).val := by
  unfold World.setPrev World.setNode; dsimp only; split <;> simp_all

@[simp] theorem setPrev_size (w : World T) (a : Addr) (x) :
    (w.setPrev a x).size = w.size := rfl

@[simp] theorem setPrev_is_currently_binding (w : World T) (a : Addr) (x) :
    (w.setPrev a x).is_currently_binding = w.is_currently_binding := rfl

@[simp] theorem setPrev_current (w : World T) (a : Addr) (x) :
    (w.setPrev a x).current = w.current := rfl

@[simp] theorem setPrev_states (w : World T) (a : Addr) (x) :
    (w.setPrev a x).states = w.states := rfl

@[simp] theorem setPrev_log (w : World T) (a : Addr) (x) :
    (w.setPrev a x).log = w.log := rfl

@[simp] theorem heap_setFunc_owner (w : World T) (a b : Addr) (x) :
    ((w.setFunc a x).heap b).owner = (w.heap b).owner := by
  unfold World.setFunc World.setNode; dsimp only; split <;> simp_all

@[simp] theorem heap_setFunc_next (w : World T) (a b : Addr) (x) :
    ((w.setFunc a x).heap b).next = (w.heap b).next := by
  unfold World.setFunc World.setNode; dsimp only; split <;> simp_all

@[simp] theorem heap_setFunc_prev (w : World T) (a b : Addr) (x) :
    ((w.setFunc a x).heap b).prev = (w.heap b).prev := by
  unfold World.setFunc World.setNode; dsimp only; split <;> simp_all

@[simp] theorem heap_setFunc_func (w : World T) (a b : Addr) (x) :
    ((w.setFunc a x).heap b).func = if b = a then x else (w.heap b).func := by
  unfold World.setFunc World.setNode; dsimp only; split <;> rfl

@[simp] theorem heap_setFunc_val (w : World T) (a b : Addr) (x) :
    ((w.setFunc a x).heap b).val = (w.heap b).val := by
  unfold World.setFunc World.setNode; dsimp only; split <;> simp_all

@[simp] theorem setFunc_size (w : World T) (a : Addr) (x) :
    (w.setFunc a x).size = w.size := rfl

@[simp] theorem setFunc_is_currently_binding (w : World T) (a : Addr) (x) :
    (w.setFunc a x).is_currently_binding = w.is_currently_binding := rfl

@[simp] theorem setFunc_current (w : World T) (a : Addr) (x) :
    (w.setFunc a x).current = w.current := rfl

@[simp] theorem setFunc_states (w : World T) (a : Addr) (x) :
    (w.setFunc a x).states = w.states := rfl

@[simp] theorem setFunc_log (w : World T) (a : Addr) (x) :
    (w.setFunc a x).log = w.log := rfl

@[simp] theorem heap_setVal_owner (w : World T) (a b : Addr) (x) :
    ((w.setVal a x).heap b).owner = (w.heap b).owner := by
  unfold World.setVal World.setNode; dsimp only; split <;> simp_all

@[simp] theorem heap_setVal_next (w : World T) (a b : Addr) (x) :
    ((w.setVal a x).heap b).next = (w.heap b).next := by
  unfold World.setVal World.setNode; dsimp only; split <;> simp_all

@[simp] theorem heap_setVal_prev (w : World T) (a b : Addr) (x) :
    ((w.setVal a x).heap b).prev = (w.heap b).prev := by
  unfold World.setVal World.setNode; dsimp only; split <;> simp_all

@[simp] theorem heap_setVal_func (w : World T) (a b : Addr) (x) :
    ((w.setVal a x).heap b).func = (w.heap b).func := by
  unfold World.setVal World.setNode; dsimp only; split <;> simp_all

@[simp] theorem heap_setVal_val (w : World T) (a b : Addr) (x) :
    ((w.setVal a x).heap b).val = if b = a then x else (w.heap b).val := by
  unfold World.setVal World.setNode; dsimp only; split <;> rfl

@[simp] theorem setVal_size (w : World T) (a : Addr) (x) :
    (w.setVal a x).size = w.size := rfl

@[simp] theorem setVal_is_currently_binding (w : World T) (a : Addr) (x) :
    (w.setVal a x).is_currently_binding = w.is_currently_binding := rfl

@[simp] theorem setVal_current (w : World T) (a : Addr) (x) :
    (w.setVal a x).current = w.current := rfl

@[simp] theorem setVal_states (w : World T) (a : Addr) (x) :
    (w.setVal a x).states = w.states := rfl

@[simp] theorem setVal_log (w : World T) (a : Addr) (x) :
    (w.setVal a x).log = w.log := rfl

@[simp] theorem record_size (w : World T) (c : Callee) (a : Addr) (v : Option T) :
    (w.record c a v).size = w.size := rfl

@[simp] theorem record_is_currently_binding (w : World T) (c : Callee) (a : Addr) (v : Option T) :
    (w.record c a v).is_currently_binding = w.is_currently_binding := rfl

@[simp] theorem record_current (w : World T) (c : Callee) (a : Addr) (v : Option T) :
    (w.record c a v).current = w.current := rfl

@[simp] theorem record_states (w : World T) (c : Callee) (a : Addr) (v : Option T) :
    (w.record c a v).states = w.states := rfl

@[simp] theorem record_heap (w : World T) (c : Callee) (a : Addr) (v : Option T) :
    (w.record c a v).heap = w.heap := rfl

/-! ## Notification passes -/

theorem ValFrame.refl (w : World T) : ValFrame w w :=
  ⟨fun _ => rfl, fun _ => rfl, fun _ => rfl, fun _ => rfl, rfl, rfl, rfl, rfl⟩

theorem ValFrame.trans {w1 w2 w3 : World T} (h12 : ValFrame w1 w2) (h23 : ValFrame w2 w3) :
    ValFrame w1 w3 :=
  ⟨fun a => (h23.owner a).trans (h12.owner a), fun a => (h23.next a).trans (h12.next a),
   fun a => (h23.prev a).trans (h12.prev a), fun a => (h23.func a).trans (h12.func a),
   h23.size.trans h12.size, h23.binding.trans h12.binding, h23.current.trans h12.current,
   h23.states.trans h12.states⟩

theorem ValFrame.setVal (w : World T) (a : Addr) (v : T) : ValFrame w (w.setVal a v) :=
  ⟨fun _ => by simp, fun _ => by simp, fun _ => by simp, fun _ => by simp, rfl, rfl, rfl, rfl⟩

theorem ValFrame.record (w : World T) (c : Callee) (a : Addr) (v : Option T) :
    ValFrame w (w.record c a v) :=
  ⟨fun _ => rfl, fun _ => rfl, fun _ => rfl, fun _ => rfl, rfl, rfl, rfl, rfl⟩

theorem run_nil (n : Nat) (w : World T) : run (n + 1) [] w = .ok w := by
  simp [run, pure, Except.pure]

/-- The event a notification pass records at node `c`. -/
theorem step_spec (w : World T) (o c : Addr) (v : T) (type : call_type) (n : Nat)
    (hown : (w.heap c).owner = some o) (hval : (w.heap o).val = v)
    (hrole : (w.heap c).func.mirrors ∨ (c = o ∧ (w.heap c).func.plain))
    (htype : type = .initial_notification ∨ type = .notification) :
    ∃ w', (if (w.heap c).func.nonempty then invoke (n + 3) c (.slot o) type w else pure w)
        = .ok w' ∧ ValFrame w w' ∧
      (∀ a, a ≠ c → (w'.heap a).val = (w.heap a).val) ∧
      ((w'.heap c).val = v ∨ (type = .notification ∧ (w'.heap c).val = (w.heap c).val)) ∧
      w'.log = w.log ++
        (if type = .notification ∧ (w.heap c).func.is_notifier = true then
          [{ callee := .notifier, node := c, value := some v, heap := w.heap }] else []) := by
  cases hf : (w.heap c).func with
  | empty =>
    refine ⟨w, by simp [Func.nonempty, pure, Except.pure], ValFrame.refl w, fun _ _ => rfl, ?_,
      by simp [Func.is_notifier]⟩
    rcases hrole with h | ⟨h, _⟩
    · simp [hf, Func.mirrors] at h
    · subst h; exact Or.inl hval
  | default_setter =>
    rcases hrole with h | ⟨h, _⟩
    · simp [hf, Func.mirrors] at h
    · subst h
      have ho : is_owner w c = true := by simp [is_owner, hown]
      refine ⟨w, ?_, ValFrame.refl w, fun _ _ => rfl, Or.inl hval, by simp [Func.is_notifier]⟩
      simp [Func.nonempty, invoke, hf, deref, assign, ho, set_directly_as_owner, hval,
        bind, Except.bind, pure, Except.pure]
  | default_notifier =>
    refine ⟨w.setVal c v, ?_, ValFrame.setVal w c v, fun a ha => by simp [ha], by simp,
      by simp [Func.is_notifier]⟩
    simp [Func.nonempty, invoke, hf, deref, hval, bind, Except.bind, pure, Except.pure]
  | property_setter s =>
    rcases hrole with h | ⟨h, _⟩
    · simp [hf, Func.mirrors] at h
    · subst h
      refine ⟨w, ?_, ValFrame.refl w, fun _ _ => rfl, Or.inl hval, by simp [Func.is_notifier]⟩
      rcases htype with h | h <;> subst h <;>
        simp [Func.nonempty, invoke, hf, pure, Except.pure]
  | property_notifier nf =>
    have hq : Callable.quiet nf := by
      rcases hrole with h | ⟨_, h⟩
      · simpa [hf, Func.mirrors] using h
      · simpa [hf, Func.plain] using h
    rcases htype with h | h <;> subst h
    · refine ⟨w.setVal c v, ?_, ValFrame.setVal w c v, fun a ha => by simp [ha], by simp, by simp⟩
      simp [Func.nonempty, invoke, hf, deref, hval, bind, Except.bind, pure, Except.pure]
    · refine ⟨w.record .notifier c (some v), ?_, ValFrame.record w _ _ _, fun _ _ => rfl,
        Or.inr ⟨rfl, rfl⟩, ?_⟩
      · simp [Func.nonempty, invoke, hf, deref, hval, bind, Except.bind, hq c v, run_nil]
      · simp [Func.is_notifier, World.record]
  | property_binder b s nf =>
    rcases hrole with h | ⟨_, h⟩
    · simp [hf, Func.mirrors] at h
    · simp [hf, Func.plain] at h
  | dependency st =>
    rcases hrole with h | ⟨_, h⟩
    · simp [hf, Func.mirrors] at h
    · simp [hf, Func.plain] at h


theorem Linked.frame {w w' : World T} (hn : ∀ a, (w'.heap a).next = (w.heap a).next)
    (hp : ∀ a, (w'.heap a).prev = (w.heap a).prev) :
    ∀ l : List Addr, Linked w l → Linked w' l
  | [], _ => trivial
  | [a], h => by simpa [Linked, hn] using h
  | a :: b :: rest, h => by
    obtain ⟨h1, h2, h3⟩ := h
    exact ⟨by rw [hn, h1], by rw [hp, h2], Linked.frame hn hp (b :: rest) h3⟩

theorem Linked.tail {w : World T} {a : Addr} {l : List Addr} (h : Linked w (a :: l)) :
    Linked w l := by
  cases l with
  | nil => trivial
  | cons b rest => exact h.2.2

theorem Linked.next_head {w : World T} {a : Addr} {l : List Addr} (h : Linked w (a :: l)) :
    (w.heap a).next = l.head? := by
  cases l with
  | nil => exact h
  | cons b rest => exact h.1

theorem pass_succ (n : Nat) (type : call_type) (value : ValPtr T) (c : Addr) (w : World T) :
    pass (n + 1) type value (some c) w =
      (if (w.heap c).func.nonempty then invoke n c value type w else pure w) >>=
        fun w1 => pass n type value (w1.heap c).next w1 := by
  rw [pass]; split <;> rfl

theorem ok_bind {α β : Type} (x : α) (f : α → Except Err β) :
    (Except.ok x >>= f) = f x := rfl

/-- One loop of `notify_all` over the nodes `s`, the tail end of a list whose
owner `o` already holds `v`. -/
theorem pass_spec (o : Addr) (v : T) (type : call_type)
    (htype : type = .initial_notification ∨ type = .notification) :
    ∀ (s : List Addr) (w : World T) (n : Nat),
      Linked w s → (∀ c ∈ s, (w.heap c).owner = some o) → (w.heap o).val = v →
      (∀ c ∈ s, (w.heap c).func.mirrors ∨ (c = o ∧ (w.heap c).func.plain)) →
      s.length + 4 ≤ n →
      ∃ w', pass n type (.slot o) s.head? w = .ok w' ∧ ValFrame w w' ∧
        (∀ a, a ∉ s → (w'.heap a).val = (w.heap a).val) ∧
        (∀ a, (w'.heap a).val = v ∨ (w'.heap a).val = (w.heap a).val) ∧
        (type = .initial_notification → ∀ a ∈ s, (w'.heap a).val = v) ∧
        ∃ es, w'.log = w.log ++ es ∧
          es.map (fun e => (e.callee, e.node, e.value)) =
            (if type = .notification then
              (s.filter (fun c => (w.heap c).func.is_notifier)).map
                (fun c => (Callee.notifier, c, some v))
             else []) ∧
          ∀ e ∈ es, ∀ a, (e.heap a).val = v ∨ (e.heap a).val = (w.heap a).val := by
  intro s
  induction s with
  | nil =>
    intro w n _ _ _ _ hn
    obtain ⟨m, rfl⟩ : ∃ m, n = m + 1 := ⟨n - 1, by omega⟩
    exact ⟨w, by simp [pass, pure, Except.pure], ValFrame.refl w, fun _ _ => rfl,
      fun _ => Or.inr rfl, by simp, [], by simp, by simp, by simp⟩
  | cons c rest ih =>
    intro w n hl hown hval hrole hn
    obtain ⟨m, rfl⟩ : ∃ m, n = m + 4 := ⟨n - 4, by omega⟩
    obtain ⟨w1, h1, hf1, hv1, hc1, hlog1⟩ :=
      step_spec w o c v type m (hown c (by simp)) hval (hrole c (by simp)) htype
    have hval1 : (w1.heap o).val = v := by
      by_cases hoc : o = c
      · subst hoc
        rcases hc1 with h | ⟨_, h⟩
        · exact h
        · rw [h, hval]
      · rw [hv1 o hoc, hval]
    have hstep : ∀ a, (w1.heap a).val = v ∨ (w1.heap a).val = (w.heap a).val := by
      intro a
      by_cases hac : a = c
      · subst hac
        rcases hc1 with h | ⟨_, h⟩
        · exact Or.inl h
        · exact Or.inr h
      · exact Or.inr (hv1 a hac)
    have hl1 : Linked w1 rest := Linked.frame hf1.next hf1.prev rest hl.tail
    obtain ⟨w2, h2, hf2, hv2, hor2, hin2, es2, hlog2, hmap2, hsnap2⟩ :=
      ih w1 (m + 3) hl1 (fun a ha => by rw [hf1.owner, hown a (by simp [ha])]) hval1
        (fun a ha => by rw [hf1.func]; exact hrole a (by simp [ha])) (by simp at hn ⊢; omega)
    refine ⟨w2, ?_, hf1.trans hf2, ?_, ?_, ?_, ?_⟩
    · rw [List.head?, pass_succ, h1, ok_bind, hf1.next, hl.next_head]
      exact h2
    · intro a ha
      simp at ha
      rw [hv2 a ha.2, hv1 a ha.1]
    · intro a
      rcases hor2 a with h | h
      · exact Or.inl h
      · rw [h]; exact hstep a
    · intro ht a ha
      rcases hor2 a with h | h
      · exact h
      · simp at ha
        rcases ha with rfl | ha
        · rcases hc1 with h1 | ⟨h1, _⟩
          · rw [h, h1]
          · rw [ht] at h1; cases h1
        · exact hin2 ht a ha
    · refine ⟨_, by rw [hlog2, hlog1, List.append_assoc], ?_, ?_⟩
      · have hfilt : (fun c => (w1.heap c).func.is_notifier) = fun c => (w.heap c).func.is_notifier := by
          funext a; rw [hf1.func]
        rw [List.map_append, hmap2, hfilt]
        by_cases ht : type = .notification
        · by_cases hnf : (w.heap c).func.is_notifier = true
          · simp [ht, hnf, List.filter_cons]
          · simp [ht, hnf, List.filter_cons]
        · simp [ht]
      · intro e he a
        rw [List.mem_append] at he
        rcases he with he | he
        · split at he
          · simp at he; subst he; exact Or.inr rfl
          · simp at he
        · rcases hsnap2 e he a with h | h
          · exact Or.inl h
          · rw [h]; exact hstep a

theorem notify_all_succ (n : Nat) (this : Addr) (value : ValPtr T) (w : World T) :
    notify_all (n + 1) this value w =
      pass n .initial_notification value (some this) w >>=
        fun w1 => pass n .notification value (some this) w1 := by
  rw [notify_all]

/-- A write that passes the equality gate, on a list whose owner has a plain
handler and whose views mirror: both passes run to the end, every node of the
list ends with the new value, each installed notifier is invoked once, in list
order, with the new value, at a moment when the whole list holds it. -/
theorem set_directly_spec (w : World T) (o : Addr) (views : List Addr) (v : T) (n : Nat)
    (hl : IsList w o views) (hplain : (w.heap o).func.plain)
    (hmir : ∀ a ∈ views, (w.heap a).func.mirrors) (hne : (w.heap o).val ≠ v)
    (hn : views.length + 7 ≤ n) :
    ∃ w', set_directly_as_owner n o v w = .ok w' ∧ ValFrame w w' ∧
      (∀ a ∈ o :: views, (w'.heap a).val = v) ∧
      (∀ a, a ∉ o :: views → (w'.heap a).val = (w.heap a).val) ∧
      ∃ es, w'.log = w.log ++ es ∧
        es.map (fun e => (e.callee, e.node, e.value)) =
          ((o :: views).filter (fun c => (w.heap c).func.is_notifier)).map
            (fun c => (Callee.notifier, c, some v)) ∧
        ∀ e ∈ es, ∀ a ∈ o :: views, (e.heap a).val = v := by
  obtain ⟨m, rfl⟩ : ∃ m, n = m + 2 := ⟨n - 2, by omega⟩
  have hf0 : ValFrame w (w.setVal o v) := ValFrame.setVal w o v
  have hrole : ∀ w1 : World T, ValFrame w w1 →
      ∀ c ∈ o :: views, (w1.heap c).func.mirrors ∨ (c = o ∧ (w1.heap c).func.plain) := by
    intro w1 hf c hc
    rw [hf.func]
    simp at hc
    rcases hc with rfl | hc
    · exact Or.inr ⟨rfl, hplain⟩
    · exact Or.inl (hmir c hc)
  have hown : ∀ w1 : World T, ValFrame w w1 → ∀ c ∈ o :: views, (w1.heap c).owner = some o := by
    intro w1 hf c hc
    rw [hf.owner]; exact hl.owner c hc
  obtain ⟨w1, h1, hf1, hv1, _, hin1, es1, hlog1, hmap1, _⟩ :=
    pass_spec o v .initial_notification (Or.inl rfl) (o :: views) (w.setVal o v) m
      (Linked.frame hf0.next hf0.prev _ hl.linked) (hown _ hf0) (by simp) (hrole _ hf0)
      (by simp; omega)
  have hes1 : es1 = [] := by simpa using hmap1
  have hf01 := hf0.trans hf1
  have hval1 : (w1.heap o).val = v := hin1 rfl o (by simp)
  obtain ⟨w2, h2, hf2, hv2, hor2, _, es2, hlog2, hmap2, hsnap2⟩ :=
    pass_spec o v .notification (Or.inr rfl) (o :: views) w1 m
      (Linked.frame hf01.next hf01.prev _ hl.linked) (hown _ hf01) hval1 (hrole _ hf01)
      (by simp; omega)
  refine ⟨w2, ?_, hf01.trans hf2, ?_, ?_, es2, ?_, ?_, ?_⟩
  · rw [set_directly_as_owner]
    simp only [hne, ne_eq, not_false_eq_true, if_true]
    rw [notify_all_succ]
    simp only [List.head?] at h1 h2
    rw [h1, ok_bind, h2]
  · intro a ha
    rcases hor2 a with h | h
    · exact h
    · rw [h]; exact hin1 rfl a ha
  · intro a ha
    rw [hv2 a ha, hv1 a ha]
    simp at ha
    simp [ha.1]
  · rw [hlog2, hlog1, hes1]; simp
  · have hfilt : (fun c => (w1.heap c).func.is_notifier) = fun c => (w.heap c).func.is_notifier := by
      funext a; rw [hf01.func]
    rw [hmap2, hfilt]; simp
  · intro e he a ha
    rcases hsnap2 e he a with h | h
    · exact h
    · rw [h]; exact hin1 rfl a ha

/-! ## Construction and `attach_to` -/

@[simp] theorem alloc_heap (w : World T) (n : Node T) (a : Addr) :
    (alloc w n).heap a = if a = w.size then n else w.heap a := rfl
@[simp] theorem alloc_size (w : World T) (n : Node T) : (alloc w n).size = w.size + 1 := rfl
@[simp] theorem alloc_is_currently_binding (w : World T) (n : Node T) :
    (alloc w n).is_currently_binding = w.is_currently_binding := rfl
@[simp] theorem alloc_current (w : World T) (n : Node T) : (alloc w n).current = w.current := rfl
@[simp] theorem alloc_states (w : World T) (n : Node T) : (alloc w n).states = w.states := rfl
@[simp] theorem alloc_log (w : World T) (n : Node T) : (alloc w n).log = w.log := rfl

theorem attach_to_next (this other : Addr) (w : World T) (a : Addr) :
    ((attach_to this other w).heap a).next =
      if a = other then some this else if a = this then (w.heap other).next
      else (w.heap a).next := by
  unfold attach_to
  cases h : (w.heap other).next <;> simp [h]

theorem attach_to_prev (this other : Addr) (w : World T) (a : Addr) :
    ((attach_to this other w).heap a).prev =
      if (w.heap other).next = some a then some this else if a = this then some other
      else (w.heap a).prev := by
  unfold attach_to
  cases h : (w.heap other).next with
  | none => simp [h]
  | some nx =>
    simp [h]
    by_cases h1 : a = nx
    · simp [h1]
    · have h2 : ¬ nx = a := fun h => h1 h.symm
      simp [h1, h2]

theorem attach_to_owner (this other : Addr) (w : World T) (a : Addr) :
    ((attach_to this other w).heap a).owner =
      if a = this then (w.heap other).owner else (w.heap a).owner := by
  unfold attach_to
  cases h : (w.heap other).next <;> simp [h]

@[simp] theorem attach_to_func (this other : Addr) (w : World T) (a : Addr) :
    ((attach_to this other w).heap a).func = (w.heap a).func := by
  unfold attach_to
  cases h : (w.heap other).next <;> simp [h]

@[simp] theorem attach_to_val (this other : Addr) (w : World T) (a : Addr) :
    ((attach_to this other w).heap a).val = (w.heap a).val := by
  unfold attach_to
  cases h : (w.heap other).next <;> simp [h]

@[simp] theorem attach_to_size (this other : Addr) (w : World T) :
    (attach_to this other w).size = w.size := by
  unfold attach_to
  cases h : (w.heap other).next <;> simp [h]

@[simp] theorem attach_to_is_currently_binding (this other : Addr) (w : World T) :
    (attach_to this other w).is_currently_binding = w.is_currently_binding := by
  unfold attach_to
  cases h : (w.heap other).next <;> simp [h]

@[simp] theorem attach_to_current (this other : Addr) (w : World T) :
    (attach_to this other w).current = w.current := by
  unfold attach_to
  cases h : (w.heap other).next <;> simp [h]

@[simp] theorem attach_to_states (this other : Addr) (w : World T) :
    (attach_to this other w).states = w.states := by
  unfold attach_to
  cases h : (w.heap other).next <;> simp [h]

@[simp] theorem attach_to_log (this other : Addr) (w : World T) :
    (attach_to this other w).log = w.log := by
  unfold attach_to
  cases h : (w.heap other).next <;> simp [h]

theorem property_copy_size (s : Addr) (w : World T) : (property_copy s w).size = w.size + 1 := by
  simp [property_copy]

theorem property_copy_owner (s : Addr) (w : World T) (hs : s ≠ w.size) (a : Addr) :
    ((property_copy s w).heap a).owner =
      if a = w.size then (w.heap s).owner else (w.heap a).owner := by
  simp [property_copy, attach_to_owner, hs]
  split_ifs <;> simp_all

theorem property_copy_next (s : Addr) (w : World T) (hs : s ≠ w.size) (a : Addr) :
    ((property_copy s w).heap a).next =
      if a = s then some w.size else if a = w.size then (w.heap s).next
      else (w.heap a).next := by
  simp [property_copy, attach_to_next, hs]
  split_ifs <;> simp_all

theorem property_copy_prev (s : Addr) (w : World T) (hs : s ≠ w.size) (a : Addr) :
    ((property_copy s w).heap a).prev =
      if (w.heap s).next = some a then some w.size else if a = w.size then some s
      else (w.heap a).prev := by
  simp [property_copy, attach_to_prev, hs]
  split_ifs <;> simp_all

theorem property_copy_func (s : Addr) (w : World T) (a : Addr) :
    ((property_copy s w).heap a).func =
      if a = w.size then .default_notifier else (w.heap a).func := by
  simp [property_copy]
  split_ifs <;> simp_all

theorem property_copy_val (s : Addr) (w : World T) (hs : s ≠ w.size) (a : Addr) :
    ((property_copy s w).heap a).val =
      if a = w.size then (w.heap s).val else (w.heap a).val := by
  simp [property_copy, hs]
  split_ifs <;> simp_all


/-! ## Lists under insertion -/

theorem mem_insert_after (s new a : Addr) : ∀ l : List Addr, s ∈ l →
    (a ∈ insert_after s new l ↔ a ∈ l ∨ a = new)
  | [], h => by simp at h
  | b :: l, h => by
    unfold insert_after
    by_cases hb : b = s
    · simp [hb]; tauto
    · have hs : s ∈ l := by
        simp at h; rcases h with h | h
        · exact absurd h.symm hb
        · exact h
      simp [hb, mem_insert_after s new a l hs]; tauto

theorem insert_after_of_not_mem (s new : Addr) : ∀ l : List Addr, s ∉ l →
    insert_after s new l = l
  | [], _ => rfl
  | b :: l, h => by
    simp at h
    unfold insert_after
    have hb : ¬ b = s := fun hb => h.1 hb.symm
    simp [hb, insert_after_of_not_mem s new l h.2]

theorem nodup_insert_after (s new : Addr) : ∀ l : List Addr, l.Nodup → new ∉ l →
    (insert_after s new l).Nodup
  | [], _, _ => by simp [insert_after]
  | b :: l, hnd, hnew => by
    simp at hnew hnd
    unfold insert_after
    by_cases hb : b = s
    · simp [hb]
      subst hb
      exact ⟨⟨fun h => hnew.1 h.symm, hnd.1⟩, hnew.2, hnd.2⟩
    · simp [hb]
      refine ⟨?_, nodup_insert_after s new l hnd.2 hnew.2⟩
      by_cases hs : s ∈ l
      · rw [mem_insert_after s new b l hs]
        intro h
        rcases h with h | h
        · exact hnd.1 h
        · exact hnew.1 h.symm
      · rw [insert_after_of_not_mem s new l hs]; exact hnd.1

theorem length_insert_after (s new : Addr) : ∀ l : List Addr, s ∈ l →
    (insert_after s new l).length = l.length + 1
  | [], h => by simp at h
  | b :: l, h => by
    unfold insert_after
    by_cases hb : b = s
    · simp [hb]
    · have hs : s ∈ l := by
        simp at h; rcases h with h | h
        · exact absurd h.symm hb
        · exact h
      simp [hb, length_insert_after s new l hs]

theorem insert_after_cons_tail (s new o : Addr) (l : List Addr) :
    insert_after s new (o :: l) = o :: (insert_after s new (o :: l)).tail := by
  unfold insert_after
  split <;> rfl

theorem Linked.next_mem {w : World T} {x y : Addr} : ∀ {a : Addr} {l : List Addr},
    Linked w (a :: l) → x ∈ a :: l → (w.heap x).next = some y → y ∈ l
  | a, [], h, hx, hy => by
    simp at hx; subst hx
    simp [Linked] at h
    rw [h] at hy; cases hy
  | a, b :: rest, h, hx, hy => by
    simp only [List.mem_cons] at hx
    rcases hx with rfl | hx
    · rw [h.1] at hy
      cases hy; simp
    · have := Linked.next_mem h.2.2 (List.mem_cons.mpr hx) hy
      exact List.mem_cons_of_mem _ this

theorem Linked.congr {w w' : World T} : ∀ l : List Addr,
    (∀ a ∈ l, (w'.heap a).next = (w.heap a).next) →
    (∀ a ∈ l.tail, (w'.heap a).prev = (w.heap a).prev) → Linked w l → Linked w' l
  | [], _, _, _ => trivial
  | [a], hn, _, h => by
    simp only [Linked] at h ⊢
    rw [hn a (by simp), h]
  | a :: b :: rest, hn, hp, h => by
    obtain ⟨h1, h2, h3⟩ := h
    refine ⟨by rw [hn a (by simp), h1], by rw [hp b (by simp), h2], ?_⟩
    exact Linked.congr (b :: rest) (fun x hx => hn x (List.mem_cons_of_mem _ hx))
      (fun x hx => hp x (by simp at hx ⊢; exact Or.inr hx)) h3

/-- Copy construction puts the new node right behind its source. -/
theorem Linked.copy (w : World T) (s : Addr) (hsz : s ≠ w.size) : ∀ l : List Addr,
    Linked w l → l.Nodup → w.size ∉ l → s ∈ l →
    Linked (property_copy s w) (insert_after s w.size l)
  | [], _, _, _, hs => by simp at hs
  | [a], h, _, hnew, hs => by
    simp at hs; subst hs
    simp only [Linked] at h
    simp [insert_after, Linked, property_copy_next, property_copy_prev, hsz, Ne.symm hsz, h]
  | a :: b :: rest, h, hnd, hnew, hs => by
    obtain ⟨h1, h2, h3⟩ := h
    have hnd' : (b :: rest).Nodup := (List.nodup_cons.mp hnd).2
    have ha : a ∉ b :: rest := (List.nodup_cons.mp hnd).1
    have hnewa : a ≠ w.size := fun h => hnew (by simp [h])
    have hnew' : w.size ∉ b :: rest := fun h => hnew (List.mem_cons_of_mem _ h)
    unfold insert_after
    by_cases has : a = s
    · subst has
      simp only [if_true]
      have hbn : b ≠ w.size := fun h => hnew' (by simp [h])
      have hab : ¬ b = a := fun h => ha (by simp [h])
      refine ⟨by simp [property_copy_next, hsz], ?_, ?_⟩
      · simp [property_copy_prev, hsz, h1, hbn]
      refine ⟨by simp [property_copy_next, hsz, Ne.symm hsz, h1], by simp [property_copy_prev, hsz, h1], ?_⟩
      refine Linked.congr (b :: rest) ?_ ?_ h3
      · intro x hx
        have hxa : x ≠ a := fun h => ha (h ▸ hx)
        have hxn : x ≠ w.size := fun h => hnew' (h ▸ hx)
        simp [property_copy_next, hsz, hxa, hxn]
      · intro x hx
        simp only [List.tail] at hx
        have hxn : x ≠ w.size := fun h => hnew' (h ▸ List.mem_cons_of_mem _ hx)
        have hxb : b ≠ x := fun h => (List.nodup_cons.mp hnd').1 (h ▸ hx)
        simp [property_copy_prev, hsz, h1, hxn, hxb]
    · simp only [has, if_false]
      have hs' : s ∈ b :: rest := by
        simp only [List.mem_cons] at hs
        rcases hs with hs | hs
        · exact absurd hs.symm has
        · exact List.mem_cons.mpr hs
      have ih := Linked.copy w s hsz (b :: rest) h3 hnd' hnew' hs'
      rw [insert_after_cons_tail] at ih ⊢
      refine ⟨by simp [property_copy_next, hsz, has, hnewa, h1], ?_, ih⟩
      have hsb : (w.heap s).next ≠ some b := by
        intro hsb
        have := Linked.next_mem h3 hs' hsb
        exact (List.nodup_cons.mp hnd').1 this
      have hbn : b ≠ w.size := fun h => hnew' (by simp [h])
      simp [property_copy_prev, hsz, hsb, hbn, h2]


theorem IsList.copy_view {w : World T} {o : Addr} {views : List Addr} (hl : IsList w o views)
    {s : Addr} (hs : s ∈ o :: views) (hnew : w.size ∉ o :: views) :
    IsList (property_copy s w) o (insert_after s w.size (o :: views)).tail := by
  have hsz : s ≠ w.size := fun h => hnew (h ▸ hs)
  have hoz : o ≠ w.size := fun h => hnew (by simp [h])
  refine ⟨?_, ?_, ?_, ?_⟩
  · rw [← insert_after_cons_tail]
    exact nodup_insert_after s w.size _ hl.nodup hnew
  · rw [← insert_after_cons_tail]
    exact Linked.copy w s hsz _ hl.linked hl.nodup hnew hs
  · have hso : (w.heap s).next ≠ some o := by
      intro h
      have := Linked.next_mem hl.linked hs h
      exact (List.nodup_cons.mp hl.nodup).1 this
    simp [property_copy_prev, hsz, hso, hoz, hl.head]
  · intro a ha
    rw [← insert_after_cons_tail, mem_insert_after s w.size a _ hs] at ha
    rw [property_copy_owner s w hsz]
    rcases ha with ha | ha
    · have : a ≠ w.size := fun h => hnew (h ▸ ha)
      simp [this, hl.owner a ha]
    · simp [ha, hl.owner s hs]

/-- The state reached by `copies`: one list, headed by the owner, that holds
every object made, each view with the default handler and the value `v1`. -/
theorem copies_spec (w0 : World T) (v1 : T) : ∀ script : List Nat, valid_script script →
    ∃ views, IsList (copies w0 v1 script) w0.size views ∧
      (copies w0 v1 script).size = w0.size + script.length + 1 ∧
      (∀ a, a ∈ w0.size :: views ↔ w0.size ≤ a ∧ a < w0.size + script.length + 1) ∧
      views.length = script.length ∧
      ((copies w0 v1 script).heap w0.size).func = .default_setter ∧
      (∀ a ∈ views, ((copies w0 v1 script).heap a).func = .default_notifier) ∧
      (∀ a ∈ w0.size :: views, ((copies w0 v1 script).heap a).val = v1) ∧
      (copies w0 v1 script).log = w0.log
  | [], _ => by
    refine ⟨[], ⟨by simp, ?_, ?_, ?_⟩, ?_, ?_, rfl, ?_, by simp, ?_, ?_⟩
    · simp [Linked, copies, property_new]
    · simp [copies, property_new]
    · simp [copies, property_new]
    · simp [copies, property_new]
    · intro a; simp; omega
    · simp [copies, property_new]
    · simp [copies, property_new]
    · simp [copies, property_new]
  | s :: rest, hvalid => by
    obtain ⟨hs, hrest⟩ := hvalid
    obtain ⟨views, hl, hsize, hmem, hlen, hfo, hfv, hval, hlog⟩ := copies_spec w0 v1 rest hrest
    have hsrc : w0.size + s ∈ w0.size :: views := (hmem _).mpr ⟨by omega, by omega⟩
    have hnew : (copies w0 v1 rest).size ∉ w0.size :: views := by
      rw [hmem, hsize]; omega
    have hsz : w0.size + s ≠ (copies w0 v1 rest).size := fun h => hnew (h ▸ hsrc)
    have hmem' : ∀ a, a ∈ w0.size :: (insert_after (w0.size + s) (copies w0 v1 rest).size
        (w0.size :: views)).tail ↔ a ∈ w0.size :: views ∨ a = (copies w0 v1 rest).size := by
      intro a
      rw [← insert_after_cons_tail, mem_insert_after _ _ _ _ hsrc]
    refine ⟨_, hl.copy_view hsrc hnew, ?_, ?_, ?_, ?_, ?_, ?_, ?_⟩
    · simp only [copies]; rw [property_copy_size, hsize]; simp; omega
    · intro a
      rw [hmem', hmem, hsize]; simp; omega
    · have := length_insert_after (w0.size + s) (copies w0 v1 rest).size _ hsrc
      rw [insert_after_cons_tail] at this
      simp at this ⊢
      omega
    · simp only [copies]
      rw [property_copy_func]
      have : w0.size ≠ (copies w0 v1 rest).size := by rw [hsize]; omega
      simp [this, hfo]
    · intro a ha
      have ha' := (hmem' a).mp (List.mem_cons_of_mem _ ha)
      simp only [copies]
      rw [property_copy_func]
      by_cases han : a = (copies w0 v1 rest).size
      · simp [han]
      · simp only [han, if_false]
        rcases ha' with ha' | ha'
        · simp only [List.mem_cons] at ha'
          rcases ha' with rfl | ha'
          · exfalso
            have hnd := (hl.copy_view hsrc hnew).nodup
            exact (List.nodup_cons.mp hnd).1 ha
          · exact hfv a ha'
        · exact absurd ha' han
    · intro a ha
      have ha' := (hmem' a).mp ha
      simp only [copies]
      rw [property_copy_val _ _ hsz]
      by_cases han : a = (copies w0 v1 rest).size
      · simp [han, hval _ hsrc]
      · simp only [han, if_false]
        rcases ha' with ha' | ha'
        · exact hval a ha'
        · exact absurd ha' han
    · simp only [copies]
      simp [property_copy, hlog]


/-! ## C1: view mirroring -/

/-- Outside a binding evaluation, `value()` returns the content of the value
slot and changes nothing. -/
theorem value_reads_slot (w : World T) (a : Addr) (h : w.is_currently_binding = false) :
    value a w = .ok ((w.heap a).val, w) := by
  simp [value, h, bind, Except.bind, pure, Except.pure]

theorem assign_succ (n : Nat) (this : Addr) (val : T) (w : World T) :
    assign (n + 1) this val w =
      if is_owner w this then set_directly_as_owner n this val w else pure w := by
  rw [assign]

theorem set_directly_gate (n : Nat) (this : Addr) (w : World T) :
    set_directly_as_owner (n + 1) this (w.heap this).val w = .ok w := by
  rw [set_directly_as_owner]; simp [pure, Except.pure]

theorem IsList.is_owner {w : World T} {o : Addr} {views : List Addr} (hl : IsList w o views) :
    is_owner w o = true := by
  simp [bindable_properties.is_owner, hl.owner o (by simp)]

theorem IsList.is_view {w : World T} {o : Addr} {views : List Addr} (hl : IsList w o views)
    {a : Addr} (ha : a ∈ views) : is_view w a = true := by
  have hne : o ≠ a := fun h => (List.nodup_cons.mp hl.nodup).1 (h ▸ ha)
  simp [bindable_properties.is_view, bindable_properties.is_owner, is_zombie,
    hl.owner a (List.mem_cons_of_mem _ ha), hne]

theorem IsList.val_frame {w w' : World T} {o : Addr} {views : List Addr} (hl : IsList w o views)
    (hf : ValFrame w w') : IsList w' o views :=
  ⟨hl.nodup, Linked.frame hf.next hf.prev _ hl.linked, by rw [hf.prev, hl.head],
   fun a ha => by rw [hf.owner, hl.owner a ha]⟩

/-- C1 (view mirroring): for every script creating N views by copy
construction from the owner or from an earlier view, the owner and all N
views hold v1 before the owner is assigned v2 and hold v2 after it (the
assignment returns for every fuel of at least N + 8), the owner is the owner
and every view is a view, before and after. -/
theorem view_mirroring (w0 : World T) (v1 v2 : T) (script : List Nat)
    (hvalid : valid_script script) :
    (∀ i, i ≤ script.length → ((copies w0 v1 script).heap (w0.size + i)).val = v1) ∧
    is_owner (copies w0 v1 script) w0.size = true ∧
    (∀ i, 1 ≤ i → i ≤ script.length → is_view (copies w0 v1 script) (w0.size + i) = true) ∧
    ∀ fuel, script.length + 8 ≤ fuel →
      ∃ w', assign fuel w0.size v2 (copies w0 v1 script) = .ok w' ∧
        (∀ i, i ≤ script.length → (w'.heap (w0.size + i)).val = v2) ∧
        is_owner w' w0.size = true ∧
        (∀ i, 1 ≤ i → i ≤ script.length → is_view w' (w0.size + i) = true) := by
  obtain ⟨views, hl, hsize, hmem, hlen, hfo, hfv, hval, _⟩ := copies_spec w0 v1 script hvalid
  have hin : ∀ i, i ≤ script.length → w0.size + i ∈ w0.size :: views :=
    fun i hi => (hmem _).mpr ⟨by omega, by omega⟩
  have hinv : ∀ i, 1 ≤ i → i ≤ script.length → w0.size + i ∈ views := by
    intro i h1 hi
    have := hin i hi
    simp only [List.mem_cons] at this
    rcases this with h | h
    · omega
    · exact h
  refine ⟨fun i hi => hval _ (hin i hi), hl.is_owner, fun i h1 hi => hl.is_view (hinv i h1 hi), ?_⟩
  intro fuel hfuel
  obtain ⟨m, rfl⟩ : ∃ m, fuel = m + 1 := ⟨fuel - 1, by omega⟩
  rw [assign_succ, hl.is_owner, if_pos rfl]
  by_cases hne : ((copies w0 v1 script).heap w0.size).val = v2
  · obtain ⟨k, rfl⟩ : ∃ k, m = k + 1 := ⟨m - 1, by omega⟩
    refine ⟨copies w0 v1 script, ?_, ?_, hl.is_owner, fun i h1 hi => hl.is_view (hinv i h1 hi)⟩
    · rw [← hne]; exact set_directly_gate _ _ _
    · intro i hi
      rw [hval _ (hin i hi), ← hne, hval _ (List.mem_cons_self _ _)]
  · obtain ⟨w', h1, hf, hv, _, _⟩ := set_directly_spec (copies w0 v1 script) w0.size views v2 m hl
      (by rw [hfo]; trivial) (fun a ha => by rw [hfv a ha]; trivial) hne (by omega)
    have hl' := hl.val_frame hf
    exact ⟨w', h1, fun i hi => hv _ (hin i hi), hl'.is_owner,
      fun i h1 hi => hl'.is_view (hinv i h1 hi)⟩

/-- Three views, the second copied from the first view, the third from the owner. -/
theorem view_mirroring_witness :
    valid_script [0, 1, 0] ∧
      ∃ w', assign 11 0 (2 : Int) (copies (World.init 0) 1 [0, 1, 0]) = .ok w' ∧
        (w'.heap 3).val = 2 :=
  ⟨by decide, by
    obtain ⟨w', h, hv, _⟩ := (view_mirroring (World.init (0 : Int)) 1 2 [0, 1, 0] (by decide)).2.2.2 11
      (by decide)
    exact ⟨w', h, hv 3 (by decide)⟩⟩

/-! ## C2: setter indirection with the default handler -/

theorem request_change_succ (n : Nat) (this : Addr) (val : T) (w : World T) :
    request_change (n + 1) this val w =
      match (w.heap this).owner with
      | some o => set_using_setter_as_owner n o val w
      | none => pure w := by
  rw [request_change]

theorem set_using_setter_succ (n : Nat) (this : Addr) (new_val : T) (w : World T) :
    set_using_setter_as_owner (n + 1) this new_val w =
      if (w.heap this).val ≠ new_val then invoke n this (.imm new_val) .setter w
      else pure w := by
  rw [set_using_setter_as_owner]

/-- A request that passes the equality gate and reaches an owner with the
default handler is a direct write. -/
theorem request_default (w : World T) (o c : Addr) (v : T) (n : Nat)
    (hown : (w.heap c).owner = some o) (hself : (w.heap o).owner = some o)
    (hfunc : (w.heap o).func = .default_setter) (hne : (w.heap o).val ≠ v) :
    request_change (n + 4) c v w = set_directly_as_owner n o v w := by
  have ho : is_owner w o = true := by simp [is_owner, hself]
  rw [request_change_succ, hown]
  simp only
  rw [set_using_setter_succ, if_pos hne, invoke]
  simp only [hfunc, deref, bind, Except.bind]
  rw [assign_succ, ho, if_pos rfl]

/-- C2 (setter indirection, default handler): on a list whose owner has the
default handler and whose views mirror it, `request_change(v)` called on any
view returns (for every fuel of at least the number of views plus 11) and
leaves the owner and every view, the caller included, holding `v`; the
links, owners and handlers are untouched. -/
theorem request_change_default_handler (w : World T) (o : Addr) (views : List Addr) (c : Addr)
    (v : T) (hl : IsList w o views) (hfunc : (w.heap o).func = .default_setter)
    (hmir : ∀ a ∈ views, (w.heap a).func.mirrors)
    (hsync : ∀ a ∈ views, (w.heap a).val = (w.heap o).val) (hc : c ∈ views) :
    ∀ fuel, views.length + 11 ≤ fuel →
      ∃ w', request_change fuel c v w = .ok w' ∧ (w'.heap o).val = v ∧
        (∀ a ∈ views, (w'.heap a).val = v) ∧ (w'.heap c).val = v ∧ ValFrame w w' := by
  intro fuel hfuel
  have hown : (w.heap c).owner = some o := hl.owner c (List.mem_cons_of_mem _ hc)
  have hself : (w.heap o).owner = some o := hl.owner o (List.mem_cons_self _ _)
  by_cases hne : (w.heap o).val = v
  · obtain ⟨m, rfl⟩ : ∃ m, fuel = m + 2 := ⟨fuel - 2, by omega⟩
    refine ⟨w, ?_, hne, fun a ha => by rw [hsync a ha, hne], by rw [hsync c hc, hne],
      ValFrame.refl w⟩
    rw [request_change_succ, hown]
    simp only
    rw [set_using_setter_succ]
    simp [hne, pure, Except.pure]
  · obtain ⟨m, rfl⟩ : ∃ m, fuel = m + 4 := ⟨fuel - 4, by omega⟩
    obtain ⟨w', h1, hf, hv, _, _⟩ := set_directly_spec w o views v m hl
      (by rw [hfunc]; trivial) hmir hne (by omega)
    rw [request_default w o c v m hown hself hfunc hne]
    exact ⟨w', h1, hv o (List.mem_cons_self _ _), fun a ha => hv a (List.mem_cons_of_mem _ ha),
      hv c (List.mem_cons_of_mem _ hc), hf⟩

/-- An owner holding 1 with two views; the request comes from the view at address 2. -/
theorem request_change_default_handler_witness :
    IsList (copies (World.init (0 : Int)) 1 [0, 0]) 0 [2, 1] ∧
      ∃ w', request_change 13 2 7 (copies (World.init (0 : Int)) 1 [0, 0]) = .ok w' ∧
        (w'.heap 0).val = 7 ∧ (w'.heap 1).val = 7 :=
  have hl : IsList (copies (World.init (0 : Int)) 1 [0, 0]) 0 [2, 1] :=
    ⟨by decide, by decide, by decide, by decide⟩
  ⟨hl, by
    obtain ⟨w', h, h0, hv, _⟩ := request_change_default_handler
      (copies (World.init (0 : Int)) 1 [0, 0]) 0 [2, 1] 2 7 hl rfl
      (by intro a ha; simp at ha; rcases ha with rfl | rfl <;> trivial)
      (by decide) (by decide) 13 (by decide)
    exact ⟨w', h, h0, hv 1 (by decide)⟩⟩


/-! ## C3: a custom setter decides -/

theorem IsList.same_links {w w' : World T} {o : Addr} {views : List Addr} (hl : IsList w o views)
    (ho : ∀ a, (w'.heap a).owner = (w.heap a).owner)
    (hn : ∀ a, (w'.heap a).next = (w.heap a).next)
    (hp : ∀ a, (w'.heap a).prev = (w.heap a).prev) : IsList w' o views :=
  ⟨hl.nodup, Linked.frame hn hp _ hl.linked, by rw [hp, hl.head],
   fun a ha => by rw [ho, hl.owner a ha]⟩

theorem run_succ_cons (n : Nat) (s : Stmt T) (rest : List (Stmt T)) (w : World T) :
    run (n + 1) (s :: rest) w = exec n s w >>= fun w1 => run n rest w1 := by
  rw [run]

theorem exec_assign_lit (n : Nat) (p : Addr) (x : T) (w : World T) :
    exec (n + 1) (.assign p (.lit x)) w = assign n p x w := by
  rw [exec]; rfl

theorem calls_append (w w' : World T) (es : List (Event T)) (h : w'.log = w.log ++ es) :
    calls w' = calls w ++ es.map (fun e => (e.callee, e.node, e.value)) := by
  simp [calls, h]

/-- C3 (custom setter decides): after `set_setter` installed `s` on the owner
`o`, a `request_change(v)` from the owner or any view, with `v` different
from the owner's value, is exactly one recorded invocation of `s` on `o`
with `v` followed by the body of `s` and nothing else.  When `s` does
nothing, the heap is unchanged.  When `s` assigns its argument to the
owner and the views mirror, the owner and every view end with `v`, and
after the setter exactly the notifiers installed on the views are invoked,
each once, with `v`. -/
theorem custom_setter_decides (w0 : World T) (o : Addr) (views : List Addr) (c : Addr) (v : T)
    (s : Callable T) (hl : IsList w0 o views) (hc : c ∈ o :: views)
    (hne : (w0.heap o).val ≠ v) :
    (set_setter o s w0).1 = true ∧
    (∀ fuel, request_change (fuel + 3) c v (set_setter o s w0).2 =
      run fuel (s o v) ((set_setter o s w0).2.record .setter o (some v))) ∧
    (s o v = [] → ∀ fuel, 4 ≤ fuel →
      ∃ w', request_change fuel c v (set_setter o s w0).2 = .ok w' ∧
        w'.heap = (set_setter o s w0).2.heap ∧
        calls w' = calls (set_setter o s w0).2 ++ [(.setter, o, some v)]) ∧
    (s = (fun p x => [Stmt.assign p (.lit x)]) → (∀ a ∈ views, (w0.heap a).func.mirrors) →
      ∀ fuel, views.length + 13 ≤ fuel →
        ∃ w', request_change fuel c v (set_setter o s w0).2 = .ok w' ∧
          (∀ a ∈ o :: views, (w'.heap a).val = v) ∧
          calls w' = calls (set_setter o s w0).2 ++ (.setter, o, some v) ::
            (views.filter (fun a => (w0.heap a).func.is_notifier)).map
              (fun a => (Callee.notifier, a, some v))) := by
  have ho : is_owner w0 o = true := hl.is_owner
  have hset : set_setter o s w0 = (true, w0.setFunc o (.property_setter s)) := by
    simp [set_setter, ho]
  rw [hset]
  simp only
  have hown : ((w0.setFunc o (.property_setter s)).heap c).owner = some o := by
    simp [hl.owner c hc]
  have hne' : ((w0.setFunc o (.property_setter s)).heap o).val ≠ v := by simpa using hne
  have hstep : ∀ fuel, request_change (fuel + 3) c v (w0.setFunc o (.property_setter s)) =
      run fuel (s o v) ((w0.setFunc o (.property_setter s)).record .setter o (some v)) := by
    intro fuel
    rw [request_change_succ, hown]
    simp only
    rw [set_using_setter_succ, if_pos hne', invoke]
    simp [deref, bind, Except.bind]
  refine ⟨trivial, hstep, ?_, ?_⟩
  · intro hs fuel hfuel
    obtain ⟨m, rfl⟩ : ∃ m, fuel = m + 1 + 3 := ⟨fuel - 4, by omega⟩
    refine ⟨(w0.setFunc o (.property_setter s)).record .setter o (some v),
      by rw [hstep, hs, run_nil], rfl, ?_⟩
    simp [calls, World.record]
  · intro hs hmir fuel hfuel
    have hbody : s o v = [Stmt.assign o (.lit v)] := by rw [hs]
    obtain ⟨m, rfl⟩ : ∃ m, fuel = m + 1 + 1 + 1 + 3 := ⟨fuel - 6, by omega⟩
    have hl1 : IsList ((w0.setFunc o (.property_setter s)).record .setter o (some v)) o views :=
      hl.same_links (fun a => by simp) (fun a => by simp) (fun a => by simp)
    have hvo : ∀ a ∈ views, a ≠ o := fun a ha h => (List.nodup_cons.mp hl.nodup).1 (h ▸ ha)
    obtain ⟨w', h1, hf, hv, _, es, hlog, hmap, _⟩ :=
      set_directly_spec ((w0.setFunc o (.property_setter s)).record .setter o (some v)) o views v m
        hl1 (by simp [Func.plain])
        (fun a ha => by simpa [hvo a ha] using hmir a ha) (by simpa using hne) (by omega)
    refine ⟨w', ?_, hv, ?_⟩
    · rw [hstep, hbody, run_succ_cons, exec_assign_lit, assign_succ, hl1.is_owner, if_pos rfl, h1,
        ok_bind, run_nil]
    · rw [calls_append _ _ es hlog, hmap]
      have hfilt : (o :: views).filter (fun c => (((w0.setFunc o (.property_setter s)).record
          .setter o (some v)).heap c).func.is_notifier) =
          views.filter (fun a => (w0.heap a).func.is_notifier) := by
        rw [List.filter_cons]
        simp only [record_heap, heap_setFunc_func, if_true, Func.is_notifier]
        simp only [Bool.false_eq_true, if_false]
        apply List.filter_congr
        intro a ha
        simp [hvo a ha]
      rw [hfilt]
      simp [calls, World.record]

/-- The test `BasicSetterAndNotifier`: the owner's setter assigns its
argument, the view has a notifier, and the request comes from the view. -/
theorem custom_setter_decides_witness :
    IsList (set_notifier 1 (fun _ _ => []) (copies (World.init (0 : Int)) 0 [0])).2 0 [1] ∧
    (1 : Addr) ∈ [0, 1] ∧
    ((set_notifier 1 (fun _ _ => []) (copies (World.init (0 : Int)) 0 [0])).2.heap 0).val ≠ 123 ∧
    ∃ w', request_change 14 1 123 (set_setter 0 (fun p x => [Stmt.assign p (.lit x)])
        (set_notifier 1 (fun _ _ => []) (copies (World.init (0 : Int)) 0 [0])).2).2 = .ok w' ∧
      (w'.heap 0).val = 123 ∧ (w'.heap 1).val = 123 ∧
      calls w' = [(.setter, 0, some 123), (.notifier, 1, some 123)] :=
  have hl : IsList (set_notifier 1 (fun _ _ => []) (copies (World.init (0 : Int)) 0 [0])).2 0 [1] :=
    ⟨by decide, by decide, by decide, by decide⟩
  ⟨hl, by decide, by decide, by
    obtain ⟨w', h, hv, hcalls⟩ := (custom_setter_decides
      (set_notifier 1 (fun _ _ => []) (copies (World.init (0 : Int)) 0 [0])).2 0 [1] 1 123
      (fun p x => [Stmt.assign p (.lit x)]) hl (by decide) (by decide)).2.2.2 rfl
      (by intro a ha; simp at ha; subst ha; exact fun _ _ => rfl) 14 (by decide)
    exact ⟨w', h, hv 0 (by decide), hv 1 (by decide), by rw [hcalls]; rfl⟩⟩


/-! ## Retargeting, detaching and moving -/

theorem OwnerFrame.same (w : World T) : OwnerFrame w w :=
  ⟨fun _ => rfl, fun _ => rfl, fun _ => rfl, fun _ => rfl, rfl, rfl, rfl, rfl, rfl⟩

theorem OwnerFrame.chain {w1 w2 w3 : World T} (h12 : OwnerFrame w1 w2)
    (h23 : OwnerFrame w2 w3) : OwnerFrame w1 w3 :=
  ⟨fun a => (h23.next a).trans (h12.next a), fun a => (h23.prev a).trans (h12.prev a),
   fun a => (h23.func a).trans (h12.func a), fun a => (h23.val a).trans (h12.val a),
   h23.size.trans h12.size, h23.binding.trans h12.binding, h23.current.trans h12.current,
   h23.states.trans h12.states, h23.log.trans h12.log⟩

theorem OwnerFrame.setOwner (w : World T) (a : Addr) (o : Option Addr) :
    OwnerFrame w (w.setOwner a o) :=
  ⟨fun _ => by simp, fun _ => by simp, fun _ => by simp, fun _ => by simp, rfl, rfl, rfl, rfl,
   rfl⟩

/-- The owner-rewriting loop along a linked run `s` of nodes: it returns and
has set exactly their owner pointers. -/
theorem retarget_spec (o' : Option Addr) : ∀ (s : List Addr) (w : World T) (n : Nat),
    Linked w s → s.length + 1 ≤ n →
    ∃ w', retarget n s.head? o' w = .ok w' ∧ OwnerFrame w w' ∧
      ∀ a, (w'.heap a).owner = if a ∈ s then o' else (w.heap a).owner
  | [], w, n, _, hn => by
    obtain ⟨m, rfl⟩ : ∃ m, n = m + 1 := ⟨n - 1, by omega⟩
    exact ⟨w, by simp [retarget], OwnerFrame.same w, by simp⟩
  | c :: rest, w, n, hl, hn => by
    obtain ⟨m, rfl⟩ : ∃ m, n = m + 1 := ⟨n - 1, by simp at hn; omega⟩
    have hf1 := OwnerFrame.setOwner w c o'
    obtain ⟨w', h, hf, ho⟩ := retarget_spec o' rest (w.setOwner c o') m
      (Linked.frame hf1.next hf1.prev rest hl.tail) (by simp at hn; omega)
    refine ⟨w', ?_, hf1.chain hf, ?_⟩
    · rw [List.head?, retarget]
      simp only [heap_setOwner_next]
      rw [hl.next_head]; exact h
    · intro a
      rw [ho a]
      by_cases har : a ∈ rest
      · simp [har]
      · by_cases hac : a = c
        · simp [hac]
        · simp [har, hac]

/-- The method `detach` on a node that is not the owner of a list with
other nodes: no loop runs. -/
theorem detach_plain (n : Nat) (this : Addr) (w : World T)
    (h : is_owner w this = false ∨ (w.heap this).next = none) :
    detach n this w = .ok ((((
      if is_owner w this then w else
        (match (match (w.heap this).prev with
            | some p => w.setNext p (w.heap this).next
            | none => w) with
         | wa => match (wa.heap this).next with
            | some nx => wa.setPrev nx (wa.heap this).prev
            | none => wa)).setNext this none).setPrev this none).setOwner this none) := by
  unfold detach
  by_cases ho : is_owner w this = true
  · have hn : (w.heap this).next = none := by
      rcases h with h | h
      · rw [ho] at h; cases h
      · exact h
    simp [ho, hn, bind, Except.bind, pure, Except.pure]
  · simp [ho, bind, Except.bind, pure, Except.pure]


/-- The method `attach_to` puts `this` right behind `other` in the list of `other`. -/
theorem Linked.attach (w : World T) (this s : Addr) : ∀ l : List Addr,
    Linked w l → l.Nodup → this ∉ l → s ∈ l →
    Linked (attach_to this s w) (insert_after s this l)
  | [], _, _, _, hs => by simp at hs
  | [a], h, _, hnew, hs => by
    simp at hs; subst hs
    simp only [Linked] at h
    have hsz : s ≠ this := fun h => hnew (by simp [h])
    simp [insert_after, Linked, attach_to_next, attach_to_prev, hsz, Ne.symm hsz, h]
  | a :: b :: rest, h, hnd, hnew, hs => by
    obtain ⟨h1, h2, h3⟩ := h
    have hnd' : (b :: rest).Nodup := (List.nodup_cons.mp hnd).2
    have ha : a ∉ b :: rest := (List.nodup_cons.mp hnd).1
    have hnewa : a ≠ this := fun h => hnew (by simp [h])
    have hnew' : this ∉ b :: rest := fun h => hnew (List.mem_cons_of_mem _ h)
    have hsz : s ≠ this := fun h => hnew (h ▸ hs)
    have hbn : b ≠ this := fun h => hnew' (by simp [h])
    unfold insert_after
    by_cases has : a = s
    · subst has
      simp only [if_true]
      have hab : ¬ b = a := fun h => ha (by simp [h])
      refine ⟨by simp [attach_to_next], ?_, ?_⟩
      · simp [attach_to_prev, h1, hbn]
      refine ⟨by simp [attach_to_next, Ne.symm hsz, h1], by simp [attach_to_prev, h1], ?_⟩
      refine Linked.congr (b :: rest) ?_ ?_ h3
      · intro x hx
        have hxa : x ≠ a := fun h => ha (h ▸ hx)
        have hxn : x ≠ this := fun h => hnew' (h ▸ hx)
        simp [attach_to_next, hxa, hxn]
      · intro x hx
        simp only [List.tail] at hx
        have hxn : x ≠ this := fun h => hnew' (h ▸ List.mem_cons_of_mem _ hx)
        have hxb : b ≠ x := fun h => (List.nodup_cons.mp hnd').1 (h ▸ hx)
        simp [attach_to_prev, h1, hxn, hxb]
    · simp only [has, if_false]
      have hs' : s ∈ b :: rest := by
        simp only [List.mem_cons] at hs
        rcases hs with hs | hs
        · exact absurd hs.symm has
        · exact List.mem_cons.mpr hs
      have ih := Linked.attach w this s (b :: rest) h3 hnd' hnew' hs'
      rw [insert_after_cons_tail] at ih ⊢
      refine ⟨by simp [attach_to_next, has, hnewa, h1], ?_, ih⟩
      have hsb : (w.heap s).next ≠ some b := by
        intro hsb
        have := Linked.next_mem h3 hs' hsb
        exact (List.nodup_cons.mp hnd').1 this
      simp [attach_to_prev, hsb, hbn, h2]

/-- The base move assignment into a node `z` without neighbours, from the
owner `x` of a list: `z` takes the head of the list, every view points to
`z`, `x` is left without owner and without neighbours, and the handler of
`x` has moved to `z`. -/
theorem base_move_spec (w : World T) (x z : Addr) (views : List Addr) (n : Nat)
    (hl : IsList w x views) (hz : z ∉ x :: views) (hzn : (w.heap z).next = none)
    (hzp : (w.heap z).prev = none) (hn : views.length + 3 ≤ n) :
    ∃ w', base_move_assign n z x w = .ok w' ∧ IsList w' z views ∧
      (w'.heap x).owner = none ∧ (w'.heap x).next = none ∧ (w'.heap x).prev = none ∧
      (w'.heap x).func = .empty ∧ (w'.heap z).func = (w.heap x).func ∧
      (∀ a, (w'.heap a).val = (w.heap a).val) ∧
      (∀ a, a ≠ z → a ≠ x → (w'.heap a).func = (w.heap a).func) ∧
      w'.size = w.size ∧ w'.log = w.log := by
  have hzx : z ≠ x := fun h => hz (by simp [h])
  have hxz : x ≠ z := Ne.symm hzx
  have hzv : z ∉ views := fun h => hz (List.mem_cons_of_mem _ h)
  have hxv : x ∉ views := (List.nodup_cons.mp hl.nodup).1
  -- detach of the destination
  have hd : detach n z w = .ok (((w.setNext z none).setPrev z none).setOwner z none) := by
    rw [detach_plain n z w (Or.inr hzn)]
    by_cases ho : is_owner w z = true
    · simp [ho]
    · simp [ho, hzn, hzp]
  -- the list after `attach_to`
  have hld : Linked (((w.setNext z none).setPrev z none).setOwner z none) (x :: views) :=
    Linked.congr _ (fun a ha => by
        have : a ≠ z := fun h => hz (h ▸ ha)
        simp [this])
      (fun a _ => by simp [hzp]; intro h; rw [h, hzp]) hl.linked
  have hla := Linked.attach _ z x (x :: views) hld hl.nodup hz (List.mem_cons_self _ _)
  have hins : insert_after x z (x :: views) = x :: z :: views := by simp [insert_after]
  rw [hins] at hla
  -- after moving the handler
  have hlf : Linked (((attach_to z x (((w.setNext z none).setPrev z none).setOwner z none)).setFunc
      x .empty).setFunc z
        ((attach_to z x (((w.setNext z none).setPrev z none).setOwner z none)).heap x).func)
      (x :: z :: views) :=
    Linked.frame (fun a => by simp) (fun a => by simp) _ hla
  obtain ⟨wr, hr, hfr, hor⟩ := retarget_spec (some z) (x :: z :: views) _ n hlf (by simp; omega)
  have hxo : is_owner (((attach_to z x (((w.setNext z none).setPrev z none).setOwner z
      none)).setFunc x .empty).setFunc z
        ((attach_to z x (((w.setNext z none).setPrev z none).setOwner z none)).heap x).func) x
      = true := by
    simp [is_owner, attach_to_owner, hxz, hl.owner x (List.mem_cons_self _ _)]
  -- detach of the source
  have hxnot : is_owner wr x = false := by
    simp [is_owner, hor x, hzx]
  have hxprev : (wr.heap x).prev = none := by
    rw [hfr.prev]
    simp [attach_to_prev, hxz, hl.head]
    intro h
    have := Linked.next_mem hl.linked (List.mem_cons_self _ _) h
    exact absurd this hxv
  have hxnext : (wr.heap x).next = some z := by
    rw [hfr.next]; simp [attach_to_next]
  have hdx : detach n x wr =
      .ok ((((wr.setPrev z none).setNext x none).setPrev x none).setOwner x none) := by
    rw [detach_plain n x wr (Or.inl hxnot)]
    simp [hxnot, hxprev, hxnext]
  refine ⟨(((wr.setPrev z none).setNext x none).setPrev x none).setOwner x none, ?_,
    ⟨?_, ?_, ?_, ?_⟩, ?_, ?_, ?_, ?_, ?_, ?_, ?_, ?_, ?_⟩
  · unfold base_move_assign
    rw [hd]
    simp only [bind, Except.bind]
    rw [hxo]
    simp only [if_true]
    simp only [List.head?] at hr
    rw [hr]
    simp only
    exact hdx
  · exact List.nodup_cons.mpr ⟨hzv, (List.nodup_cons.mp hl.nodup).2⟩
  · refine Linked.congr (z :: views) ?_ ?_ (Linked.frame hfr.next hfr.prev _ hlf.tail)
    · intro a ha
      have : a ≠ x := fun h => by
        simp only [List.mem_cons] at ha
        rcases ha with ha | ha
        · exact hxz (h ▸ ha)
        · exact hxv (h ▸ ha)
      simp [this]
    · intro a ha
      simp only [List.tail] at ha
      have h1 : a ≠ x := fun h => hxv (h ▸ ha)
      have h2 : a ≠ z := fun h => hzv (h ▸ ha)
      simp [h1, h2]
  · simp [hzx]
  · intro a ha
    have hax : a ≠ x := fun h => by
      simp only [List.mem_cons] at ha
      rcases ha with ha | ha
      · exact hxz (h ▸ ha)
      · exact hxv (h ▸ ha)
    simp only [heap_setOwner_owner, heap_setPrev_owner, heap_setNext_owner, hax, if_false]
    rw [hor a]
    simp only [List.mem_cons] at ha ⊢
    simp [ha]
  · simp
  · simp
  · simp
  · simp [hfr.func, hxz]
  · simp [hfr.func, hzx]
  · intro a; simp [hfr.val]
  · intro a haz hax
    simp [hfr.func, haz, hax]
  · simp [hfr.size]
  · simp [hfr.log]


theorem IsList.congr_on {w w' : World T} {o : Addr} {views : List Addr} (hl : IsList w o views)
    (h : ∀ a ∈ o :: views, (w'.heap a).owner = (w.heap a).owner ∧
      (w'.heap a).next = (w.heap a).next ∧ (w'.heap a).prev = (w.heap a).prev) :
    IsList w' o views :=
  ⟨hl.nodup,
   Linked.congr _ (fun a ha => (h a ha).2.1)
    (fun a ha => (h a (List.mem_cons_of_mem _ ha)).2.2) hl.linked,
   by rw [(h o (List.mem_cons_self _ _)).2.2, hl.head],
   fun a ha => by rw [(h a ha).1, hl.owner a ha]⟩

/-- Move construction from the owner `x` of a list. -/
theorem property_move_spec (w : World T) (x : Addr) (views : List Addr) (n : Nat)
    (hl : IsList w x views) (hz : w.size ∉ x :: views) (hn : views.length + 3 ≤ n) :
    ∃ w', property_move n x w = .ok w' ∧ IsList w' w.size views ∧
      (w'.heap x).owner = none ∧ (w'.heap x).next = none ∧ (w'.heap x).prev = none ∧
      (w'.heap x).val = (w.heap x).val ∧ (w'.heap w.size).val = (w.heap x).val ∧
      (w'.heap w.size).func = .default_setter ∧
      (∀ a ∈ views, (w'.heap a).val = (w.heap a).val ∧ (w'.heap a).func = (w.heap a).func) := by
  have hxz : x ≠ w.size := fun h => hz (by simp [h])
  have hl1 : IsList (alloc w ⟨some w.size, none, none, .empty, (w.heap x).val⟩) x views :=
    hl.congr_on (fun a ha => by
      have : a ≠ w.size := fun h => hz (h ▸ ha)
      simp [this])
  obtain ⟨w2, h2, hl2, hxo, hxn, hxp, hxf, hzf, hval, hfunc, hsize, hlog⟩ :=
    base_move_spec _ x w.size views n hl1 hz (by simp) (by simp) hn
  have hown : is_owner (w2.setVal w.size (w2.heap x).val) w.size = true := by
    simp [is_owner, hl2.owner w.size (List.mem_cons_self _ _)]
  refine ⟨(w2.setVal w.size (w2.heap x).val).setFunc w.size .default_setter, ?_, ?_, ?_, ?_, ?_,
    ?_, ?_, ?_, ?_⟩
  · unfold property_move
    simp only [bind, Except.bind]
    rw [h2]
    simp only [pure, Except.pure]
    rw [hown]
    simp
  · exact hl2.same_links (fun a => by simp) (fun a => by simp) (fun a => by simp)
  · simpa using hxo
  · simpa using hxn
  · simpa using hxp
  · simp [hxz, hval]
  · simp [hval, hxz]
  · simp
  · intro a ha
    have haz : a ≠ w.size := fun h => hz (h ▸ List.mem_cons_of_mem _ ha)
    have hax : a ≠ x := fun h => (List.nodup_cons.mp hl.nodup).1 (h ▸ ha)
    simp [haz, hval, hfunc a haz hax]

/-- Move assignment from the owner `x` of a list into a node without neighbours. -/
theorem property_move_assign_spec (w : World T) (x z : Addr) (views : List Addr) (n : Nat)
    (hl : IsList w x views) (hz : z ∉ x :: views) (hzn : (w.heap z).next = none)
    (hzp : (w.heap z).prev = none) (hn : views.length + 3 ≤ n) :
    ∃ w', property_move_assign n z x w = .ok w' ∧ IsList w' z views ∧
      (w'.heap x).owner = none ∧ (w'.heap x).next = none ∧ (w'.heap x).prev = none ∧
      (w'.heap x).val = (w.heap x).val ∧ (w'.heap z).val = (w.heap x).val ∧
      (w'.heap z).func = .empty ∧
      (∀ a ∈ views, (w'.heap a).val = (w.heap a).val ∧ (w'.heap a).func = (w.heap a).func) := by
  have hxz : x ≠ z := fun h => hz (by simp [h])
  obtain ⟨w2, h2, hl2, hxo, hxn, hxp, hxf, hzf, hval, hfunc, hsize, hlog⟩ :=
    base_move_spec w x z views n hl hz hzn hzp hn
  refine ⟨((w2.setVal z (w2.heap x).val).setFunc x .empty).setFunc z
      ((w2.setVal z (w2.heap x).val).heap x).func, ?_, ?_, ?_, ?_, ?_, ?_, ?_, ?_, ?_⟩
  · unfold property_move_assign
    simp only [bind, Except.bind]
    rw [h2]
    rfl
  · exact hl2.same_links (fun a => by simp) (fun a => by simp) (fun a => by simp)
  · simpa using hxo
  · simpa using hxn
  · simpa using hxp
  · simp [hxz, hval]
  · simp [hval, hxz]
  · simp [hxz, hxf]
  · intro a ha
    have haz : a ≠ z := fun h => hz (h ▸ List.mem_cons_of_mem _ ha)
    have hax : a ≠ x := fun h => (List.nodup_cons.mp hl.nodup).1 (h ▸ ha)
    simp [haz, hax, hval, hfunc a haz hax]


/-! ## C4 and C5: moving the owner -/

/-- A value assignment to the owner of a list in which every node holds the
same value: afterwards every node holds the assigned value. -/
theorem assign_list_spec (w : World T) (o : Addr) (views : List Addr) (v : T)
    (hl : IsList w o views) (hplain : (w.heap o).func.plain)
    (hmir : ∀ a ∈ views, (w.heap a).func.mirrors)
    (hsync : ∀ a ∈ views, (w.heap a).val = (w.heap o).val) (n : Nat)
    (hn : views.length + 8 ≤ n) :
    ∃ w', assign n o v w = .ok w' ∧ ValFrame w w' ∧ ∀ a ∈ o :: views, (w'.heap a).val = v := by
  obtain ⟨m, rfl⟩ : ∃ m, n = m + 1 + 1 := ⟨n - 2, by omega⟩
  rw [assign_succ, hl.is_owner, if_pos rfl]
  by_cases hne : (w.heap o).val = v
  · refine ⟨w, by rw [← hne]; exact set_directly_gate _ _ _, ValFrame.refl w, ?_⟩
    intro a ha
    simp only [List.mem_cons] at ha
    rcases ha with rfl | ha
    · exact hne
    · rw [hsync a ha, hne]
  · obtain ⟨w', h1, hf, hv, _, _⟩ := set_directly_spec w o views v (m + 1) hl hplain hmir hne
      (by omega)
    exact ⟨w', h1, hf, hv⟩

/-- C4 (move transfers ownership): let `x` own a list of mirroring views
that all hold `v1`, `y` among them.  After `z` is move-constructed from
`x` (first part), or after a `z` without neighbours is move-assigned from
`x` (second part), `z` is the owner and holds `v1`, `y` is a view whose
owner is `z`, and assigning any `v` to `z` returns and leaves `z` and `y`
holding `v`. -/
theorem move_transfers_ownership (w : World T) (x y : Addr) (views : List Addr) (v1 : T)
    (hl : IsList w x views) (hy : y ∈ views) (hmir : ∀ a ∈ views, (w.heap a).func.mirrors)
    (hval : ∀ a ∈ x :: views, (w.heap a).val = v1) :
    (w.size ∉ x :: views → ∀ fuel, views.length + 3 ≤ fuel →
      ∃ w', property_move fuel x w = .ok w' ∧ is_owner w' w.size = true ∧
        (w'.heap w.size).val = v1 ∧ is_view w' y = true ∧ (w'.heap y).owner = some w.size ∧
        ∀ v fuel2, views.length + 8 ≤ fuel2 →
          ∃ w'', assign fuel2 w.size v w' = .ok w'' ∧ (w''.heap w.size).val = v ∧
            (w''.heap y).val = v) ∧
    (∀ z, z ∉ x :: views → (w.heap z).next = none → (w.heap z).prev = none →
      ∀ fuel, views.length + 3 ≤ fuel →
      ∃ w', property_move_assign fuel z x w = .ok w' ∧ is_owner w' z = true ∧
        (w'.heap z).val = v1 ∧ is_view w' y = true ∧ (w'.heap y).owner = some z ∧
        ∀ v fuel2, views.length + 8 ≤ fuel2 →
          ∃ w'', assign fuel2 z v w' = .ok w'' ∧ (w''.heap z).val = v ∧
            (w''.heap y).val = v) := by
  have hx : (w.heap x).val = v1 := hval x (List.mem_cons_self _ _)
  constructor
  · intro hz fuel hfuel
    obtain ⟨w', h, hl', _, _, _, _, hzv, hzf, hviews⟩ := property_move_spec w x views fuel hl hz hfuel
    refine ⟨w', h, hl'.is_owner, by rw [hzv, hx], hl'.is_view hy,
      hl'.owner y (List.mem_cons_of_mem _ hy), ?_⟩
    intro v fuel2 hfuel2
    obtain ⟨w'', h2, _, hv⟩ := assign_list_spec w' w.size views v hl' (by rw [hzf]; trivial)
      (fun a ha => by rw [(hviews a ha).2]; exact hmir a ha)
      (fun a ha => by rw [(hviews a ha).1, hzv, hx]; exact hval a (List.mem_cons_of_mem _ ha))
      fuel2 hfuel2
    exact ⟨w'', h2, hv _ (List.mem_cons_self _ _), hv y (List.mem_cons_of_mem _ hy)⟩
  · intro z hz hzn hzp fuel hfuel
    obtain ⟨w', h, hl', _, _, _, _, hzv, hzf, hviews⟩ :=
      property_move_assign_spec w x z views fuel hl hz hzn hzp hfuel
    refine ⟨w', h, hl'.is_owner, by rw [hzv, hx], hl'.is_view hy,
      hl'.owner y (List.mem_cons_of_mem _ hy), ?_⟩
    intro v fuel2 hfuel2
    obtain ⟨w'', h2, _, hv⟩ := assign_list_spec w' z views v hl' (by rw [hzf]; trivial)
      (fun a ha => by rw [(hviews a ha).2]; exact hmir a ha)
      (fun a ha => by rw [(hviews a ha).1, hzv, hx]; exact hval a (List.mem_cons_of_mem _ ha))
      fuel2 hfuel2
    exact ⟨w'', h2, hv _ (List.mem_cons_self _ _), hv y (List.mem_cons_of_mem _ hy)⟩

/-- The test `MoveSemantics`: `x` at address 0 holds 5 and `y` at address 1
is its view; a new object (address 3) is move-constructed from `x`, and
a default-constructed property at address 2 is move-assigned from `x`. -/
theorem move_transfers_ownership_witness :
    IsList (property_new 0 (copies (World.init (0 : Int)) 5 [0])) 0 [1] ∧
    (∃ w', property_move 4 0 (property_new 0 (copies (World.init (0 : Int)) 5 [0])) = .ok w' ∧
      is_owner w' 3 = true ∧ (w'.heap 3).val = 5 ∧ (w'.heap 1).owner = some 3) ∧
    ∃ w', property_move_assign 4 2 0 (property_new 0 (copies (World.init (0 : Int)) 5 [0]))
        = .ok w' ∧ is_owner w' 2 = true ∧ (w'.heap 2).val = 5 ∧ (w'.heap 1).owner = some 2 :=
  have hl : IsList (property_new 0 (copies (World.init (0 : Int)) 5 [0])) 0 [1] :=
    ⟨by decide, by decide, by decide, by decide⟩
  ⟨hl, by
    obtain ⟨w', h, ho, hv, _, hy, _⟩ := (move_transfers_ownership
      (property_new 0 (copies (World.init (0 : Int)) 5 [0])) 0 1 [1] 5 hl (by decide)
      (by intro a ha; simp at ha; subst ha; trivial) (by decide)).1 (by decide) 4 (by decide)
    exact ⟨w', h, ho, hv, hy⟩, by
    obtain ⟨w', h, ho, hv, _, hy, _⟩ := (move_transfers_ownership
      (property_new 0 (copies (World.init (0 : Int)) 5 [0])) 0 1 [1] 5 hl (by decide)
      (by intro a ha; simp at ha; subst ha; trivial) (by decide)).2 2 (by decide) (by decide)
      (by decide) 4 (by decide)
    exact ⟨w', h, ho, hv, hy⟩⟩

/-- C5, as stated, fails: `x` at address 0 holds 5 and has one view; after
`z` is move-constructed from `x`, `is_owner()` is false on `x`, and `x`
still holds 5, not the default value 0. -/
theorem moved_from_source_counterexample :
    ∃ w', property_move 4 0 (copies (World.init (0 : Int)) 5 [0]) = .ok w' ∧
      ¬ (is_owner w' 0 = true) ∧ (w'.heap 0).val ≠ (default : Int) :=
  ⟨_, rfl, by decide, by decide⟩

/-- C5, amended: after the owner `x` of a list is moved into `z`, by move
construction (first part) or by move assignment into a `z` without
neighbours (second part), `x` is orphaned (`is_zombie()` true,
`is_owner()` and `is_view()` false), has no neighbours and no views, and
holds the value it held before the move. -/
theorem moved_from_source_orphaned (w : World T) (x : Addr) (views : List Addr)
    (hl : IsList w x views) :
    (w.size ∉ x :: views → ∀ fuel, views.length + 3 ≤ fuel →
      ∃ w', property_move fuel x w = .ok w' ∧ is_zombie w' x = true ∧ is_owner w' x = false ∧
        is_view w' x = false ∧ (w'.heap x).next = none ∧ (w'.heap x).prev = none ∧
        num_views fuel x w' = .ok 0 ∧ (w'.heap x).val = (w.heap x).val) ∧
    (∀ z, z ∉ x :: views → (w.heap z).next = none → (w.heap z).prev = none →
      ∀ fuel, views.length + 3 ≤ fuel →
      ∃ w', property_move_assign fuel z x w = .ok w' ∧ is_zombie w' x = true ∧
        is_owner w' x = false ∧ is_view w' x = false ∧ (w'.heap x).next = none ∧
        (w'.heap x).prev = none ∧ num_views fuel x w' = .ok 0 ∧
        (w'.heap x).val = (w.heap x).val) := by
  constructor
  · intro hz fuel hfuel
    obtain ⟨w', h, _, hxo, hxn, hxp, hxv, _⟩ := property_move_spec w x views fuel hl hz hfuel
    exact ⟨w', h, by simp [is_zombie, hxo], by simp [is_owner, hxo],
      by simp [is_view, is_zombie, hxo], hxn, hxp, by simp [num_views, is_zombie, hxo], hxv⟩
  · intro z hz hzn hzp fuel hfuel
    obtain ⟨w', h, _, hxo, hxn, hxp, hxv, _⟩ :=
      property_move_assign_spec w x z views fuel hl hz hzn hzp hfuel
    exact ⟨w', h, by simp [is_zombie, hxo], by simp [is_owner, hxo],
      by simp [is_view, is_zombie, hxo], hxn, hxp, by simp [num_views, is_zombie, hxo], hxv⟩

/-- The owner at address 0 holds 5 and has one view; it is moved into a new
object. -/
theorem moved_from_source_orphaned_witness :
    IsList (copies (World.init (0 : Int)) 5 [0]) 0 [1] ∧
    ∃ w', property_move 4 0 (copies (World.init (0 : Int)) 5 [0]) = .ok w' ∧
      is_zombie w' 0 = true ∧ (w'.heap 0).val = 5 :=
  have hl : IsList (copies (World.init (0 : Int)) 5 [0]) 0 [1] :=
    ⟨by decide, by decide, by decide, by decide⟩
  ⟨hl, by
    obtain ⟨w', h, hz, _, _, _, _, _, hv⟩ :=
      (moved_from_source_orphaned (copies (World.init (0 : Int)) 5 [0]) 0 [1] hl).1
        (by decide) 4 (by decide)
    exact ⟨w', h, hz, hv⟩⟩


/-! ## C6: destruction of the owner -/

theorem set_succ (n : Nat) (this : Addr) (val : T) (w : World T) :
    set (n + 1) this val w =
      if !is_owner w this then
        match (w.heap this).owner with
        | some o => set_using_setter_as_owner n o val w
        | none => pure w
      else set_directly_as_owner n this val w := by
  rw [set]

/-- The destructor on the owner of a list: every view loses its owner and
keeps its value. -/
theorem destroy_owner_spec (w : World T) (o : Addr) (views : List Addr) (n : Nat)
    (hl : IsList w o views) (hn : views.length + 1 ≤ n) :
    ∃ w', destroy n o w = .ok w' ∧ (∀ a ∈ o :: views, (w'.heap a).owner = none) ∧
      (∀ a, (w'.heap a).val = (w.heap a).val) ∧ (∀ a, (w'.heap a).func = (w.heap a).func) ∧
      w'.log = w.log := by
  have ho := hl.is_owner
  cases views with
  | nil =>
    have hnext : (w.heap o).next = none := hl.linked
    refine ⟨(((w.setNext o none).setPrev o none).setOwner o none), ?_, ?_, fun a => by simp,
      fun a => by simp, rfl⟩
    · unfold destroy
      rw [detach_plain n o w (Or.inr hnext)]
      simp [ho]
    · intro a ha
      simp at ha
      simp [ha]
  | cons c rest =>
    have hnext : (w.heap o).next = some c := hl.linked.1
    have hf1 : Linked (w.setPrev c none) (c :: rest) :=
      Linked.congr _ (fun a _ => by simp) (fun a ha => by
        have : a ≠ c := fun h => by
          have hnd := (List.nodup_cons.mp hl.nodup).2
          exact (List.nodup_cons.mp hnd).1 (h ▸ ha)
        simp [this]) hl.linked.tail
    obtain ⟨w1, h1, hfr, hor⟩ := retarget_spec none (c :: rest) (w.setPrev c none) n hf1 hn
    refine ⟨(((w1.setNext o none).setPrev o none).setOwner o none), ?_, ?_, ?_, ?_, ?_⟩
    · unfold destroy detach
      simp only [ho, if_true, hnext, bind, Except.bind]
      simp only [List.head?] at h1
      rw [h1]
      rfl
    · intro a ha
      simp only [heap_setOwner_owner]
      split
      · rfl
      · next hao =>
        simp only [heap_setPrev_owner, heap_setNext_owner]
        rw [hor a]
        simp only [List.mem_cons] at ha
        rcases ha with ha | ha
        · exact absurd ha hao
        · simp [ha]
    · intro a; simp [hfr.val]
    · intro a; simp [hfr.func]
    · simp [hfr.log]

/-- C6 (owner destruction orphans the views): after the owner of a list is
destroyed, every former view is orphaned (`is_zombie()` true, `is_view()`
and `is_owner()` false) and holds the value it held before; and each of a
value assignment, `set` and `request_change` on a former view returns the
state unchanged, whatever the value. -/
theorem owner_destruction_orphans_views (w : World T) (o : Addr) (views : List Addr)
    (hl : IsList w o views) :
    ∀ fuel, views.length + 1 ≤ fuel →
      ∃ w', destroy fuel o w = .ok w' ∧
        ∀ a ∈ views, is_zombie w' a = true ∧ is_view w' a = false ∧ is_owner w' a = false ∧
          (w'.heap a).val = (w.heap a).val ∧
          ∀ (v : T) (k : Nat), assign (k + 1) a v w' = .ok w' ∧ set (k + 1) a v w' = .ok w' ∧
            request_change (k + 1) a v w' = .ok w' := by
  intro fuel hfuel
  obtain ⟨w', h, hown, hval, _, _⟩ := destroy_owner_spec w o views fuel hl hfuel
  refine ⟨w', h, ?_⟩
  intro a ha
  have hao : (w'.heap a).owner = none := hown a (List.mem_cons_of_mem _ ha)
  have hno : is_owner w' a = false := by simp [is_owner, hao]
  refine ⟨by simp [is_zombie, hao], by simp [is_view, is_zombie, hao], hno, hval a, ?_⟩
  intro v k
  refine ⟨?_, ?_, ?_⟩
  · rw [assign_succ, hno]; rfl
  · rw [set_succ, hno, hao]; rfl
  · rw [request_change_succ, hao]; rfl

/-- An owner holding 5 with two views is destroyed. -/
theorem owner_destruction_orphans_views_witness :
    IsList (copies (World.init (0 : Int)) 5 [1, 0]) 0 [1, 2] ∧
    ∃ w', destroy 3 0 (copies (World.init (0 : Int)) 5 [1, 0]) = .ok w' ∧
      is_zombie w' 2 = true ∧ (w'.heap 2).val = 5 ∧ request_change 1 2 9 w' = .ok w' :=
  have hl : IsList (copies (World.init (0 : Int)) 5 [1, 0]) 0 [1, 2] :=
    ⟨by decide, by decide, by decide, by decide⟩
  ⟨hl, by
    obtain ⟨w', h, hv⟩ := owner_destruction_orphans_views
      (copies (World.init (0 : Int)) 5 [1, 0]) 0 [1, 2] hl 3 (by decide)
    obtain ⟨hz, _, _, hval, hops⟩ := hv 2 (by decide)
    exact ⟨w', h, hz, by rw [hval]; decide, (hops 9 0).2.2⟩⟩


/-! ## C7: the two passes -/

/-- C8 (equality gate): let `o` be an owner, with any handler whatsoever, and
`n` the owner itself or a node whose owner pointer is `o`.  A value
assignment, a `set` and a `request_change` on `n` of the value the owner
holds return the state as it was: no value, link, handler or binding state
changes and nothing is added to the log, so no callable was invoked. -/
theorem equality_gate (w : World T) (o n : Addr) (k : Nat)
    (ho : (w.heap o).owner = some o) (hn : (w.heap n).owner = some o) :
    assign (k + 2) n (w.heap o).val w = .ok w ∧
    set (k + 2) n (w.heap o).val w = .ok w ∧
    request_change (k + 2) n (w.heap o).val w = .ok w := by
  have hgate : set_using_setter_as_owner (k + 1) o (w.heap o).val w = .ok w := by
    rw [set_using_setter_succ]
    simp [pure, Except.pure]
  by_cases hno : n = o
  · subst hno
    have hown : is_owner w n = true := by simp [is_owner, ho]
    refine ⟨?_, ?_, ?_⟩
    · rw [assign_succ, hown, if_pos rfl]
      exact set_directly_gate k n w
    · rw [set_succ, hown]
      exact set_directly_gate k n w
    · rw [request_change_succ, ho]
      exact hgate
  · have hown : is_owner w n = false := by
      simp [is_owner, hn]
      exact fun h => hno h.symm
    refine ⟨?_, ?_, ?_⟩
    · rw [assign_succ, hown]
      rfl
    · rw [set_succ, hown, hn]
      exact hgate
    · rw [request_change_succ, hn]
      exact hgate

/-- An owner with a custom setter and one view: writes of the current value 5. -/
theorem equality_gate_witness :
    set 2 1 5 (set_setter 0 (fun p x => [Stmt.assign p (.lit x)])
        (copies (World.init (0 : Int)) 5 [0])).2 =
      .ok (set_setter 0 (fun p x => [Stmt.assign p (.lit x)])
        (copies (World.init (0 : Int)) 5 [0])).2 :=
  (equality_gate (set_setter 0 (fun p x => [Stmt.assign p (.lit x)])
    (copies (World.init (0 : Int)) 5 [0])).2 0 1 0 (by decide) (by decide)).2.1

/-- C9 (direct write is a no-op off the owner): on a node that is not an
owner, be it a view or an orphaned node, the value assignment returns the
state as it was: no value, link or handler changes and the log does not
grow. -/
theorem direct_write_off_owner (w : World T) (n : Addr) (v : T) (k : Nat)
    (h : is_view w n = true ∨ is_zombie w n = true) :
    assign (k + 1) n v w = .ok w := by
  have hown : is_owner w n = false := by
    rcases h with h | h
    · simp only [is_view, Bool.and_eq_true, Bool.not_eq_true'] at h
      exact h.1
    · simp only [is_zombie, beq_iff_eq] at h
      simp [is_owner, h]
  rw [assign_succ, hown]
  rfl

/-- A view of an owner holding 5 is assigned 9. -/
theorem direct_write_off_owner_witness :
    is_view (copies (World.init (0 : Int)) 5 [0]) 1 = true ∧
    assign 1 1 9 (copies (World.init (0 : Int)) 5 [0]) = .ok (copies (World.init (0 : Int)) 5 [0]) :=
  ⟨by decide, direct_write_off_owner _ 1 9 0 (Or.inl (by decide))⟩

/-- C10 (`set_setter` succeeds only on an owner): on an owner it returns
true and the new state is the old one with the callable installed as the
handler of that node; on a view or an orphaned node it returns false and
the state is the old one. -/
theorem set_setter_only_on_owner (w : World T) (n : Addr) (s : Callable T) :
    (is_owner w n = true →
      (set_setter n s w).1 = true ∧ (set_setter n s w).2 = w.setFunc n (.property_setter s) ∧
      ((set_setter n s w).2.heap n).func = .property_setter s) ∧
    (is_view w n = true ∨ is_zombie w n = true → set_setter n s w = (false, w)) := by
  constructor
  · intro h
    have hs : set_setter n s w = (true, w.setFunc n (.property_setter s)) := by
      simp [set_setter, h]
    rw [hs]
    exact ⟨rfl, rfl, by simp⟩
  · intro h
    have hown : is_owner w n = false := by
      rcases h with h | h
      · simp only [is_view, Bool.and_eq_true, Bool.not_eq_true'] at h
        exact h.1
      · simp only [is_zombie, beq_iff_eq] at h
        simp [is_owner, h]
    simp [set_setter, hown]

/-- The test `BasicSetterAndNotifier`: `set_setter` on the owner and on its view. -/
theorem set_setter_only_on_owner_witness :
    (set_setter 0 (fun _ _ => []) (copies (World.init (0 : Int)) 5 [0])).1 = true ∧
    set_setter 1 (fun _ _ => []) (copies (World.init (0 : Int)) 5 [0]) =
      (false, copies (World.init (0 : Int)) 5 [0]) :=
  ⟨((set_setter_only_on_owner (copies (World.init (0 : Int)) 5 [0]) 0 (fun _ _ => [])).1
      (by decide)).1,
   (set_setter_only_on_owner (copies (World.init (0 : Int)) 5 [0]) 1 (fun _ _ => [])).2
      (Or.inl (by decide))⟩

/-! ## C12, C17, C18, C19: failing inputs -/

/-- C18, failing input: `x` (address 0) holds 1 and has the view `y`
(address 1); the default-constructed `z` (address 2) is move-assigned from
`x` and becomes the owner with an empty handler.  Then `y.request_change(5)`
and `z.request_change(5)` both call the empty `std::function`, which
raises `bad_function_call`. -/
theorem move_assigned_owner_raises :
    failure (property_move_assign 4 2 0
        (property_new 0 (property_copy 0 (property_new 1 (World.init (0 : Int))))) >>=
      request_change 4 1 5) = some .bad_function_call ∧
    failure (property_move_assign 4 2 0
        (property_new 0 (property_copy 0 (property_new 1 (World.init (0 : Int))))) >>=
      request_change 4 2 5) = some .bad_function_call ∧
    (property_move_assign 4 2 0
        (property_new 0 (property_copy 0 (property_new 1 (World.init (0 : Int)))))).toOption.map
      (fun w => (is_owner w 2, (w.heap 1).owner, (w.heap 2).func.nonempty)) =
      some (true, some 2, false) := by
  decide

/-- C19, failing input: the copy assignment `a = a` on a default-constructed
property leaves `a` with `next` and `prev` pointing to `a` itself: a
cycle of length one. -/
theorem self_assignment_makes_cycle :
    (property_copy_assign 2 0 0 (property_new 1 (World.init (0 : Int)))).toOption.map
      (fun w => ((w.heap 0).next, (w.heap 0).prev, (w.heap 0).owner)) =
      some (some 0, some 0, none) := by
  decide

/-- C12, failing input: `p` (address 0) holds 1 and `b` (address 1) holds 0.
After `b.set_binding` with computeFn `p + p`, the dependency list of the
binding has two entries: a copy of `p` (address 3, owner 0) and a copy of
`b` itself (address 4, owner 1).  `b` has two views, the copy held by the
binding state and its own subscription. -/
theorem binder_registers_itself :
    (set_binding 12 1 (.app (fun a b => a + b) (.read 0) (.read 0)) nop nop
        (property_new 0 (property_new 1 (World.init (0 : Int))))).toOption.map
      (fun r => (r.1, r.2.states.map (fun st => st.deps), (r.2.heap 1).val)) =
      some (true, [[3, 4]], 2) ∧
    (set_binding 12 1 (.app (fun a b => a + b) (.read 0) (.read 0)) nop nop
        (property_new 0 (property_new 1 (World.init (0 : Int))))).toOption.map
      (fun r => ((r.2.heap 3).owner, (r.2.heap 4).owner, (num_views 4 1 r.2).toOption)) =
      some (some 0, some 1, some 2) := by
  decide

/-- C17, failing input: `p` (address 0) and `b` (address 1) hold 0;
`b.set_binding(p + p)` and then `b.set_binding(7)`.  The subscription on
`p` (address 3) is still in the list of `p`, whose view count stays 1, and
the write `p = 5` invokes the computeFn of `b` once more (the log grows by
one `compute` on `b`). -/
theorem stale_subscription_survives :
    ((set_binding 12 1 (.app (fun a b => a + b) (.read 0) (.read 0)) nop nop
        (property_new 0 (property_new 0 (World.init (0 : Int)))) >>=
      fun r => set_binding 12 1 (.lit 7) nop nop r.2).toOption.map
      (fun r => ((num_views 3 0 r.2).toOption, (r.2.heap 0).next, (calls r.2).length))) =
      some (some 1, some 3, 4) ∧
    ((set_binding 12 1 (.app (fun a b => a + b) (.read 0) (.read 0)) nop nop
        (property_new 0 (property_new 0 (World.init (0 : Int)))) >>=
      fun r => set_binding 12 1 (.lit 7) nop nop r.2 >>=
      fun r => assign 12 0 5 r.2).toOption.map
      (fun w => ((num_views 3 0 w).toOption, (calls w).drop 4))) =
      some (some 1, [(.compute, 1, none)]) := by
  decide!

/-! ## Fuel monotonicity -/

theorem bind_mono {α β : Type} {f f' : Except Err α} {g g' : α → Except Err β}
    (hf : ∀ a, f = .ok a → f' = .ok a) (hg : ∀ a b, g a = .ok b → g' a = .ok b) {b : β}
    (h : (f >>= g) = .ok b) : (f' >>= g') = .ok b := by
  cases hx : f with
  | error e => rw [hx] at h; cases h
  | ok a =>
    rw [hx] at h
    rw [hf a hx]
    exact hg a b h

theorem retarget_mono (o : Option Addr) : ∀ (n : Nat) (c : Option Addr) (w w' : World T),
    retarget n c o w = .ok w' → retarget (n + 1) c o w = .ok w'
  | 0, _, _, _, h => by simp [retarget] at h
  | n + 1, none, w, w', h => by simpa [retarget] using h
  | n + 1, some c, w, w', h => by
    rw [retarget] at h ⊢
    exact retarget_mono o n _ _ _ h

theorem detach_mono (n : Nat) (this : Addr) (w w' : World T) (h : detach n this w = .ok w') :
    detach (n + 1) this w = .ok w' := by
  unfold detach at h ⊢
  by_cases ho : is_owner w this = true
  · cases hn : (w.heap this).next with
    | none => simpa [ho, hn] using h
    | some nx =>
      simp only [ho, hn, if_true] at h ⊢
      exact bind_mono (fun a ha => retarget_mono _ _ _ _ _ ha) (fun _ _ h => h) h
  · simpa [ho] using h

theorem set_current_prop_mono (n : Nat) (prop : Addr) (w w' : World T)
    (h : set_current_prop n prop w = .ok w') : set_current_prop (n + 1) prop w = .ok w' := by
  unfold set_current_prop at h ⊢
  simp only at h ⊢
  split at h
  · exact h
  · split at h
    · exact h
    · split at h
      · rw [if_pos (by assumption)]
        exact detach_mono _ _ _ _ h
      · rw [if_neg (by assumption)]
        exact h

/-- More fuel does not change the result of a call that returned: all the
mutually recursive calls at once. -/
theorem fuel_mono_all : ∀ n : Nat,
    (∀ this value type (w w' : World T),
      invoke n this value type w = .ok w' → invoke (n + 1) this value type w = .ok w') ∧
    (∀ this (w w' : World T), update n this w = .ok w' → update (n + 1) this w = .ok w') ∧
    (∀ type value c (w w' : World T),
      pass n type value c w = .ok w' → pass (n + 1) type value c w = .ok w') ∧
    (∀ this value (w w' : World T),
      notify_all n this value w = .ok w' → notify_all (n + 1) this value w = .ok w') ∧
    (∀ this (v : T) (w w' : World T),
      set_directly_as_owner n this v w = .ok w' →
        set_directly_as_owner (n + 1) this v w = .ok w') ∧
    (∀ this (v : T) (w w' : World T),
      set_using_setter_as_owner n this v w = .ok w' →
        set_using_setter_as_owner (n + 1) this v w = .ok w') ∧
    (∀ this (v : T) (w w' : World T),
      assign n this v w = .ok w' → assign (n + 1) this v w = .ok w') ∧
    (∀ this (v : T) (w w' : World T), set n this v w = .ok w' → set (n + 1) this v w = .ok w') ∧
    (∀ this (v : T) (w w' : World T),
      request_change n this v w = .ok w' → request_change (n + 1) this v w = .ok w') ∧
    (∀ (s : Stmt T) (w w' : World T), exec n s w = .ok w' → exec (n + 1) s w = .ok w') ∧
    (∀ (l : List (Stmt T)) (w w' : World T), run n l w = .ok w' → run (n + 1) l w = .ok w') := by
  intro n
  induction n with
  | zero =>
    refine ⟨?_, ?_, ?_, ?_, ?_, ?_, ?_, ?_, ?_, ?_, ?_⟩
    · intro this value type w w' h; rw [invoke] at h; cases h
    · intro this w w' h; rw [update] at h; cases h
    · intro type value c w w' h; rw [pass] at h; cases h
    · intro this value w w' h; rw [notify_all] at h; cases h
    · intro this v w w' h; rw [set_directly_as_owner] at h; cases h
    · intro this v w w' h; rw [set_using_setter_as_owner] at h; cases h
    · intro this v w w' h; rw [assign] at h; cases h
    · intro this v w w' h; rw [set] at h; cases h
    · intro this v w w' h; rw [request_change] at h; cases h
    · intro s w w' h; rw [exec] at h; cases h
    · intro l w w' h; rw [run] at h; cases h
  | succ n ih =>
    obtain ⟨hi, hu, hp, hn, hd, hs, ha, hset, hr, he, hrun⟩ := ih
    refine ⟨?_, ?_, ?_, ?_, ?_, ?_, ?_, ?_, ?_, ?_, ?_⟩
    · intro this value type w w' h
      rw [invoke] at h ⊢
      cases hf : (w.heap this).func with
      | empty => simp only [hf] at h; cases h
      | default_setter =>
        simp only [hf] at h ⊢
        exact bind_mono (fun _ h => h) (fun a b hb => ha _ _ _ _ hb) h
      | default_notifier =>
        simp only [hf] at h ⊢
        exact h
      | property_setter setter =>
        simp only [hf] at h ⊢
        cases type <;> simp only at h ⊢ <;> try exact h
        exact bind_mono (fun _ h => h) (fun a b hb => hrun _ _ _ hb) h
      | property_notifier notifier =>
        simp only [hf] at h ⊢
        cases type <;> simp only at h ⊢ <;> try exact h
        · split at h
          · rw [if_pos (by assumption)]
            exact bind_mono (fun _ h => h) (fun a b hb => hd _ _ _ _ hb) h
          · rw [if_neg (by assumption)]
            exact h
        · exact bind_mono (fun _ h => h) (fun a b hb => hrun _ _ _ hb) h
      | property_binder binding setter notifier =>
        simp only [hf] at h ⊢
        cases type <;> simp only at h ⊢ <;> try exact h
        · refine bind_mono (fun a ha => set_current_prop_mono _ _ _ _ ha) ?_ h
          intro a b hb
          refine bind_mono (fun _ h => h) ?_ hb
          intro x c hc
          exact bind_mono (fun a ha => hd _ _ _ _ ha) (fun _ _ h => h) hc
        · exact bind_mono (fun _ h => h) (fun x b hb => hd _ _ _ _ hb) h
        · exact bind_mono (fun _ h => h) (fun a b hb => hrun _ _ _ hb) h
        · exact bind_mono (fun _ h => h) (fun x b hb => hrun _ _ _ hb) h
      | dependency st =>
        simp only [hf] at h ⊢
        cases type <;> simp only at h ⊢ <;> try exact h
        split at h
        · exact h
        · split at h
          · exact hu _ _ _ h
          · exact h
    · intro this w w' h
      rw [update] at h ⊢
      split at h
      · rw [if_pos (by assumption)]; exact hi _ _ _ _ _ h
      · rw [if_neg (by assumption)]; exact h
    · intro type value c w w' h
      cases c with
      | none => rw [pass] at h ⊢; exact h
      | some c =>
        rw [pass_succ] at h ⊢
        refine bind_mono ?_ (fun a b hb => hp _ _ _ _ _ hb) h
        intro a ha
        split at ha
        · rw [if_pos (by assumption)]; exact hi _ _ _ _ _ ha
        · rw [if_neg (by assumption)]; exact ha
    · intro this value w w' h
      rw [notify_all_succ] at h ⊢
      exact bind_mono (fun a ha => hp _ _ _ _ _ ha) (fun a b hb => hp _ _ _ _ _ hb) h
    · intro this v w w' h
      rw [set_directly_as_owner] at h ⊢
      split at h
      · rw [if_pos (by assumption)]; exact hn _ _ _ _ h
      · rw [if_neg (by assumption)]; exact h
    · intro this v w w' h
      rw [set_using_setter_succ] at h ⊢
      split at h
      · rw [if_pos (by assumption)]; exact hi _ _ _ _ _ h
      · rw [if_neg (by assumption)]; exact h
    · intro this v w w' h
      rw [assign_succ] at h ⊢
      split at h
      · rw [if_pos (by assumption)]; exact hd _ _ _ _ h
      · rw [if_neg (by assumption)]; exact h
    · intro this v w w' h
      rw [set_succ] at h ⊢
      split at h
      · rw [if_pos (by assumption)]
        split at h
        · exact hs _ _ _ _ h
        · exact h
      · rw [if_neg (by assumption)]; exact hd _ _ _ _ h
    · intro this v w w' h
      rw [request_change_succ] at h ⊢
      split at h
      · exact hs _ _ _ _ h
      · exact h
    · intro s w w' h
      cases s with
      | assign p e =>
        rw [exec] at h ⊢
        exact bind_mono (fun _ h => h) (fun x b hb => ha _ _ _ _ hb) h
      | set p e =>
        rw [exec] at h ⊢
        exact bind_mono (fun _ h => h) (fun x b hb => hset _ _ _ _ hb) h
      | request_change p e =>
        rw [exec] at h ⊢
        exact bind_mono (fun _ h => h) (fun x b hb => hr _ _ _ _ hb) h
    · intro l w w' h
      cases l with
      | nil => rw [run] at h ⊢; exact h
      | cons s rest =>
        rw [run_succ_cons] at h ⊢
        exact bind_mono (fun a ha => he _ _ _ ha) (fun a b hb => hrun _ _ _ hb) h

theorem set_directly_mono {n m : Nat} {this : Addr} {v : T} {w w' : World T}
    (h : set_directly_as_owner n this v w = .ok w') (hnm : n ≤ m) :
    set_directly_as_owner m this v w = .ok w' := by
  induction hnm with
  | refl => exact h
  | step _ ih => exact (fuel_mono_all _).2.2.2.2.1 _ _ _ _ ih

theorem update_mono {n m : Nat} {this : Addr} {w w' : World T}
    (h : update n this w = .ok w') (hnm : n ≤ m) : update m this w = .ok w' := by
  induction hnm with
  | refl => exact h
  | step _ ih => exact (fuel_mono_all _).2.1 _ _ _ ih

theorem invoke_mono {n m : Nat} {this : Addr} {value : ValPtr T} {type : call_type}
    {w w' : World T} (h : invoke n this value type w = .ok w') (hnm : n ≤ m) :
    invoke m this value type w = .ok w' := by
  induction hnm with
  | refl => exact h
  | step _ ih => exact (fuel_mono_all _).1 _ _ _ _ _ ih

theorem run_mono {n m : Nat} {l : List (Stmt T)} {w w' : World T}
    (h : run n l w = .ok w') (hnm : n ≤ m) : run m l w = .ok w' := by
  induction hnm with
  | refl => exact h
  | step _ ih => exact (fuel_mono_all _).2.2.2.2.2.2.2.2.2.2 _ _ _ ih

theorem pass_mono {n m : Nat} {type : call_type} {value : ValPtr T} {c : Option Addr}
    {w w' : World T} (h : pass n type value c w = .ok w') (hnm : n ≤ m) :
    pass m type value c w = .ok w' := by
  induction hnm with
  | refl => exact h
  | step _ ih => exact (fuel_mono_all _).2.2.1 _ _ _ _ _ ih

/-! ## C20: a request on an owner without a custom setter -/

theorem request_gate (w : World T) (o c : Addr) (n : Nat)
    (hown : (w.heap c).owner = some o) :
    request_change (n + 2) c (w.heap o).val w = .ok w := by
  rw [request_change_succ, hown]
  simp only
  rw [set_using_setter_succ]
  simp [pure, Except.pure]

theorem bind_ok {α β : Type} {f : Except Err α} {g : α → Except Err β} {b : β}
    (h : (f >>= g) = .ok b) : ∃ a, f = .ok a ∧ g a = .ok b := by
  cases hx : f with
  | error e => rw [hx] at h; cases h
  | ok a => rw [hx] at h; exact ⟨a, rfl, h⟩

theorem value_not_binding (w : World T) (a : Addr) (h : w.is_currently_binding = false) :
    value a w = .ok ((w.heap a).val, w) := by
  simp [value, h, bind, Except.bind, pure, Except.pure]

/-- Outside a binding evaluation an expression only reads. -/
theorem eval_not_binding (w : World T) (h : w.is_currently_binding = false) :
    ∀ e : Expr T, eval e w = .ok (e.now w, w)
  | .lit c => rfl
  | .read p => by rw [eval, value_not_binding w p h]; rfl
  | .app f a b => by
    rw [eval, eval_not_binding w h a]
    simp only [bind, Except.bind]
    rw [eval_not_binding w h b]
    rfl

/-- Outside a binding evaluation, no call changes a link, an owner pointer,
a handler or the binding state: only value slots and the log change. -/
theorem val_frame_all : ∀ n : Nat,
    (∀ this value type (w w' : World T), w.is_currently_binding = false →
      type ≠ .initial_binding → invoke n this value type w = .ok w' → ValFrame w w') ∧
    (∀ this (w w' : World T), w.is_currently_binding = false →
      update n this w = .ok w' → ValFrame w w') ∧
    (∀ type value c (w w' : World T), w.is_currently_binding = false →
      type ≠ .initial_binding → pass n type value c w = .ok w' → ValFrame w w') ∧
    (∀ this value (w w' : World T), w.is_currently_binding = false →
      notify_all n this value w = .ok w' → ValFrame w w') ∧
    (∀ this (v : T) (w w' : World T), w.is_currently_binding = false →
      set_directly_as_owner n this v w = .ok w' → ValFrame w w') ∧
    (∀ this (v : T) (w w' : World T), w.is_currently_binding = false →
      set_using_setter_as_owner n this v w = .ok w' → ValFrame w w') ∧
    (∀ this (v : T) (w w' : World T), w.is_currently_binding = false →
      assign n this v w = .ok w' → ValFrame w w') ∧
    (∀ this (v : T) (w w' : World T), w.is_currently_binding = false →
      set n this v w = .ok w' → ValFrame w w') ∧
    (∀ this (v : T) (w w' : World T), w.is_currently_binding = false →
      request_change n this v w = .ok w' → ValFrame w w') ∧
    (∀ (s : Stmt T) (w w' : World T), w.is_currently_binding = false →
      exec n s w = .ok w' → ValFrame w w') ∧
    (∀ (l : List (Stmt T)) (w w' : World T), w.is_currently_binding = false →
      run n l w = .ok w' → ValFrame w w') := by
  intro n
  induction n with
  | zero =>
    refine ⟨?_, ?_, ?_, ?_, ?_, ?_, ?_, ?_, ?_, ?_, ?_⟩
    · intro this value type w w' _ _ h; rw [invoke] at h; cases h
    · intro this w w' _ h; rw [update] at h; cases h
    · intro type value c w w' _ _ h; rw [pass] at h; cases h
    · intro this value w w' _ h; rw [notify_all] at h; cases h
    · intro this v w w' _ h; rw [set_directly_as_owner] at h; cases h
    · intro this v w w' _ h; rw [set_using_setter_as_owner] at h; cases h
    · intro this v w w' _ h; rw [assign] at h; cases h
    · intro this v w w' _ h; rw [set] at h; cases h
    · intro this v w w' _ h; rw [request_change] at h; cases h
    · intro s w w' _ h; rw [exec] at h; cases h
    · intro l w w' _ h; rw [run] at h; cases h
  | succ n ih =>
    obtain ⟨hi, hu, hp, hn, hd, hs, ha, hset, hr, he, hrun⟩ := ih
    have hrec : ∀ (w : World T) c a v, w.is_currently_binding = false →
        (w.record c a v).is_currently_binding = false := fun _ _ _ _ h => h
    refine ⟨?_, ?_, ?_, ?_, ?_, ?_, ?_, ?_, ?_, ?_, ?_⟩
    · intro this value type w w' hb ht h
      rw [invoke] at h
      cases hf : (w.heap this).func with
      | empty => simp only [hf] at h; cases h
      | default_setter =>
        simp only [hf] at h
        obtain ⟨v, _, h2⟩ := bind_ok h
        exact ha _ _ _ _ hb h2
      | default_notifier =>
        simp only [hf] at h
        obtain ⟨v, _, h2⟩ := bind_ok h
        cases h2
        exact ValFrame.setVal w this v
      | property_setter setter =>
        simp only [hf] at h
        cases type <;> simp only at h <;> try (cases h; exact ValFrame.refl w)
        obtain ⟨v, _, h2⟩ := bind_ok h
        exact (ValFrame.record w _ _ _).trans (hrun _ _ _ (hrec w _ _ _ hb) h2)
      | property_notifier notifier =>
        simp only [hf] at h
        cases type <;> simp only at h <;> try (cases h; exact ValFrame.refl w)
        · split at h
          · obtain ⟨v, _, h2⟩ := bind_ok h
            exact hd _ _ _ _ hb h2
          · cases h; exact ValFrame.refl w
        · obtain ⟨v, _, h2⟩ := bind_ok h
          cases h2
          exact ValFrame.setVal w this v
        · obtain ⟨v, _, h2⟩ := bind_ok h
          exact (ValFrame.record w _ _ _).trans (hrun _ _ _ (hrec w _ _ _ hb) h2)
      | property_binder binding setter notifier =>
        simp only [hf] at h
        cases type <;> simp only at h <;> try (cases h; exact ValFrame.refl w)
        · exact absurd rfl ht
        · rw [eval_not_binding _ (hrec w _ _ _ hb)] at h
          exact (ValFrame.record w _ _ _).trans (hd _ _ _ _ (hrec w _ _ _ hb) h)
        · obtain ⟨v, _, h2⟩ := bind_ok h
          exact (ValFrame.record w _ _ _).trans (hrun _ _ _ (hrec w _ _ _ hb) h2)
        · rw [value_not_binding w this hb] at h
          exact (ValFrame.record w _ _ _).trans (hrun _ _ _ (hrec w _ _ _ hb) h)
      | dependency st =>
        simp only [hf] at h
        cases type <;> simp only at h <;> try (cases h; exact ValFrame.refl w)
        split at h
        · cases h
        · split at h
          · exact hu _ _ _ hb h
          · cases h; exact ValFrame.refl w
    · intro this w w' hb h
      rw [update] at h
      split at h
      · exact hi _ _ _ _ _ hb (by decide) h
      · cases h; exact ValFrame.refl w
    · intro type value c w w' hb ht h
      cases c with
      | none => rw [pass] at h; cases h; exact ValFrame.refl w
      | some c =>
        rw [pass_succ] at h
        obtain ⟨w1, h1, h2⟩ := bind_ok h
        have hf1 : ValFrame w w1 := by
          split at h1
          · exact hi _ _ _ _ _ hb ht h1
          · cases h1; exact ValFrame.refl w
        exact hf1.trans (hp _ _ _ _ _ (by rw [hf1.binding, hb]) ht h2)
    · intro this value w w' hb h
      rw [notify_all_succ] at h
      obtain ⟨w1, h1, h2⟩ := bind_ok h
      have hf1 := hp _ _ _ _ _ hb (by decide) h1
      exact hf1.trans (hp _ _ _ _ _ (by rw [hf1.binding, hb]) (by decide) h2)
    · intro this v w w' hb h
      rw [set_directly_as_owner] at h
      split at h
      · exact (ValFrame.setVal w this v).trans (hn _ _ _ _ hb h)
      · cases h; exact ValFrame.refl w
    · intro this v w w' hb h
      rw [set_using_setter_succ] at h
      split at h
      · exact hi _ _ _ _ _ hb (by decide) h
      · cases h; exact ValFrame.refl w
    · intro this v w w' hb h
      rw [assign_succ] at h
      split at h
      · exact hd _ _ _ _ hb h
      · cases h; exact ValFrame.refl w
    · intro this v w w' hb h
      rw [set_succ] at h
      split at h
      · split at h
        · exact hs _ _ _ _ hb h
        · cases h; exact ValFrame.refl w
      · exact hd _ _ _ _ hb h
    · intro this v w w' hb h
      rw [request_change_succ] at h
      split at h
      · exact hs _ _ _ _ hb h
      · cases h; exact ValFrame.refl w
    · intro s w w' hb h
      cases s with
      | assign p e =>
        rw [exec, eval_not_binding w hb] at h
        exact ha _ _ _ _ hb h
      | set p e =>
        rw [exec, eval_not_binding w hb] at h
        exact hset _ _ _ _ hb h
      | request_change p e =>
        rw [exec, eval_not_binding w hb] at h
        exact hr _ _ _ _ hb h
    · intro l w w' hb h
      cases l with
      | nil => rw [run] at h; cases h; exact ValFrame.refl w
      | cons s rest =>
        rw [run_succ_cons] at h
        obtain ⟨w1, h1, h2⟩ := bind_ok h
        have hf1 := he _ _ _ hb h1
        exact hf1.trans (hrun _ _ _ (by rw [hf1.binding, hb]) h2)

/-! ## Handlers persist -/

theorem Grow.start (w : World T) : Grow w w := ⟨Nat.le_refl _, fun _ _ => rfl⟩

theorem Grow.step {w1 w2 w3 : World T} (h12 : Grow w1 w2) (h23 : Grow w2 w3) : Grow w1 w3 :=
  ⟨Nat.le_trans h12.size h23.size,
   fun a ha => (h23.func a (Nat.lt_of_lt_of_le ha h12.size)).trans (h12.func a ha)⟩

theorem Grow.of_val_frame {w w' : World T} (h : ValFrame w w') : Grow w w' :=
  ⟨Nat.le_of_eq h.size.symm, fun a _ => h.func a⟩

theorem Grow.of_owner_frame {w w' : World T} (h : OwnerFrame w w') : Grow w w' :=
  ⟨Nat.le_of_eq h.size.symm, fun a _ => h.func a⟩

theorem Grow.of_eq {w w' : World T} (hs : w'.size = w.size)
    (hf : ∀ a, (w'.heap a).func = (w.heap a).func) : Grow w w' :=
  ⟨Nat.le_of_eq hs.symm, fun a _ => hf a⟩

theorem retarget_grow (o : Option Addr) : ∀ (n : Nat) (c : Option Addr) (w w' : World T),
    retarget n c o w = .ok w' → Grow w w'
  | 0, _, _, _, h => by simp [retarget] at h
  | n + 1, none, w, w', h => by
    simp only [retarget] at h; cases h; exact Grow.start w
  | n + 1, some c, w, w', h => by
    rw [retarget] at h
    have g1 : Grow w (w.setOwner c o) := Grow.of_eq rfl (fun a => by simp)
    exact g1.step (retarget_grow o n _ _ _ h)

theorem detach_grow (n : Nat) (this : Addr) (w w' : World T) (h : detach n this w = .ok w') :
    Grow w w' := by
  unfold detach at h
  by_cases ho : is_owner w this = true
  · cases hn : (w.heap this).next with
    | none =>
      simp only [ho, hn, if_true, bind, Except.bind, pure, Except.pure] at h
      cases h
      exact Grow.of_eq rfl (fun a => by simp)
    | some nx =>
      simp only [ho, hn, if_true] at h
      obtain ⟨w1, h1, h2⟩ := bind_ok h
      cases h2
      have g1 : Grow w (w.setPrev nx none) := Grow.of_eq rfl (fun a => by simp)
      have g2 := retarget_grow _ _ _ _ _ h1
      exact (g1.step g2).step (Grow.of_eq rfl (fun a => by simp))
  · simp only [ho, bind, Except.bind, pure, Except.pure] at h
    cases h
    refine Grow.of_eq ?_ (fun a => ?_)
    · cases hp : (w.heap this).prev <;> simp only [hp] <;>
        split <;> simp
    · cases hp : (w.heap this).prev <;> simp only [hp] <;>
        split <;> simp

theorem base_copy_grow (other : Addr) (w : World T) : Grow w (base_copy other w) := by
  refine ⟨by simp [base_copy], fun a ha => ?_⟩
  have : a ≠ w.size := Nat.ne_of_lt ha
  simp [base_copy, this]

theorem set_current_prop_grow (n : Nat) (prop : Addr) (w w' : World T)
    (h : set_current_prop n prop w = .ok w') : Grow w w' := by
  unfold set_current_prop at h
  simp only at h
  have g1 : Grow w { base_copy prop w with
      states := (base_copy prop w).states ++ [{ prop := w.size, deps := [] }],
      current := some (base_copy prop w).states.length } :=
    ⟨(base_copy_grow prop w).size, (base_copy_grow prop w).func⟩
  split at h
  · cases h; exact g1
  · split at h
    · cases h; exact g1
    · split at h
      · exact g1.step (detach_grow _ _ _ _ h)
      · cases h; exact g1

theorem register_property_grow (p : Addr) (w w' : World T)
    (h : register_property p w = .ok w') : Grow w w' := by
  unfold register_property at h
  split at h
  · cases h
  · split at h
    · cases h
    · split at h
      · cases h; exact Grow.start w
      · cases h
        refine ⟨by simp [base_copy], fun a ha => ?_⟩
        have : a ≠ w.size := Nat.ne_of_lt ha
        simp [base_copy, this]

theorem value_grow (p : Addr) (w w' : World T) (v : T) (h : value p w = .ok (v, w')) :
    Grow w w' := by
  unfold value at h
  by_cases hb : w.is_currently_binding = true
  · simp only [hb, if_true] at h
    obtain ⟨w1, h1, h2⟩ := bind_ok h
    cases h2
    exact register_property_grow _ _ _ h1
  · simp only [hb] at h
    cases h
    exact Grow.start w

theorem eval_grow : ∀ (e : Expr T) (w w' : World T) (v : T), eval e w = .ok (v, w') → Grow w w'
  | .lit c, w, w', v, h => by cases h; exact Grow.start w
  | .read p, w, w', v, h => value_grow p w w' v h
  | .app f a b, w, w', v, h => by
    rw [eval] at h
    obtain ⟨x, h1, h2⟩ := bind_ok h
    obtain ⟨y, h3, h4⟩ := bind_ok h2
    cases h4
    exact (eval_grow a _ _ _ h1).step (eval_grow b _ _ _ h3)

theorem Grow.of_record (w : World T) (c : Callee) (a : Addr) (v : Option T) :
    Grow w (w.record c a v) := Grow.of_eq rfl (fun _ => rfl)

theorem Grow.of_setVal (w : World T) (a : Addr) (v : T) : Grow w (w.setVal a v) :=
  Grow.of_eq rfl (fun _ => by simp)

/-- No call removes an object or changes the handler of an existing object,
whether a binding is being evaluated or not. -/
theorem grow_all : ∀ n : Nat,
    (∀ this value type (w w' : World T), invoke n this value type w = .ok w' → Grow w w') ∧
    (∀ this (w w' : World T), update n this w = .ok w' → Grow w w') ∧
    (∀ type value c (w w' : World T), pass n type value c w = .ok w' → Grow w w') ∧
    (∀ this value (w w' : World T), notify_all n this value w = .ok w' → Grow w w') ∧
    (∀ this (v : T) (w w' : World T), set_directly_as_owner n this v w = .ok w' → Grow w w') ∧
    (∀ this (v : T) (w w' : World T),
      set_using_setter_as_owner n this v w = .ok w' → Grow w w') ∧
    (∀ this (v : T) (w w' : World T), assign n this v w = .ok w' → Grow w w') ∧
    (∀ this (v : T) (w w' : World T), set n this v w = .ok w' → Grow w w') ∧
    (∀ this (v : T) (w w' : World T), request_change n this v w = .ok w' → Grow w w') ∧
    (∀ (s : Stmt T) (w w' : World T), exec n s w = .ok w' → Grow w w') ∧
    (∀ (l : List (Stmt T)) (w w' : World T), run n l w = .ok w' → Grow w w') := by
  intro n
  induction n with
  | zero =>
    refine ⟨?_, ?_, ?_, ?_, ?_, ?_, ?_, ?_, ?_, ?_, ?_⟩
    · intro this value type w w' h; rw [invoke] at h; cases h
    · intro this w w' h; rw [update] at h; cases h
    · intro type value c w w' h; rw [pass] at h; cases h
    · intro this value w w' h; rw [notify_all] at h; cases h
    · intro this v w w' h; rw [set_directly_as_owner] at h; cases h
    · intro this v w w' h; rw [set_using_setter_as_owner] at h; cases h
    · intro this v w w' h; rw [assign] at h; cases h
    · intro this v w w' h; rw [set] at h; cases h
    · intro this v w w' h; rw [request_change] at h; cases h
    · intro s w w' h; rw [exec] at h; cases h
    · intro l w w' h; rw [run] at h; cases h
  | succ n ih =>
    obtain ⟨hi, hu, hp, hn, hd, hs, ha, hset, hr, he, hrun⟩ := ih
    refine ⟨?_, ?_, ?_, ?_, ?_, ?_, ?_, ?_, ?_, ?_, ?_⟩
    · intro this value type w w' h
      rw [invoke] at h
      cases hf : (w.heap this).func with
      | empty => simp only [hf] at h; cases h
      | default_setter =>
        simp only [hf] at h
        obtain ⟨v, _, h2⟩ := bind_ok h
        exact ha _ _ _ _ h2
      | default_notifier =>
        simp only [hf] at h
        obtain ⟨v, _, h2⟩ := bind_ok h
        cases h2
        exact Grow.of_setVal w this v
      | property_setter setter =>
        simp only [hf] at h
        cases type <;> simp only at h <;> try (cases h; exact Grow.start w)
        obtain ⟨v, _, h2⟩ := bind_ok h
        exact (Grow.of_record w _ _ _).step (hrun _ _ _ h2)
      | property_notifier notifier =>
        simp only [hf] at h
        cases type <;> simp only at h <;> try (cases h; exact Grow.start w)
        · split at h
          · obtain ⟨v, _, h2⟩ := bind_ok h
            exact hd _ _ _ _ h2
          · cases h; exact Grow.start w
        · obtain ⟨v, _, h2⟩ := bind_ok h
          cases h2
          exact Grow.of_setVal w this v
        · obtain ⟨v, _, h2⟩ := bind_ok h
          exact (Grow.of_record w _ _ _).step (hrun _ _ _ h2)
      | property_binder binding setter notifier =>
        simp only [hf] at h
        cases type <;> simp only at h <;> try (cases h; exact Grow.start w)
        · obtain ⟨w2, h1, h2⟩ := bind_ok h
          obtain ⟨x, h3, h4⟩ := bind_ok h2
          obtain ⟨w4, h5, h6⟩ := bind_ok h4
          cases h6
          have g1 : Grow w { w with is_currently_binding := true } := Grow.of_eq rfl (fun _ => rfl)
          have g2 := set_current_prop_grow _ _ _ _ h1
          have g3 := (Grow.of_record w2 .compute this none).step (eval_grow _ _ _ _ h3)
          have g4 := hd _ _ _ _ h5
          have g5 : Grow w4 { w4 with is_currently_binding := false } :=
            Grow.of_eq rfl (fun _ => rfl)
          exact (((g1.step g2).step g3).step g4).step g5
        · obtain ⟨x, h3, h4⟩ := bind_ok h
          exact ((Grow.of_record w .compute this none).step (eval_grow _ _ _ _ h3)).step
            (hd _ _ _ _ h4)
        · obtain ⟨v, _, h2⟩ := bind_ok h
          exact (Grow.of_record w _ _ _).step (hrun _ _ _ h2)
        · obtain ⟨x, h3, h4⟩ := bind_ok h
          exact ((value_grow _ _ _ _ h3).step (Grow.of_record _ _ _ _)).step (hrun _ _ _ h4)
      | dependency st =>
        simp only [hf] at h
        cases type <;> simp only at h <;> try (cases h; exact Grow.start w)
        split at h
        · cases h
        · split at h
          · exact hu _ _ _ h
          · cases h; exact Grow.start w
    · intro this w w' h
      rw [update] at h
      split at h
      · exact hi _ _ _ _ _ h
      · cases h; exact Grow.start w
    · intro type value c w w' h
      cases c with
      | none => rw [pass] at h; cases h; exact Grow.start w
      | some c =>
        rw [pass_succ] at h
        obtain ⟨w1, h1, h2⟩ := bind_ok h
        have hf1 : Grow w w1 := by
          split at h1
          · exact hi _ _ _ _ _ h1
          · cases h1; exact Grow.start w
        exact hf1.step (hp _ _ _ _ _ h2)
    · intro this value w w' h
      rw [notify_all_succ] at h
      obtain ⟨w1, h1, h2⟩ := bind_ok h
      exact (hp _ _ _ _ _ h1).step (hp _ _ _ _ _ h2)
    · intro this v w w' h
      rw [set_directly_as_owner] at h
      split at h
      · exact (Grow.of_setVal w this v).step (hn _ _ _ _ h)
      · cases h; exact Grow.start w
    · intro this v w w' h
      rw [set_using_setter_succ] at h
      split at h
      · exact hi _ _ _ _ _ h
      · cases h; exact Grow.start w
    · intro this v w w' h
      rw [assign_succ] at h
      split at h
      · exact hd _ _ _ _ h
      · cases h; exact Grow.start w
    · intro this v w w' h
      rw [set_succ] at h
      split at h
      · split at h
        · exact hs _ _ _ _ h
        · cases h; exact Grow.start w
      · exact hd _ _ _ _ h
    · intro this v w w' h
      rw [request_change_succ] at h
      split at h
      · exact hs _ _ _ _ h
      · cases h; exact Grow.start w
    · intro s w w' h
      cases s with
      | assign p e =>
        rw [exec] at h
        obtain ⟨x, h3, h4⟩ := bind_ok h
        exact (eval_grow _ _ _ _ h3).step (ha _ _ _ _ h4)
      | set p e =>
        rw [exec] at h
        obtain ⟨x, h3, h4⟩ := bind_ok h
        exact (eval_grow _ _ _ _ h3).step (hset _ _ _ _ h4)
      | request_change p e =>
        rw [exec] at h
        obtain ⟨x, h3, h4⟩ := bind_ok h
        exact (eval_grow _ _ _ _ h3).step (hr _ _ _ _ h4)
    · intro l w w' h
      cases l with
      | nil => rw [run] at h; cases h; exact Grow.start w
      | cons s rest =>
        rw [run_succ_cons] at h
        obtain ⟨w1, h1, h2⟩ := bind_ok h
        exact (he _ _ _ h1).step (hrun _ _ _ h2)

/-- When `set_binding` returns, it returns true and the node carries the
binder just installed. -/
theorem set_binding_installs (n : Nat) (this : Addr) (e : Expr T) (s nf : Callable T)
    (w : World T) (r : Bool × World T) (hsize : this < w.size)
    (ho : is_owner w this = true) (h : set_binding n this e s nf w = .ok r) :
    r.1 = true ∧ (r.2.heap this).func = .property_binder e s nf ∧ w.size ≤ r.2.size := by
  unfold set_binding at h
  simp only [ho, Bool.not_true, Bool.false_eq_true, if_false] at h
  obtain ⟨w2, h1, h2⟩ := bind_ok h
  cases h2
  have g := (grow_all n).1 _ _ _ _ _ h1
  refine ⟨rfl, ?_, g.size⟩
  rw [g.func this hsize]
  simp

/-! ## Detaching a view -/

/-- The state after `detach` on a node `v` that is not an owner and has the
predecessor `p`. -/
theorem detach_view_eq (n : Nat) (v p : Addr) (w : World T) (ho : is_owner w v = false)
    (hp : (w.heap v).prev = some p) (hpv : p ≠ v) :
    detach n v w = .ok ((((match (w.heap v).next with
        | some nx => (w.setNext p (w.heap v).next).setPrev nx (some p)
        | none => w.setNext p (w.heap v).next).setNext v none).setPrev v none).setOwner v none) := by
  rw [detach_plain n v w (Or.inl ho)]
  have hvp : v ≠ p := Ne.symm hpv
  simp only [ho, Bool.false_eq_true, if_false, hp]
  cases hn : (w.heap v).next <;> simp [hvp, hp, hn]

theorem Linked.prev_mem {w : World T} {v : Addr} : ∀ {a : Addr} {l : List Addr},
    Linked w (a :: l) → v ∈ l → ∃ p, (w.heap v).prev = some p ∧ p ∈ a :: l
  | a, [], _, hv => by simp at hv
  | a, b :: rest, h, hv => by
    simp only [List.mem_cons] at hv
    rcases hv with rfl | hv
    · exact ⟨a, h.2.1, by simp⟩
    · obtain ⟨p, hp, hmem⟩ := Linked.prev_mem h.2.2 hv
      exact ⟨p, hp, List.mem_cons_of_mem _ hmem⟩

/-- Unlinking a node that is not the head of a linked run. -/
theorem Linked.unlink {w w' : World T} {v : Addr}
    (hnext : ∀ a, (w'.heap a).next =
      if a = v then none else if (w.heap v).prev = some a then (w.heap v).next
      else (w.heap a).next)
    (hprev : ∀ a, (w'.heap a).prev =
      if a = v then none else if (w.heap v).next = some a then (w.heap v).prev
      else (w.heap a).prev) :
    ∀ (a : Addr) (l : List Addr), Linked w (a :: l) → (a :: l).Nodup → v ∈ l →
      Linked w' (a :: l.erase v)
  | a, [], _, _, hv => by simp at hv
  | a, b :: rest, h, hnd, hv => by
    obtain ⟨h1, h2, h3⟩ := h
    have hnd' : (b :: rest).Nodup := (List.nodup_cons.mp hnd).2
    have ha : a ∉ b :: rest := (List.nodup_cons.mp hnd).1
    have hb : b ∉ rest := (List.nodup_cons.mp hnd').1
    have hav : a ≠ v := fun h => ha (h ▸ hv)
    by_cases hbv : b = v
    · subst hbv
      rw [List.erase_cons_head]
      cases rest with
      | nil =>
        simp only [Linked] at h3 ⊢
        rw [hnext a]
        simp [hav, h2, h3]
      | cons c r2 =>
        have hcb : c ≠ b := fun h => hb (by simp [h])
        have hca : c ≠ a := fun h => ha (by simp [h])
        refine ⟨?_, ?_, ?_⟩
        · rw [hnext a]; simp [hav, h2, h3.1]
        · rw [hprev c]; simp [hcb, h3.1, h2]
        · refine Linked.congr (c :: r2) ?_ ?_ h3.2.2
          · intro x hx
            have hxb : x ≠ b := fun h => hb (h ▸ hx)
            have hxa : a ≠ x := fun h => ha (h ▸ List.mem_cons_of_mem _ hx)
            rw [hnext x]; simp [hxb, h2, hxa]
          · intro x hx
            simp only [List.tail] at hx
            have hxb : x ≠ b := fun h => hb (h ▸ List.mem_cons_of_mem _ hx)
            have hxc : c ≠ x := fun h =>
              (List.nodup_cons.mp (List.nodup_cons.mp hnd').2).1 (h ▸ hx)
            rw [hprev x]; simp [hxb, h3.1, hxc]
    · have hv' : v ∈ rest := by
        simp only [List.mem_cons] at hv
        rcases hv with hv | hv
        · exact absurd hv.symm hbv
        · exact hv
      rw [List.erase_cons_tail (by simpa using hbv)]
      have ih := Linked.unlink hnext hprev b rest h3 hnd' hv'
      obtain ⟨p, hp, hpm⟩ := Linked.prev_mem h3 hv'
      have hpa : p ≠ a := fun h => ha (h ▸ hpm)
      refine ⟨?_, ?_, ih⟩
      · rw [hnext a]; simp [hav, hp, hpa, h1]
      · have hnb : (w.heap v).next ≠ some b := by
          intro h
          exact hb (Linked.next_mem h3 (List.mem_cons_of_mem _ hv') h)
        rw [hprev b]; simp [hbv, hnb, h2]

/-- The fields after `detach` on a node `v` that is not an owner and has the
predecessor `p`. -/
theorem detach_view_fields (n : Nat) (v p : Addr) (w : World T) (ho : is_owner w v = false)
    (hp : (w.heap v).prev = some p) (hpv : p ≠ v) (hnv : (w.heap v).next ≠ some v) :
    ∃ w', detach n v w = .ok w' ∧
      (∀ a, (w'.heap a).next =
        if a = v then none else if (w.heap v).prev = some a then (w.heap v).next
        else (w.heap a).next) ∧
      (∀ a, (w'.heap a).prev =
        if a = v then none else if (w.heap v).next = some a then (w.heap v).prev
        else (w.heap a).prev) ∧
      (∀ a, (w'.heap a).owner = if a = v then none else (w.heap a).owner) ∧
      (∀ a, (w'.heap a).val = (w.heap a).val) ∧ (∀ a, (w'.heap a).func = (w.heap a).func) ∧
      w'.size = w.size ∧ w'.log = w.log ∧
      w'.is_currently_binding = w.is_currently_binding ∧ w'.current = w.current ∧
      w'.states = w.states := by
  rw [detach_view_eq n v p w ho hp hpv]
  have hvp : v ≠ p := Ne.symm hpv
  cases hn : (w.heap v).next with
  | none =>
    refine ⟨_, rfl, ?_, ?_, ?_, ?_, ?_, rfl, rfl, rfl, rfl, rfl⟩
    · intro a
      by_cases hav : a = v
      · simp [hav]
      · by_cases hap : a = p
        · simp [hav, hap, hp, hpv]
        · have : ¬ p = a := fun h => hap h.symm
          simp [hav, hap, hp, this]
    · intro a
      by_cases hav : a = v <;> simp [hav]
    · intro a
      by_cases hav : a = v <;> simp [hav]
    · intro a
      by_cases hav : a = v
      · simp [hav]
      · by_cases hap : a = p <;> simp [hav, hap]
    · intro a
      by_cases hav : a = v
      · simp [hav]
      · by_cases hap : a = p <;> simp [hav, hap]
  | some nx =>
    have hnxv : nx ≠ v := fun h => hnv (by rw [hn, h])
    refine ⟨_, rfl, ?_, ?_, ?_, ?_, ?_, rfl, rfl, rfl, rfl, rfl⟩
    · intro a
      by_cases hav : a = v
      · simp [hav]
      · by_cases hap : a = p
        · subst hap
          by_cases hax : a = nx <;> simp [hav, hax, hp]
        · have : ¬ p = a := fun h => hap h.symm
          by_cases hax : a = nx
          · subst hax; simp [hav, hap, hp, this]
          · simp [hav, hap, hax, hp, this]
    · intro a
      by_cases hav : a = v
      · simp [hav]
      · by_cases hax : a = nx
        · simp [hav, hax, hp, hnxv]
        · have : ¬ nx = a := fun h => hax h.symm
          by_cases hap : a = p
          · subst hap; simp [hav, hax, this]
          · simp [hav, hax, hap, this]
    · intro a
      by_cases hav : a = v
      · simp [hav]
      · by_cases hax : a = nx <;> by_cases hap : a = p <;> simp [hav, hax, hap]
    · intro a
      by_cases hav : a = v
      · simp [hav]
      · by_cases hax : a = nx <;> by_cases hap : a = p <;> simp [hav, hax, hap]
    · intro a
      by_cases hav : a = v
      · simp [hav]
      · by_cases hax : a = nx <;> by_cases hap : a = p <;> simp [hav, hax, hap]

/-- No node of a linked run without repetition is its own successor. -/
theorem Linked.next_ne {w : World T} {v : Addr} : ∀ {a : Addr} {l : List Addr},
    Linked w (a :: l) → (a :: l).Nodup → v ∈ a :: l → (w.heap v).next ≠ some v
  | a, [], h, _, hm, hq => by
    simp at hm; subst hm
    simp only [Linked] at h
    rw [h] at hq; cases hq
  | a, b :: rest, h, hnd, hm, hq => by
    simp only [List.mem_cons] at hm
    rcases hm with rfl | hm
    · rw [h.1] at hq
      cases hq
      exact (List.nodup_cons.mp hnd).1 (by simp)
    · exact Linked.next_ne h.2.2 (List.nodup_cons.mp hnd).2 (List.mem_cons.mpr hm) hq

/-- The method `detach` on a view of a list: the view leaves the list, keeps
its value and handler, and no other node changes except the links of its
two neighbours. -/
theorem detach_view_spec (w : World T) (o v : Addr) (views : List Addr) (n : Nat)
    (hl : IsList w o views) (hv : v ∈ views) :
    ∃ w', detach n v w = .ok w' ∧ IsList w' o (views.erase v) ∧
      (w'.heap v).owner = none ∧ (w'.heap v).next = none ∧ (w'.heap v).prev = none ∧
      (∀ a, (w'.heap a).val = (w.heap a).val) ∧ (∀ a, (w'.heap a).func = (w.heap a).func) ∧
      (∀ a, a ≠ v → (w'.heap a).owner = (w.heap a).owner) ∧
      (∀ a, a ∉ o :: views → (w'.heap a).next = (w.heap a).next ∧
        (w'.heap a).prev = (w.heap a).prev) ∧
      w'.size = w.size ∧ w'.log = w.log ∧
      w'.is_currently_binding = w.is_currently_binding ∧ w'.current = w.current ∧
      w'.states = w.states := by
  have hov : o ≠ v := fun h => (List.nodup_cons.mp hl.nodup).1 (h ▸ hv)
  have hvm : v ∈ o :: views := List.mem_cons_of_mem _ hv
  have ho : is_owner w v = false := by
    simp [is_owner, hl.owner v hvm, hov]
  obtain ⟨p, hp, hpm⟩ := Linked.prev_mem hl.linked hv
  have hnv : (w.heap v).next ≠ some v := Linked.next_ne hl.linked hl.nodup hvm
  have hpv : p ≠ v := by
    intro h
    subst h
    -- walk to `p`: the node before it has `p` as successor, so `prev p` is another node
    have : ∀ (a : Addr) (l : List Addr), Linked w (a :: l) → (a :: l).Nodup → p ∈ l →
        (w.heap p).prev ≠ some p := by
      intro a l
      induction l generalizing a with
      | nil => intro _ _ h; simp at h
      | cons b rest ih =>
        intro h hnd hm hq
        simp only [List.mem_cons] at hm
        by_cases hpb : p = b
        · subst hpb
          rw [h.2.1] at hq
          cases hq
          exact (List.nodup_cons.mp hnd).1 (by simp)
        · rcases hm with hm | hm
          · exact hpb hm
          · exact ih b h.2.2 (List.nodup_cons.mp hnd).2 hm hq
    exact this o views hl.linked hl.nodup hv hp
  obtain ⟨w', hd, hnext, hprev, hown, hval, hfunc, hsz, hlog, hb, hcur, hst⟩ :=
    detach_view_fields n v p w ho hp hpv hnv
  refine ⟨w', hd, ⟨?_, ?_, ?_, ?_⟩, ?_, ?_, ?_, hval, hfunc, ?_, ?_, hsz, hlog, hb, hcur, hst⟩
  · exact List.nodup_cons.mpr ⟨fun h => (List.nodup_cons.mp hl.nodup).1 (List.mem_of_mem_erase h),
      (List.nodup_cons.mp hl.nodup).2.erase v⟩
  · exact Linked.unlink hnext hprev o views hl.linked hl.nodup hv
  · rw [hprev o]
    have hno : (w.heap v).next ≠ some o := fun h =>
      (List.nodup_cons.mp hl.nodup).1 (Linked.next_mem hl.linked hvm h)
    simp [hov, hno, hl.head]
  · intro a ha
    have hav : a ≠ v := by
      intro h
      subst h
      simp only [List.mem_cons] at ha
      rcases ha with ha | ha
      · exact hov ha.symm
      · exact ((List.nodup_cons.mp hl.nodup).2.mem_erase_iff.mp ha).1 rfl
    have ham : a ∈ o :: views := by
      simp only [List.mem_cons] at ha ⊢
      rcases ha with ha | ha
      · exact Or.inl ha
      · exact Or.inr (List.mem_of_mem_erase ha)
    rw [hown a]; simp [hav, hl.owner a ham]
  · rw [hown v]; simp
  · rw [hnext v]; simp
  · rw [hprev v]; simp
  · intro a hav; rw [hown a]; simp [hav]
  · intro a ha
    have hav : a ≠ v := fun h => ha (h ▸ hvm)
    have hap : (w.heap v).prev ≠ some a := by
      rw [hp]; intro h; cases h; exact ha hpm
    have han : (w.heap v).next ≠ some a := fun h =>
      ha (List.mem_cons_of_mem _ (Linked.next_mem hl.linked hvm h))
    rw [hnext a, hprev a]
    simp [hav, hap, han]

/-! ## C16: `become_owner` on a view -/

theorem count_views_spec (w : World T) : ∀ (s : List Addr) (n k : Nat),
    Linked w s → s.length + 1 ≤ n → count_views n s.head? w k = .ok (k + s.length)
  | [], n, k, _, hn => by
    obtain ⟨m, rfl⟩ : ∃ m, n = m + 1 := ⟨n - 1, by omega⟩
    simp [count_views]
  | c :: rest, n, k, hl, hn => by
    obtain ⟨m, rfl⟩ : ∃ m, n = m + 1 := ⟨n - 1, by simp at hn; omega⟩
    rw [List.head?, count_views, hl.next_head,
      count_views_spec w rest m (k + 1) hl.tail (by simp at hn; omega)]
    simp only [List.length_cons]
    congr 1
    omega

/-- The method `num_views` on any node of a list counts the views. -/
theorem num_views_spec (w : World T) (o a : Addr) (views : List Addr) (n : Nat)
    (hl : IsList w o views) (ha : a ∈ o :: views) (hn : views.length + 1 ≤ n) :
    num_views n a w = .ok views.length := by
  have hown := hl.owner a ha
  unfold num_views
  simp only [is_zombie, hown, beq_iff_eq]
  simp only [reduceCtorEq, if_false]
  rw [hl.linked.next_head, count_views_spec w views n 0 hl.linked.tail hn]
  simp

/-- C16 (`become_owner` on a view is non-destructive): let `v` be a view in
the list of `o`.  `v.become_owner()` returns; afterwards `v` is an owner
with no views and its previous value, `o` is the owner of the other views
in their previous relative order, the view count of `o` has dropped by
one, and no other node has changed its value or handler.  A direct write
to `v` is accepted and changes no other node; and when the handler of `o`
is plain and its views mirror, a direct write to `o` returns and does not
change `v`. -/
theorem become_owner_non_destructive (w : World T) (o v : Addr) (views : List Addr)
    (hl : IsList w o views) (hv : v ∈ views) (fuel : Nat) :
    ∃ w', become_owner fuel v w = .ok w' ∧
      is_owner w' v = true ∧ IsList w' v [] ∧ (w'.heap v).val = (w.heap v).val ∧
      (∀ k, 1 ≤ k → num_views k v w' = .ok 0) ∧
      is_owner w' o = true ∧ IsList w' o (views.erase v) ∧
      (∀ a ∈ views.erase v, is_view w' a = true ∧ (w'.heap a).owner = some o) ∧
      (∀ k, views.length + 1 ≤ k →
        num_views k o w = .ok views.length ∧ num_views k o w' = .ok (views.length - 1)) ∧
      (∀ a, a ≠ v → (w'.heap a).val = (w.heap a).val ∧ (w'.heap a).func = (w.heap a).func) ∧
      (∀ (x : T) k, 8 ≤ k → ∃ w'', assign k v x w' = .ok w'' ∧ (w''.heap v).val = x ∧
        ∀ a, a ≠ v → (w''.heap a).val = (w'.heap a).val) ∧
      ((w.heap o).func.plain → (∀ a ∈ views, (w.heap a).func.mirrors) →
        (∀ a ∈ views, (w.heap a).val = (w.heap o).val) →
        ∀ (x : T) k, views.length + 8 ≤ k →
          ∃ w'', assign k o x w' = .ok w'' ∧ (w''.heap v).val = (w.heap v).val ∧
            ∀ a ∈ o :: views.erase v, (w''.heap a).val = x) := by
  obtain ⟨w1, h1, hl1, hvo, hvn, hvp, hval, hfunc, hown, _, hsize, hlog, hb, hcur, hst⟩ :=
    detach_view_spec w o v views fuel hl hv
  have hov : o ≠ v := fun h => (List.nodup_cons.mp hl.nodup).1 (h ▸ hv)
  have hvnot : v ∉ o :: views.erase v := by
    intro h
    simp only [List.mem_cons] at h
    rcases h with h | h
    · exact hov h.symm
    · exact ((List.nodup_cons.mp hl.nodup).2.mem_erase_iff.mp h).1 rfl
  have hl2 : IsList ((w1.setOwner v (some v)).setFunc v .default_setter) o (views.erase v) :=
    hl1.congr_on (fun a ha => by
      have : a ≠ v := by
        rintro rfl
        exact hvnot ha
      simp [this])
  have hlv : IsList ((w1.setOwner v (some v)).setFunc v .default_setter) v [] :=
    ⟨by simp, by simp [Linked, hvn], by simp [hvp], by simp⟩
  have hlen : (views.erase v).length = views.length - 1 := List.length_erase_of_mem hv
  refine ⟨(w1.setOwner v (some v)).setFunc v .default_setter, ?_, hlv.is_owner, hlv, ?_, ?_,
    hl2.is_owner, hl2, ?_, ?_, ?_, ?_, ?_⟩
  · unfold become_owner
    rw [h1]
    rfl
  · simp [hval]
  · intro k hk
    exact num_views_spec _ v v [] k hlv (by simp) (by simpa using hk)
  · intro a ha
    exact ⟨hl2.is_view ha, hl2.owner a (List.mem_cons_of_mem _ ha)⟩
  · intro k hk
    refine ⟨num_views_spec w o o views k hl (by simp) hk, ?_⟩
    rw [← hlen]
    exact num_views_spec _ o o _ k hl2 (by simp) (by rw [hlen]; omega)
  · intro a hav
    simp [hav, hval, hfunc]
  · intro x k hk
    by_cases hx : (w.heap v).val = x
    · obtain ⟨m, rfl⟩ : ∃ m, k = m + 2 := ⟨k - 2, by omega⟩
      refine ⟨((w1.setOwner v (some v)).setFunc v .default_setter), ?_, by simp [hval, hx], fun _ _ => rfl⟩
      rw [assign_succ, hlv.is_owner, if_pos rfl]
      have := set_directly_gate m v ((w1.setOwner v (some v)).setFunc v .default_setter)
      simpa [hval, hx] using this
    · obtain ⟨m, rfl⟩ : ∃ m, k = m + 1 := ⟨k - 1, by omega⟩
      obtain ⟨w'', h2, _, hv2, hout, _⟩ := set_directly_spec _ v [] x m hlv
        (by simp [Func.plain]) (by intro a ha; cases ha) (by simpa [hval] using hx)
        (by simp; omega)
      refine ⟨w'', by rw [assign_succ, hlv.is_owner, if_pos rfl, h2], hv2 v (by simp), ?_⟩
      intro a hav
      exact hout a (by simpa using hav)
  · intro hplain hmir hsync x k hk
    have hmir2 : ∀ a ∈ views.erase v,
        (((w1.setOwner v (some v)).setFunc v .default_setter).heap a).func.mirrors := by
      intro a ha
      have hav : a ≠ v := by
        rintro rfl
        exact hvnot (List.mem_cons_of_mem _ ha)
      simpa [hav, hfunc] using hmir a (List.mem_of_mem_erase ha)
    have hsync2 : ∀ a ∈ views.erase v,
        (((w1.setOwner v (some v)).setFunc v .default_setter).heap a).val =
          (((w1.setOwner v (some v)).setFunc v .default_setter).heap o).val := by
      intro a ha
      simpa [hval] using hsync a (List.mem_of_mem_erase ha)
    by_cases hx : (w.heap o).val = x
    · obtain ⟨m, rfl⟩ : ∃ m, k = m + 2 := ⟨k - 2, by omega⟩
      refine ⟨((w1.setOwner v (some v)).setFunc v .default_setter), ?_, by simp [hval], ?_⟩
      · rw [assign_succ, hl2.is_owner, if_pos rfl]
        have := set_directly_gate m o ((w1.setOwner v (some v)).setFunc v .default_setter)
        simpa [hval, hx] using this
      · intro a ha
        simp only [List.mem_cons] at ha
        rcases ha with rfl | ha
        · simpa [hval] using hx
        · rw [hsync2 a ha]; simpa [hval] using hx
    · obtain ⟨m, rfl⟩ : ∃ m, k = m + 1 := ⟨k - 1, by omega⟩
      obtain ⟨w'', h2, _, hv2, hout, _⟩ := set_directly_spec _ o (views.erase v) x m hl2
        (by simpa [hov, hfunc] using hplain) hmir2 (by simpa [hval] using hx)
        (by rw [hlen]; omega)
      refine ⟨w'', by rw [assign_succ, hl2.is_owner, if_pos rfl, h2], ?_, hv2⟩
      rw [hout v hvnot]
      simp [hval]

/-- An owner holding 5 with the views 1 and 2; the view at address 1 becomes an owner. -/
theorem become_owner_non_destructive_witness :
    IsList (copies (World.init (0 : Int)) 5 [1, 0]) 0 [1, 2] ∧
    ∃ w', become_owner 1 1 (copies (World.init (0 : Int)) 5 [1, 0]) = .ok w' ∧
      is_owner w' 1 = true ∧ (w'.heap 1).val = 5 ∧ IsList w' 0 [2] ∧
      num_views 3 0 w' = .ok 1 :=
  have hl : IsList (copies (World.init (0 : Int)) 5 [1, 0]) 0 [1, 2] :=
    ⟨by decide, by decide, by decide, by decide⟩
  ⟨hl, by
    obtain ⟨w', h, ho, _, hval, _, _, hl2, _, hnum, _⟩ :=
      become_owner_non_destructive (copies (World.init (0 : Int)) 5 [1, 0]) 0 1 [1, 2] hl
        (by decide) 1
    exact ⟨w', h, ho, by rw [hval]; decide, hl2, (hnum 3 (by decide)).2⟩⟩

/-! ## C21: destroying a view -/

/-- A value assignment to the owner of a list, either of a new value or with
every view holding the owner's value: afterwards every node of the list
holds the assigned value, and no node outside the list has changed. -/
theorem assign_list_frame (w : World T) (o : Addr) (views : List Addr) (x : T)
    (hl : IsList w o views) (hplain : (w.heap o).func.plain)
    (hmir : ∀ a ∈ views, (w.heap a).func.mirrors)
    (hs : (w.heap o).val ≠ x ∨ ∀ a ∈ views, (w.heap a).val = (w.heap o).val) (n : Nat)
    (hn : views.length + 8 ≤ n) :
    ∃ w', assign n o x w = .ok w' ∧ ValFrame w w' ∧ (∀ a ∈ o :: views, (w'.heap a).val = x) ∧
      ∀ a, a ∉ o :: views → (w'.heap a).val = (w.heap a).val := by
  obtain ⟨m, rfl⟩ : ∃ m, n = m + 1 + 1 := ⟨n - 2, by omega⟩
  rw [assign_succ, hl.is_owner, if_pos rfl]
  by_cases hne : (w.heap o).val = x
  · have hsync : ∀ a ∈ views, (w.heap a).val = (w.heap o).val := by
      rcases hs with hs | hs
      · exact absurd hne hs
      · exact hs
    refine ⟨w, by rw [← hne]; exact set_directly_gate _ _ _, ValFrame.refl w, ?_, fun _ _ => rfl⟩
    intro a ha
    simp only [List.mem_cons] at ha
    rcases ha with rfl | ha
    · exact hne
    · rw [hsync a ha, hne]
  · obtain ⟨w', h1, hf, hv, hout, _⟩ := set_directly_spec w o views x (m + 1) hl hplain hmir hne
      (by omega)
    exact ⟨w', h1, hf, hv, hout⟩

/-- C21 (destroying a view leaves its neighbours untouched): let `v` be one
of the views of the owner `o`.  The destructor of `v` returns; afterwards
`o` is the owner, the other views are views of `o` in their previous
relative order, every node has kept its value and handler, `num_views()` of
the owner has gone from `k` to `k - 1`, and `v` is orphaned with `num_views()`
equal to 0, as on every orphaned node.  When the handler of `o` is plain and
the views mirror, a later assignment to `o` (of a new value, or with the
views in step with `o`) returns and every remaining view reads the assigned
value. -/
theorem destroy_view_leaves_neighbours (w : World T) (o v : Addr) (views : List Addr)
    (hl : IsList w o views) (hv : v ∈ views) (fuel : Nat) :
    ∃ w', destroy fuel v w = .ok w' ∧
      is_owner w' o = true ∧ IsList w' o (views.erase v) ∧
      (∀ a ∈ views.erase v, is_view w' a = true ∧ (w'.heap a).owner = some o) ∧
      (∀ a, (w'.heap a).val = (w.heap a).val ∧ (w'.heap a).func = (w.heap a).func) ∧
      (∀ k, views.length + 1 ≤ k →
        num_views k o w = .ok views.length ∧ num_views k o w' = .ok (views.length - 1)) ∧
      is_zombie w' v = true ∧
      (∀ (u : World T) a k, is_zombie u a = true → num_views k a u = .ok 0) ∧
      ((w.heap o).func.plain → (∀ a ∈ views, (w.heap a).func.mirrors) →
        ∀ (x : T), ((w.heap o).val ≠ x ∨ ∀ a ∈ views, (w.heap a).val = (w.heap o).val) →
        ∀ k, views.length + 8 ≤ k →
          ∃ w'', assign k o x w' = .ok w'' ∧ (∀ a ∈ o :: views.erase v, (w''.heap a).val = x) ∧
            (w''.heap v).val = (w.heap v).val) := by
  obtain ⟨w1, h1, hl1, hvo, hvn, hvp, hval, hfunc, hown, _, hsize, hlog, hb, hcur, hst⟩ :=
    detach_view_spec w o v views fuel hl hv
  have hov : o ≠ v := fun h => (List.nodup_cons.mp hl.nodup).1 (h ▸ hv)
  have hvnot : v ∉ o :: views.erase v := by
    intro h
    simp only [List.mem_cons] at h
    rcases h with h | h
    · exact hov h.symm
    · exact ((List.nodup_cons.mp hl.nodup).2.mem_erase_iff.mp h).1 rfl
  have hlen : (views.erase v).length = views.length - 1 := List.length_erase_of_mem hv
  refine ⟨w1, h1, hl1.is_owner, hl1, ?_, fun a => ⟨hval a, hfunc a⟩, ?_, ?_, ?_, ?_⟩
  · intro a ha
    exact ⟨hl1.is_view ha, hl1.owner a (List.mem_cons_of_mem _ ha)⟩
  · intro k hk
    refine ⟨num_views_spec w o o views k hl (by simp) hk, ?_⟩
    rw [← hlen]
    exact num_views_spec _ o o _ k hl1 (by simp) (by rw [hlen]; omega)
  · simp [is_zombie, hvo]
  · intro u a k hz
    simp [num_views, hz]
  · intro hplain hmir x hs k hk
    obtain ⟨w2, h2, _, hin, hout⟩ := assign_list_frame w1 o (views.erase v) x hl1
      (by rw [hfunc]; exact hplain)
      (fun a ha => by rw [hfunc]; exact hmir a (List.mem_of_mem_erase ha))
      (by
        rcases hs with hs | hs
        · exact Or.inl (by rw [hval]; exact hs)
        · exact Or.inr (fun a ha => by rw [hval, hval]; exact hs a (List.mem_of_mem_erase ha)))
      k (by rw [hlen]; omega)
    exact ⟨w2, h2, hin, by rw [hout v hvnot, hval]⟩

/-- An owner holding 5 with the views 1 and 2; the view at address 1 is destroyed. -/
theorem destroy_view_leaves_neighbours_witness :
    IsList (copies (World.init (0 : Int)) 5 [1, 0]) 0 [1, 2] ∧
    ∃ w', destroy 1 1 (copies (World.init (0 : Int)) 5 [1, 0]) = .ok w' ∧
      IsList w' 0 [2] ∧ (w'.heap 2).val = 5 ∧ num_views 3 0 w' = .ok 1 ∧
      num_views 3 1 w' = .ok 0 :=
  have hl : IsList (copies (World.init (0 : Int)) 5 [1, 0]) 0 [1, 2] :=
    ⟨by decide, by decide, by decide, by decide⟩
  ⟨hl, by
    obtain ⟨w', h, _, hl2, _, hval, hnum, hz, hzero, _⟩ :=
      destroy_view_leaves_neighbours (copies (World.init (0 : Int)) 5 [1, 0]) 0 1 [1, 2] hl
        (by decide) 1
    exact ⟨w', h, hl2, by rw [(hval 2).1]; decide, (hnum 3 (by decide)).2, hzero w' 1 3 hz⟩⟩

/-! ## C22: a view produced by a move -/

/-- C22, failing input: `o` (address 0) holds 1 and has the view `v1`
(address 1).  First line: `v2` (address 2) is move-constructed from `v1`;
it is a view of `o` right behind it, carries a handler, and after `o = 5` it
reads 5.  Second line: `v2` (address 2) is default-constructed and then
move-assigned from `v1`; it is a view of `o` right behind it, but its
handler is empty, and after `o = 5` it still reads 1. -/
theorem move_assigned_view_out_of_step :
    ((property_move 4 1 (property_copy 0 (property_new 1 (World.init (0 : Int))))) >>=
      assign 9 0 5).toOption.map
        (fun w => ((w.heap 2).owner, (w.heap 0).next, (w.heap 2).func.nonempty,
          [(w.heap 0).val, (w.heap 2).val])) =
      some (some 0, some 2, true, [5, 5]) ∧
    ((property_move_assign 4 2 1
        (property_new 0 (property_copy 0 (property_new 1 (World.init (0 : Int)))))) >>=
      assign 9 0 5).toOption.map
        (fun w => ((w.heap 2).owner, (w.heap 0).next, (w.heap 2).func.nonempty,
          [(w.heap 0).val, (w.heap 2).val])) =
      some (some 0, some 2, false, [5, 1]) := by
  decide

/-! ## C23: insertion position and visiting order -/

theorem insert_after_split (s new : Addr) : ∀ (l1 l2 : List Addr), s ∉ l1 →
    insert_after s new (l1 ++ s :: l2) = l1 ++ s :: new :: l2
  | [], l2, _ => by simp [insert_after]
  | a :: l1, l2, h => by
    have has : ¬ a = s := fun e => h (by simp [e])
    have hs : s ∉ l1 := fun e => h (List.mem_cons_of_mem _ e)
    simp [insert_after, has, insert_after_split s new l1 l2 hs]

/-- C23 (insertion position and visiting order): let `o` own the list
`o :: views`, all of whose nodes exist.  First part: the copy construction
from a node `s` of the list turns `.., s, t, ..` into `.., s, new, t, ..`, a
list of the same owner; `new` has the owner and the value of `s`, and every
other node keeps its value, handler and owner, its `next` unless it is `s`
and its `prev` unless it is `t`.  Second part: on an owner write of a new
value (plain owner handler, mirroring views) the installed notifiers are
invoked once each, the owner's first and then those of the views in list
order, and at each of these invocations every node of the list already
holds the new value.  Third part: of two views copied one after the other
directly from the owner, both with an observing notifier, the one created
later is notified first. -/
theorem insertion_and_visiting_order (w : World T) (o : Addr) (views : List Addr)
    (hl : IsList w o views) (hnew : ∀ a ∈ o :: views, a < w.size) :
    (∀ s ∈ o :: views,
      (∀ l1 l2, o :: views = l1 ++ s :: l2 →
        ∃ vs, l1 ++ s :: w.size :: l2 = o :: vs ∧ IsList (property_copy s w) o vs) ∧
      ((property_copy s w).heap w.size).owner = (w.heap s).owner ∧
      ((property_copy s w).heap w.size).val = (w.heap s).val ∧
      ((property_copy s w).heap w.size).prev = some s ∧
      ((property_copy s w).heap w.size).next = (w.heap s).next ∧
      ((property_copy s w).heap s).next = some w.size ∧
      ∀ a, a ≠ w.size →
        ((property_copy s w).heap a).val = (w.heap a).val ∧
        ((property_copy s w).heap a).func = (w.heap a).func ∧
        ((property_copy s w).heap a).owner = (w.heap a).owner ∧
        (a ≠ s → ((property_copy s w).heap a).next = (w.heap a).next) ∧
        ((w.heap s).next ≠ some a → ((property_copy s w).heap a).prev = (w.heap a).prev) ∧
        ((w.heap s).next = some a → ((property_copy s w).heap a).prev = some w.size)) ∧
    ((w.heap o).func.plain → (∀ a ∈ views, (w.heap a).func.mirrors) →
      ∀ x, (w.heap o).val ≠ x → ∀ n, views.length + 8 ≤ n →
        ∃ w' es, assign n o x w = .ok w' ∧ w'.log = w.log ++ es ∧
          es.map (fun e => (e.callee, e.node, e.value)) =
            ((o :: views).filter (fun c => (w.heap c).func.is_notifier)).map
              (fun c => (Callee.notifier, c, some x)) ∧
          ∀ e ∈ es, ∀ a ∈ o :: views, (e.heap a).val = x) ∧
    ((w.heap o).func.plain → (∀ a ∈ views, (w.heap a).func.mirrors) →
      ∀ nf1 nf2 : Callable T, Callable.quiet nf1 → Callable.quiet nf2 →
      ∀ x, (w.heap o).val ≠ x → ∀ n, views.length + 10 ≤ n →
        ∃ w', assign n o x (set_notifier (w.size + 1) nf2 (set_notifier w.size nf1
            (property_copy o (property_copy o w))).2).2 = .ok w' ∧
          calls w' = calls w ++
            (((if (w.heap o).func.is_notifier then [(Callee.notifier, o, some x)] else []) ++
              [(Callee.notifier, w.size + 1, some x), (Callee.notifier, w.size, some x)]) ++
              (views.filter (fun c => (w.heap c).func.is_notifier)).map
                (fun c => (Callee.notifier, c, some x)))) := by
  have hfresh : w.size ∉ o :: views := fun h => Nat.lt_irrefl _ (hnew _ h)
  have hoz : o ≠ w.size := fun h => hfresh (by simp [h])
  refine ⟨?_, ?_, ?_⟩
  · intro s hs
    have hsz : s ≠ w.size := fun h => hfresh (h ▸ hs)
    have hnx : (w.heap s).next ≠ some w.size := fun h =>
      hfresh (List.mem_cons_of_mem _ (Linked.next_mem hl.linked hs h))
    refine ⟨?_, ?_, ?_, ?_, ?_, ?_, ?_⟩
    · intro l1 l2 heq
      have hnd := hl.nodup
      rw [heq] at hnd
      have hs1 : s ∉ l1 := fun h => (List.nodup_append.mp hnd).2.2 h (by simp)
      refine ⟨(insert_after s w.size (o :: views)).tail, ?_, hl.copy_view hs hfresh⟩
      rw [← insert_after_cons_tail, heq, insert_after_split s w.size l1 l2 hs1]
    · rw [property_copy_owner s w hsz]; simp
    · rw [property_copy_val s w hsz]; simp
    · rw [property_copy_prev s w hsz]; simp [hnx]
    · rw [property_copy_next s w hsz]; simp [Ne.symm hsz]
    · rw [property_copy_next s w hsz]; simp
    · intro a ha
      refine ⟨?_, ?_, ?_, ?_, ?_, ?_⟩
      · rw [property_copy_val s w hsz]; simp [ha]
      · rw [property_copy_func]; simp [ha]
      · rw [property_copy_owner s w hsz]; simp [ha]
      · intro has; rw [property_copy_next s w hsz]; simp [ha, has]
      · intro hna; rw [property_copy_prev s w hsz]; simp [ha, hna]
      · intro hna; rw [property_copy_prev s w hsz]; simp [hna]
  · intro hplain hmir x hne n hn
    obtain ⟨m, rfl⟩ : ∃ m, n = m + 1 := ⟨n - 1, by omega⟩
    obtain ⟨w', h1, _, _, _, es, hlog, hmap, hsnap⟩ :=
      set_directly_spec w o views x m hl hplain hmir hne (by omega)
    exact ⟨w', es, by rw [assign_succ, hl.is_owner, if_pos rfl, h1], hlog, hmap, hsnap⟩
  · intro hplain hmir nf1 nf2 hq1 hq2 x hne n hn
    have hoz1 : o ≠ w.size + 1 := fun h => by
      have h2 := hnew o (by simp)
      rw [h] at h2
      exact absurd h2 (by simp)
    -- the first copy
    have hl1 : IsList (property_copy o w) o (w.size :: views) := by
      have := hl.copy_view (List.mem_cons_self o views) hfresh
      simpa [insert_after] using this
    have hfresh1 : (property_copy o w).size ∉ o :: w.size :: views := by
      rw [property_copy_size]
      intro h
      simp only [List.mem_cons] at h
      rcases h with h | h | h
      · exact hoz1 h.symm
      · simp at h
      · have h2 := hnew _ (List.mem_cons_of_mem _ h)
        exact absurd h2 (by simp)
    -- the second copy
    have hl2 : IsList (property_copy o (property_copy o w)) o
        ((w.size + 1) :: w.size :: views) := by
      have := hl1.copy_view (List.mem_cons_self o _) hfresh1
      simpa [insert_after, property_copy_size] using this
    have ho1 : o ≠ (property_copy o w).size := by rw [property_copy_size]; exact hoz1
    -- the two notifiers
    have hl4 : IsList (set_notifier (w.size + 1) nf2 (set_notifier w.size nf1
        (property_copy o (property_copy o w))).2).2 o ((w.size + 1) :: w.size :: views) :=
      hl2.same_links (by intro a; simp [set_notifier]) (by intro a; simp [set_notifier])
        (by intro a; simp [set_notifier])
    have hfunc : ∀ a, ((set_notifier (w.size + 1) nf2 (set_notifier w.size nf1
        (property_copy o (property_copy o w))).2).2.heap a).func =
        if a = w.size + 1 then .property_notifier nf2
        else if a = w.size then .property_notifier nf1 else (w.heap a).func := by
      intro a
      simp only [set_notifier, heap_setFunc_func, property_copy_func, property_copy_size]
      split_ifs <;> simp_all
    have hval : ((set_notifier (w.size + 1) nf2 (set_notifier w.size nf1
        (property_copy o (property_copy o w))).2).2.heap o).val = (w.heap o).val := by
      simp [set_notifier, property_copy_val _ _ ho1, property_copy_val _ _ hoz, hoz, hoz1,
        property_copy_size]
    have hlog : (set_notifier (w.size + 1) nf2 (set_notifier w.size nf1
        (property_copy o (property_copy o w))).2).2.log = w.log := by
      simp [set_notifier, property_copy]
    have hcalls : calls (set_notifier (w.size + 1) nf2 (set_notifier w.size nf1
        (property_copy o (property_copy o w))).2).2 = calls w := by
      simp [calls, hlog]
    have key : ∀ W4 : World T, IsList W4 o ((w.size + 1) :: w.size :: views) →
        (∀ a, (W4.heap a).func = if a = w.size + 1 then .property_notifier nf2
          else if a = w.size then .property_notifier nf1 else (w.heap a).func) →
        (W4.heap o).val = (w.heap o).val → calls W4 = calls w →
        ∃ w', assign n o x W4 = .ok w' ∧
          calls w' = calls w ++
            (((if (w.heap o).func.is_notifier then [(Callee.notifier, o, some x)] else []) ++
              [(Callee.notifier, w.size + 1, some x), (Callee.notifier, w.size, some x)]) ++
              (views.filter (fun c => (w.heap c).func.is_notifier)).map
                (fun c => (Callee.notifier, c, some x))) := by
      intro W4 hl4 hfunc hval hcalls
      obtain ⟨m, rfl⟩ : ∃ m, n = m + 1 := ⟨n - 1, by omega⟩
      have hvne : ∀ a ∈ views, a ≠ w.size + 1 ∧ a ≠ w.size := by
        intro a ha
        have h2 := hnew a (List.mem_cons_of_mem _ ha)
        constructor
        · intro h; rw [h] at h2; exact absurd h2 (by simp)
        · intro h; rw [h] at h2; exact absurd h2 (by simp)
      have hplain4 : (W4.heap o).func.plain := by
        rw [hfunc o]; simpa [hoz, hoz1] using hplain
      have hmir4 : ∀ a ∈ (w.size + 1) :: w.size :: views, (W4.heap a).func.mirrors := by
        intro a ha
        rw [hfunc a]
        simp only [List.mem_cons] at ha
        rcases ha with rfl | rfl | ha
        · simpa [Func.mirrors] using hq2
        · simpa [Func.mirrors] using hq1
        · simpa [(hvne a ha).1, (hvne a ha).2] using hmir a ha
      obtain ⟨w', h1, _, _, _, es, hlog', hmap, _⟩ :=
        set_directly_spec W4 o ((w.size + 1) :: w.size :: views) x m hl4 hplain4 hmir4
          (by rw [hval]; exact hne) (by simp only [List.length_cons]; omega)
      refine ⟨w', by rw [assign_succ, hl4.is_owner, if_pos rfl, h1], ?_⟩
      have hf_o : (W4.heap o).func.is_notifier = (w.heap o).func.is_notifier := by
        rw [hfunc o]; simp [hoz, hoz1]
      have hf_1 : (W4.heap (w.size + 1)).func.is_notifier = true := by
        rw [hfunc]; simp [Func.is_notifier]
      have hf_2 : (W4.heap w.size).func.is_notifier = true := by
        rw [hfunc]; simp [Func.is_notifier]
      have hf_v : views.filter (fun c => (W4.heap c).func.is_notifier) =
          views.filter (fun c => (w.heap c).func.is_notifier) :=
        List.filter_congr (fun a ha => by
          rw [hfunc a]; simp [(hvne a ha).1, (hvne a ha).2])
      rw [calls_append _ _ es hlog', hmap, hcalls]
      simp only [List.filter_cons, hf_o, hf_1, hf_2, hf_v]
      by_cases hn : (w.heap o).func.is_notifier = true <;> simp [hn]
    exact key _ hl4 hfunc hval hcalls

/-- An owner holding 5 is copied twice, both copies get an observing notifier,
and the owner is assigned 7: the copy made later (address 2) is notified first. -/
theorem insertion_and_visiting_order_witness :
    IsList (property_new 5 (World.init (0 : Int))) 0 [] ∧
    ∃ w', assign 10 0 7 (set_notifier 2 nop (set_notifier 1 nop
        (property_copy 0 (property_copy 0 (property_new 5 (World.init (0 : Int)))))).2).2 =
          .ok w' ∧
      calls w' = [(.notifier, 2, some 7), (.notifier, 1, some 7)] :=
  have hl : IsList (property_new 5 (World.init (0 : Int))) 0 [] :=
    ⟨by decide, by decide, by decide, by decide⟩
  ⟨hl, by
    obtain ⟨w', h, hc⟩ :=
      (insertion_and_visiting_order (property_new 5 (World.init (0 : Int))) 0 [] hl
        (by decide)).2.2 (by simp [property_new, World.init, Func.plain]) (by simp) nop nop
        (fun _ _ => rfl) (fun _ _ => rfl) 7 (by decide) 10 (by decide)
    exact ⟨w', h, by rw [hc]; decide⟩⟩

/-! ## Loops of `notify_all` by invariant -/

theorem pass_none (n : Nat) (type : call_type) (value : ValPtr T) (w : World T) :
    pass (n + 1) type value none w = .ok w := by
  rw [pass]; rfl

theorem step_mono {k m : Nat} {c : Addr} {value : ValPtr T} {type : call_type} {w w' : World T}
    (h : (if (w.heap c).func.nonempty then invoke k c value type w else pure w) = .ok w')
    (hkm : k ≤ m) :
    (if (w.heap c).func.nonempty then invoke m c value type w else pure w) = .ok w' := by
  by_cases hf : (w.heap c).func.nonempty = true
  · rw [if_pos hf] at h ⊢
    exact invoke_mono h hkm
  · rw [if_neg hf] at h ⊢
    exact h

/-- One loop of `notify_all` along a list, by an invariant `Q` indexed by the
nodes still to visit. -/
theorem pass_steps (type : call_type) (value : ValPtr T) (Q : List Addr → World T → Prop)
    (k : Nat)
    (hstep : ∀ c rest w, Q (c :: rest) w →
      ∃ w', (if (w.heap c).func.nonempty then invoke k c value type w else pure w) = .ok w' ∧
        (w'.heap c).next = rest.head? ∧ Q rest w') :
    ∀ (s : List Addr) (w : World T) (n : Nat), Q s w → s.length + k + 1 ≤ n →
      ∃ w', pass n type value s.head? w = .ok w' ∧ Q [] w'
  | [], w, n, hq, hn => by
    obtain ⟨m, rfl⟩ : ∃ m, n = m + 1 := ⟨n - 1, by omega⟩
    exact ⟨w, pass_none m type value w, hq⟩
  | c :: rest, w, n, hq, hn => by
    obtain ⟨m, rfl⟩ : ∃ m, n = m + 1 := ⟨n - 1, by simp at hn; omega⟩
    obtain ⟨w1, h1, hnx, hq1⟩ := hstep c rest w hq
    have h1' := step_mono (m := m) h1 (by simp at hn; omega)
    obtain ⟨w', h2, hq2⟩ := pass_steps type value Q k hstep rest w1 m hq1 (by simp at hn; omega)
    refine ⟨w', ?_, hq2⟩
    rw [List.head?, pass_succ, h1', ok_bind, hnx]
    exact h2

theorem Expr.now_congr (w w' : World T) : ∀ (e : Expr T),
    (∀ p ∈ e.reads, (w'.heap p).val = (w.heap p).val) → e.now w' = e.now w
  | .lit c, _ => rfl
  | .read p, h => by simpa [Expr.now] using h p (by simp [Expr.reads])
  | .app f a b, h => by
    simp only [Expr.now]
    rw [Expr.now_congr w w' a (fun p hp => h p (by simp [Expr.reads, hp])),
      Expr.now_congr w w' b (fun p hp => h p (by simp [Expr.reads, hp]))]

theorem value_settled (w : World T) (p : Addr) (h : Settled (.read p) w) :
    value p w = .ok ((w.heap p).val, w) := by
  rcases h with h | ⟨i, st, hc, hst, hreg⟩
  · exact value_not_binding w p h
  · by_cases hb : w.is_currently_binding = false
    · exact value_not_binding w p hb
    · have hb' : w.is_currently_binding = true := by simpa using hb
      have hany := hreg p (by simp [Expr.reads])
      have hst' : w.states[i]? = some st := by simpa using hst
      have hany' : ∃ x ∈ st.deps, (w.heap x).owner = (w.heap p).owner := by simpa using hany
      simp [value, hb', register_property, hc, hst', hany', bind, Except.bind, pure,
        Except.pure]

theorem Settled.left {f : T → T → T} {a b : Expr T} {w : World T} (h : Settled (.app f a b) w) :
    Settled a w := by
  rcases h with h | ⟨i, st, hc, hst, hreg⟩
  · exact Or.inl h
  · exact Or.inr ⟨i, st, hc, hst, fun p hp => hreg p (by simp [Expr.reads, hp])⟩

theorem Settled.right {f : T → T → T} {a b : Expr T} {w : World T} (h : Settled (.app f a b) w) :
    Settled b w := by
  rcases h with h | ⟨i, st, hc, hst, hreg⟩
  · exact Or.inl h
  · exact Or.inr ⟨i, st, hc, hst, fun p hp => hreg p (by simp [Expr.reads, hp])⟩

/-- A settled expression only reads. -/
theorem eval_settled (w : World T) : ∀ e : Expr T, Settled e w → eval e w = .ok (e.now w, w)
  | .lit c, _ => rfl
  | .read p, h => by rw [eval, value_settled w p h]; rfl
  | .app f a b, h => by
    rw [eval, eval_settled w a h.left]
    simp only [bind, Except.bind]
    rw [eval_settled w b h.right]
    rfl

theorem Settled.settled_frame {e : Expr T} {w w' : World T} (hf : ValFrame w w') (h : Settled e w) :
    Settled e w' := by
  rcases h with h | ⟨i, st, hc, hst, hreg⟩
  · exact Or.inl (by rw [hf.binding, h])
  · refine Or.inr ⟨i, st, by rw [hf.current, hc], by rw [hf.states, hst], ?_⟩
    intro p hp
    have := hreg p hp
    simpa [hf.owner] using this

theorem Role.role_frame {w w' : World T} {b a : Addr} (hf : ValFrame w w') (h : Role w b a) :
    Role w' b a := by
  rcases h with h | h | ⟨j, st, h1, h2, h3⟩
  · exact Or.inl (by rw [hf.func, h])
  · exact Or.inr (Or.inl (by rw [hf.func]; exact h))
  · exact Or.inr (Or.inr ⟨j, st, by rw [hf.func, h1], by rw [hf.states, h2], by rw [hf.owner, h3]⟩)

theorem invoke_binder_initial (n : Nat) (b : Addr) (value : ValPtr T) (w : World T)
    {e : Expr T} {s nf : Callable T} (hf : (w.heap b).func = .property_binder e s nf) :
    invoke (n + 1) b value .initial_notification w = .ok w := by
  rw [invoke]; simp [hf, pure, Except.pure]

theorem invoke_binder_notification (n : Nat) (b : Addr) (value : ValPtr T) (w : World T)
    {e : Expr T} {s nf : Callable T} (hf : (w.heap b).func = .property_binder e s nf)
    (hq : Callable.quiet nf) (hs : Settled (.read b) w) :
    invoke (n + 2) b value .notification w =
      .ok (w.record .notifier b (some (w.heap b).val)) := by
  rw [invoke]
  simp only [hf]
  rw [value_settled w b hs]
  simp only [bind, Except.bind]
  rw [hq b, run_nil]

theorem invoke_dependency_initial (n : Nat) (a : Addr) (value : ValPtr T) (w : World T)
    {j : Nat} (hf : (w.heap a).func = .dependency j) :
    invoke (n + 1) a value .initial_notification w = .ok w := by
  rw [invoke]; simp [hf, pure, Except.pure]

theorem invoke_dependency (n : Nat) (a : Addr) (value : ValPtr T) (w : World T)
    {j : Nat} {st : binding_state} {o : Addr} (hf : (w.heap a).func = .dependency j)
    (hst : w.states.get? j = some st) (ho : (w.heap st.prop).owner = some o) :
    invoke (n + 1) a value .notification w = update n o w := by
  have hst' : w.states[j]? = some st := by simpa using hst
  rw [invoke]; simp [hf, hst', ho]

/-- A recomputation of a binder whose expression is settled: the computeFn
is invoked, and its result goes through the write of the owner. -/
theorem update_binder (n : Nat) (b : Addr) (w : World T) {e : Expr T} {s nf : Callable T}
    (hf : (w.heap b).func = .property_binder e s nf) (hs : Settled e w) :
    update (n + 2) b w = set_directly_as_owner n b (e.now w) (w.record .compute b none) := by
  have hs' : Settled e (w.record .compute b none) := hs.settled_frame (ValFrame.record _ _ _ _)
  rw [update]
  simp only [hf, Func.nonempty, if_true]
  rw [invoke]
  simp only [hf]
  rw [eval_settled _ e hs']
  simp only [bind, Except.bind]
  rw [Expr.now_congr w (w.record .compute b none) e (fun p _ => rfl)]

theorem Bound.bound_frame {w w' : World T} {b : Addr} {vs : List Addr} {e : Expr T}
    {s nf : Callable T} (h : Bound w b vs e s nf) (hf : ValFrame w w') : Bound w' b vs e s nf :=
  ⟨h.list.val_frame hf, fun a ha => (h.role a ha).role_frame hf, by rw [hf.func, h.func], h.quiet,
   h.settled.settled_frame hf, h.reads, fun p hp => by rw [hf.owner]; exact h.owned p hp⟩

theorem notified_append (b : Addr) (w w' : World T) (es : List (Event T))
    (h : w'.log = w.log ++ es) :
    notified b w' = notified b w ++ es.filterMap (fun ev =>
      if ev.callee = .notifier ∧ ev.node = b then some (ev.value, (ev.heap b).val) else none) := by
  simp [notified, h, List.filterMap_append]

theorem notified_record_compute (b a : Addr) (w : World T) (v : Option T) :
    notified b (w.record .compute a v) = notified b w := by
  rw [notified_append b w _ [_] rfl]
  simp

theorem notified_record_notifier (b : Addr) (w : World T) (v : Option T) :
    notified b (w.record .notifier b v) = notified b w ++ [(v, (w.heap b).val)] := by
  rw [notified_append b w _ [_] rfl]
  simp

/-- One loop of `notify_all` over the nodes `rest` behind a bound property
that already holds the value of its computeFn. -/
theorem pass_rest (b : Addr) (vs : List Addr) (e : Expr T) (s nf : Callable T)
    (type : call_type) (htype : type = .initial_notification ∨ type = .notification)
    (w : World T) (hb : Bound w b vs e s nf) (hval : (w.heap b).val = e.now w)
    (rest : List Addr) (hlk : Linked w rest) (hsub : ∀ a ∈ rest, a ∈ vs) (n : Nat)
    (hn : rest.length + 6 ≤ n) :
    ∃ w', pass n type (.slot b) rest.head? w = .ok w' ∧ ValFrame w w' ∧
      (∀ a, a ∉ rest → (w'.heap a).val = (w.heap a).val) ∧
      notified b w' = notified b w ∧
      (∀ a, (w'.heap a).val = (w.heap a).val ∨ (w'.heap a).val = (w.heap b).val) ∧
      (type = .initial_notification →
        ∀ a ∈ rest, (w.heap a).func.mirrors → (w'.heap a).val = (w.heap b).val) := by
  have hbv : ∀ a ∈ vs, a ≠ b := fun a ha h =>
    (List.nodup_cons.mp hb.list.nodup).1 (h ▸ ha)
  have key := pass_steps type (.slot b)
    (fun r w1 => Linked w r ∧ (∀ a ∈ r, a ∈ rest) ∧ ValFrame w w1 ∧
      (∀ a, a ∉ rest → (w1.heap a).val = (w.heap a).val) ∧ notified b w1 = notified b w ∧
      (∀ a, (w1.heap a).val = (w.heap a).val ∨ (w1.heap a).val = (w.heap b).val) ∧
      (type = .initial_notification →
        ∀ a ∈ rest, a ∈ r ∨ ((w.heap a).func.mirrors → (w1.heap a).val = (w.heap b).val))) 5
    (by
      intro c r w1 ⟨hl, hin, hf, hout, hnot, hor, hdone⟩
      have hcr : c ∈ rest := hin c (by simp)
      have hcv : c ∈ vs := hsub c hcr
      have hcb : c ≠ b := hbv c hcv
      have hb1 : Bound w1 b vs e s nf := hb.bound_frame hf
      have hbnot : b ∉ rest := fun h => hbv b (hsub b h) rfl
      have hvb : (w1.heap b).val = (w.heap b).val := hout b hbnot
      have hnow : e.now w1 = e.now w := Expr.now_congr w w1 e (fun p hp =>
        hout p (fun h => hb.reads p hp (List.mem_cons_of_mem _ (hsub p h))))
      have hnext : (w1.heap c).next = r.head? := by rw [hf.next]; exact hl.next_head
      have hin' : ∀ a ∈ r, a ∈ rest := fun a ha => hin a (List.mem_cons_of_mem _ ha)
      rcases hb1.role c hcv with hr | hr | ⟨j, st, hr1, hr2, hr3⟩
      · -- no handler
        refine ⟨w1, by simp [hr, Func.nonempty, pure, Except.pure], hnext, hl.tail, hin', hf,
          hout, hnot, hor, ?_⟩
        intro ht a ha
        rcases hdone ht a ha with h | h
        · simp only [List.mem_cons] at h
          rcases h with rfl | h
          · right; intro hm
            have : (w1.heap a).func = .empty := hr
            rw [← hf.func, this] at hm
            exact absurd hm (by simp [Func.mirrors])
          · exact Or.inl h
        · exact Or.inr h
      · -- a mirroring view
        obtain ⟨w2, h2, hf2, hout2, hv2, hlog2⟩ := step_spec w1 b c (w1.heap b).val type 2
          (hb1.list.owner c (List.mem_cons_of_mem _ hcv)) rfl (Or.inl hr) htype
        refine ⟨w2, h2, by rw [hf2.next]; exact hnext, hl.tail, hin', hf.trans hf2, ?_, ?_, ?_,
          ?_⟩
        · intro a ha
          have hac : a ≠ c := fun h => ha (h ▸ hcr)
          rw [hout2 a hac, hout a ha]
        · rw [notified_append b w1 w2 _ hlog2, hnot]
          split_ifs <;> simp [hcb]
        · intro a
          by_cases hac : a = c
          · subst hac
            rcases hv2 with h | ⟨_, h⟩
            · exact Or.inr (by rw [h, hvb])
            · rw [h]; exact hor a
          · rw [hout2 a hac]; exact hor a
        · intro ht a ha
          by_cases hac : a = c
          · right; intro _
            subst hac
            rcases hv2 with h | ⟨h, _⟩
            · rw [h, hvb]
            · rw [ht] at h; cases h
          · rcases hdone ht a ha with h | h
            · simp only [List.mem_cons] at h
              rcases h with h | h
              · exact absurd h hac
              · exact Or.inl h
            · right; intro hm
              rw [hout2 a hac]; exact h hm
      · -- a subscription of the binding of `b` itself
        have hne : (w1.heap c).func.nonempty = true := by simp [hr1, Func.nonempty]
        rcases htype with ht | ht
        · refine ⟨w1, by rw [if_pos hne, ht]; exact invoke_dependency_initial _ c _ w1 hr1,
            hnext, hl.tail, hin', hf, hout, hnot, hor, ?_⟩
          intro _ a ha
          rcases hdone ht a ha with h | h
          · simp only [List.mem_cons] at h
            rcases h with rfl | h
            · right; intro hm
              rw [← hf.func, hr1] at hm
              exact absurd hm (by simp [Func.mirrors])
            · exact Or.inl h
          · exact Or.inr h
        · have hgate : set_directly_as_owner (1 + 1) b (e.now w1) (w1.record .compute b none) =
              .ok (w1.record .compute b none) := by
            have := set_directly_gate 1 b (w1.record .compute b none)
            simpa [hnow, hvb, hval] using this
          refine ⟨w1.record .compute b none, ?_, hnext, hl.tail, hin',
            hf.trans (ValFrame.record _ _ _ _), hout, ?_, hor, ?_⟩
          · rw [if_pos hne, ht, invoke_dependency 4 c _ w1 hr1 hr2 hr3,
              update_binder 2 b w1 hb1.func hb1.settled]
            exact hgate
          · rw [notified_record_compute, hnot]
          · intro h; rw [ht] at h; cases h)
  obtain ⟨w', h1, _, _, hf, hout, hnot, hor, hdone⟩ := key rest w n
    ⟨hlk, fun a ha => ha, ValFrame.refl w, fun _ _ => rfl, rfl, fun _ => Or.inl rfl,
      fun _ a ha => Or.inl ha⟩
    (by omega)
  refine ⟨w', h1, hf, hout, hnot, hor, ?_⟩
  intro ht a ha hm
  rcases hdone ht a ha with h | h
  · cases h
  · exact h hm

/-- The two loops of `notify_all` on a bound property that already holds the
value of its computeFn and whose own read is settled: the notifier of the
bound property is invoked once, with that value. -/
theorem notify_settled (w : World T) (b : Addr) (vs : List Addr) (e : Expr T)
    (s nf : Callable T) (hb : Bound w b vs e s nf) (hsb : Settled (.read b) w)
    (hval : (w.heap b).val = e.now w) (n : Nat) (hn : vs.length + 9 ≤ n) :
    ∃ w', notify_all n b (.slot b) w = .ok w' ∧ ValFrame w w' ∧
      (∀ a, a ∉ vs → (w'.heap a).val = (w.heap a).val) ∧
      notified b w' = notified b w ++ [(some (w.heap b).val, (w.heap b).val)] ∧
      (∀ a ∈ vs, (w.heap a).func.mirrors → (w'.heap a).val = (w.heap b).val) := by
  obtain ⟨m, rfl⟩ : ∃ m, n = m + 4 := ⟨n - 4, by omega⟩
  have hbvs : b ∉ vs := (List.nodup_cons.mp hb.list.nodup).1
  have hne : (w.heap b).func.nonempty = true := by simp [hb.func, Func.nonempty]
  -- the silent loop
  obtain ⟨w1, h1, hf1, hout1, hnot1, _, hdone1⟩ := pass_rest b vs e s nf .initial_notification
    (Or.inl rfl) w hb hval vs hb.list.linked.tail (fun a ha => ha) (m + 2) (by omega)
  have hp1 : pass (m + 3) .initial_notification (.slot b) (some b) w = .ok w1 := by
    rw [pass_succ, if_pos hne, invoke_binder_initial (m + 1) b _ w hb.func, ok_bind,
      hb.list.linked.next_head]
    exact h1
  -- the notifying loop
  have hb1 : Bound w1 b vs e s nf := hb.bound_frame hf1
  have hvb1 : (w1.heap b).val = (w.heap b).val := hout1 b hbvs
  have hnow1 : e.now w1 = e.now w := Expr.now_congr w w1 e (fun p hp =>
    hout1 p (fun h => hb.reads p hp (List.mem_cons_of_mem _ h)))
  have hfr : ValFrame w1 (w1.record .notifier b (some (w1.heap b).val)) :=
    ValFrame.record _ _ _ _
  have hb2 : Bound (w1.record .notifier b (some (w1.heap b).val)) b vs e s nf := hb1.bound_frame hfr
  obtain ⟨w2, h2, hf2, hout2, hnot2, hor2, _⟩ := pass_rest b vs e s nf .notification
    (Or.inr rfl) _ hb2 (by
      have h3 : e.now (w1.record .notifier b (some (w1.heap b).val)) = e.now w1 :=
        Expr.now_congr w1 (w1.record .notifier b (some (w1.heap b).val)) e (fun _ _ => rfl)
      rw [h3, hnow1]
      simpa [hvb1] using hval)
    vs hb2.list.linked.tail (fun a ha => ha) (m + 2) (by omega)
  have hne1 : (w1.heap b).func.nonempty = true := by simp [hb1.func, Func.nonempty]
  have hp2 : pass (m + 3) .notification (.slot b) (some b) w1 = .ok w2 := by
    rw [pass_succ, if_pos hne1,
      invoke_binder_notification m b _ w1 hb1.func hb.quiet (hsb.settled_frame hf1), ok_bind]
    have : ((w1.record .notifier b (some (w1.heap b).val)).heap b).next = vs.head? :=
      hb2.list.linked.next_head
    rw [this]
    exact h2
  refine ⟨w2, by rw [notify_all_succ, hp1, ok_bind, hp2], hf1.trans (hfr.trans hf2), ?_, ?_, ?_⟩
  · intro a ha
    rw [hout2 a ha]
    exact hout1 a ha
  · rw [hnot2, notified_record_notifier, hnot1, hvb1]
  · intro a ha hm
    rcases hor2 a with h | h
    · rw [h]; exact hdone1 rfl a ha hm
    · rw [h]; exact hvb1

theorem set_directly_succ (n : Nat) (this : Addr) (v : T) (w : World T) :
    set_directly_as_owner (n + 1) this v w =
      if (w.heap this).val ≠ v then notify_all n this (.slot this) (w.setVal this v)
      else pure w := by
  rw [set_directly_as_owner]

/-- A write to a bound property of the value of its computeFn: nothing
happens when it already holds it; otherwise the value is stored, the
mirroring views receive it, and the notifier is invoked once with it. -/
theorem commit_spec (w : World T) (b : Addr) (vs : List Addr) (e : Expr T)
    (s nf : Callable T) (hb : Bound w b vs e s nf) (hsb : Settled (.read b) w) (n : Nat)
    (hn : vs.length + 10 ≤ n) :
    ∃ w', set_directly_as_owner n b (e.now w) w = .ok w' ∧ ValFrame w w' ∧
      (w'.heap b).val = e.now w ∧
      (∀ a, a ∉ b :: vs → (w'.heap a).val = (w.heap a).val) ∧
      notified b w' = notified b w ++
        (if (w.heap b).val = e.now w then [] else [(some (e.now w), e.now w)]) ∧
      ((w.heap b).val ≠ e.now w →
        ∀ a ∈ vs, (w.heap a).func.mirrors → (w'.heap a).val = e.now w) := by
  obtain ⟨m, rfl⟩ : ∃ m, n = m + 1 := ⟨n - 1, by omega⟩
  have hbvs : b ∉ vs := (List.nodup_cons.mp hb.list.nodup).1
  by_cases hv : (w.heap b).val = e.now w
  · refine ⟨w, ?_, ValFrame.refl w, hv, fun _ _ => rfl, by simp [hv], fun h => absurd hv h⟩
    rw [← hv]; exact set_directly_gate m b w
  · have hfr : ValFrame w (w.setVal b (e.now w)) := ValFrame.setVal w b _
    have hb2 : Bound (w.setVal b (e.now w)) b vs e s nf := hb.bound_frame hfr
    have hnow : e.now (w.setVal b (e.now w)) = e.now w :=
      Expr.now_congr w _ e (fun p hp => by
        have : p ≠ b := fun h => hb.reads p hp (by simp [h])
        simp [this])
    obtain ⟨w', h1, hf1, hout1, hnot1, hmir1⟩ := notify_settled (w.setVal b (e.now w)) b vs e s nf
      hb2 (hsb.settled_frame hfr) (by rw [hnow]; simp) m (by omega)
    refine ⟨w', by rw [set_directly_succ, if_pos hv]; exact h1, hfr.trans hf1, ?_, ?_, ?_, ?_⟩
    · rw [hout1 b hbvs]; simp
    · intro a ha
      have hab : a ≠ b := fun h => ha (by simp [h])
      rw [hout1 a (fun h => ha (List.mem_cons_of_mem _ h))]
      simp [hab]
    · rw [hnot1, if_neg hv]
      simp [notified]
    · intro _ a ha hm
      have := hmir1 a ha (by rw [hfr.func]; exact hm)
      simpa using this

/-- The method `update` on a bound property (what the notification of one of
its subscriptions calls): the computeFn is invoked; when its value is the
one the property holds, nothing else happens; otherwise the property and its
mirroring views receive the value and the notifier is invoked once with it,
at a moment when the property already holds it. -/
theorem update_spec (w : World T) (b : Addr) (vs : List Addr) (e : Expr T)
    (s nf : Callable T) (hb : Bound w b vs e s nf) (hsb : Settled (.read b) w) (n : Nat)
    (hn : vs.length + 12 ≤ n) :
    ∃ w', update n b w = .ok w' ∧ ValFrame w w' ∧
      (w'.heap b).val = e.now w ∧
      (∀ a, a ∉ b :: vs → (w'.heap a).val = (w.heap a).val) ∧
      notified b w' = notified b w ++
        (if (w.heap b).val = e.now w then [] else [(some (e.now w), e.now w)]) ∧
      ((w.heap b).val ≠ e.now w →
        ∀ a ∈ vs, (w.heap a).func.mirrors → (w'.heap a).val = e.now w) := by
  obtain ⟨m, rfl⟩ : ∃ m, n = m + 2 := ⟨n - 2, by omega⟩
  have hfr : ValFrame w (w.record .compute b none) := ValFrame.record _ _ _ _
  have hnow : e.now (w.record .compute b none) = e.now w :=
    Expr.now_congr w _ e (fun _ _ => rfl)
  obtain ⟨w', h1, hf1, hv1, hout1, hnot1, hmir1⟩ := commit_spec (w.record .compute b none) b vs
    e s nf (hb.bound_frame hfr) (hsb.settled_frame hfr) m (by omega)
  rw [hnow] at h1 hv1 hnot1 hmir1
  refine ⟨w', by rw [update_binder m b w hb.func hb.settled]; exact h1, hfr.trans hf1, hv1,
    hout1, ?_, hmir1⟩
  rw [hnot1, notified_record_compute]; rfl

/-! ## Sound states and registration -/

theorem Linked.unique {w : World T} : ∀ {a : Addr} {l l' : List Addr},
    Linked w (a :: l) → Linked w (a :: l') → l = l'
  | a, [], [], _, _ => rfl
  | a, [], b :: r, h, h' => by
    simp only [Linked] at h
    rw [h'.1] at h; cases h
  | a, b :: r, [], h, h' => by
    simp only [Linked] at h'
    rw [h.1] at h'; cases h'
  | a, b :: r, b' :: r', h, h' => by
    have hb : b = b' := by
      have := h.1.symm.trans h'.1
      simpa using this
    subst hb
    rw [Linked.unique h.2.2 h'.2.2]

theorem IsList.unique_list {w : World T} {o : Addr} {vs vs' : List Addr} (h1 : IsList w o vs)
    (h2 : IsList w o vs') : vs = vs' :=
  Linked.unique h1.linked h2.linked

theorem Sound.mem_list {w : World T} (hs : Sound w) {o a : Addr} {vs : List Addr}
    (hl : IsList w o vs) (ha : (w.heap a).owner = some o) : a ∈ o :: vs := by
  obtain ⟨vs', hl', hm⟩ := hs.listed a o ha
  rw [hl.unique_list hl']
  exact hm

theorem Sound.fresh {w : World T} (hs : Sound w) {o : Addr} {vs : List Addr}
    (hl : IsList w o vs) : w.size ∉ o :: vs := fun h =>
  Nat.lt_irrefl _ (hs.bound _ o (hl.owner _ h))

theorem base_copy_size (s : Addr) (w : World T) : (base_copy s w).size = w.size + 1 := by
  simp [base_copy]

theorem base_copy_owner (s : Addr) (w : World T) (hs : s ≠ w.size) (a : Addr) :
    ((base_copy s w).heap a).owner =
      if a = w.size then (w.heap s).owner else (w.heap a).owner := by
  simp [base_copy, attach_to_owner, hs]
  split_ifs <;> simp_all

theorem base_copy_next (s : Addr) (w : World T) (hs : s ≠ w.size) (a : Addr) :
    ((base_copy s w).heap a).next =
      if a = s then some w.size else if a = w.size then (w.heap s).next
      else (w.heap a).next := by
  simp [base_copy, attach_to_next, hs]
  split_ifs <;> simp_all

theorem base_copy_prev (s : Addr) (w : World T) (hs : s ≠ w.size) (a : Addr) :
    ((base_copy s w).heap a).prev =
      if (w.heap s).next = some a then some w.size else if a = w.size then some s
      else (w.heap a).prev := by
  simp [base_copy, attach_to_prev, hs]
  split_ifs <;> simp_all

theorem base_copy_func (s : Addr) (w : World T) (a : Addr) :
    ((base_copy s w).heap a).func = if a = w.size then .empty else (w.heap a).func := by
  simp [base_copy]
  split_ifs <;> simp_all

theorem base_copy_val (s : Addr) (w : World T) (a : Addr) (ha : a ≠ w.size) :
    ((base_copy s w).heap a).val = (w.heap a).val := by
  simp [base_copy, ha]

/-- The copy made by `base_copy` stands right behind its source, in the list
of the source. -/
theorem IsList.base_copy_list {w : World T} {o : Addr} {views : List Addr} (hl : IsList w o views)
    {s : Addr} (hs : s ∈ o :: views) (hnew : w.size ∉ o :: views) :
    IsList (bindable_properties.base_copy s w) o
      (insert_after s w.size (o :: views)).tail := by
  have hsz : s ≠ w.size := fun h => hnew (h ▸ hs)
  refine (hl.copy_view hs hnew).same_links ?_ ?_ ?_
  · intro a; rw [base_copy_owner s w hsz, property_copy_owner s w hsz]
  · intro a; rw [base_copy_next s w hsz, property_copy_next s w hsz]
  · intro a; rw [base_copy_prev s w hsz, property_copy_prev s w hsz]

/-- The lists of the other owners do not see a copy. -/
theorem IsList.base_copy_other {w : World T} (hs : Sound w) {p o o2 : Addr} {vs : List Addr}
    (hp : (w.heap p).owner = some o) (hl : IsList w o2 vs) (ho : o2 ≠ o) :
    IsList (bindable_properties.base_copy p w) o2 vs := by
  have hpz : p ≠ w.size := fun h => Nat.lt_irrefl _ (h ▸ hs.bound p o hp)
  obtain ⟨vp, hlp, hpm⟩ := hs.listed p o hp
  refine hl.congr_on ?_
  intro x hx
  have hxo : (w.heap x).owner = some o2 := hl.owner x hx
  have hxz : x ≠ w.size := fun h => Nat.lt_irrefl _ (h ▸ hs.bound x o2 hxo)
  have hxp : x ≠ p := by
    rintro rfl
    rw [hp] at hxo
    exact ho (by simpa using hxo.symm)
  have hnx : (w.heap p).next ≠ some x := by
    intro h
    have := hlp.owner x (List.mem_cons_of_mem _ (Linked.next_mem hlp.linked hpm h))
    rw [hxo] at this
    exact ho (by simpa using this)
  rw [base_copy_owner p w hpz, base_copy_next p w hpz, base_copy_prev p w hpz]
  simp [hxz, hxp, hnx]

theorem Sound.base_copy_sound {w : World T} (hs : Sound w) {p o : Addr}
    (hp : (w.heap p).owner = some o) : Sound (bindable_properties.base_copy p w) := by
  have hpz : p ≠ w.size := fun h => Nat.lt_irrefl _ (h ▸ hs.bound p o hp)
  obtain ⟨vp, hlp, hpm⟩ := hs.listed p o hp
  constructor
  · intro a o' ha
    rw [base_copy_owner p w hpz] at ha
    by_cases ho : o' = o
    · subst ho
      refine ⟨_, hlp.base_copy_list hpm (hs.fresh hlp), ?_⟩
      rw [← insert_after_cons_tail, mem_insert_after p w.size a _ hpm]
      by_cases haz : a = w.size
      · exact Or.inr haz
      · rw [if_neg haz] at ha
        exact Or.inl (hs.mem_list hlp ha)
    · have haz : a ≠ w.size := by
        rintro rfl
        rw [if_pos rfl, hp] at ha
        exact ho (by simpa using ha.symm)
      rw [if_neg haz] at ha
      obtain ⟨vs', hl', hm⟩ := hs.listed a o' ha
      exact ⟨vs', hl'.base_copy_other hs hp ho, hm⟩
  · intro a o' ha
    rw [base_copy_owner p w hpz, base_copy_size] at *
    by_cases haz : a = w.size
    · rw [haz]; exact Nat.lt_succ_self _
    · rw [if_neg haz] at ha
      exact Nat.lt_succ_of_lt (hs.bound a o' ha)

/-- Soundness only looks at the links, the owner pointers and the number of objects. -/
theorem Sound.of_links {w w' : World T} (hs : Sound w)
    (ho : ∀ a, (w'.heap a).owner = (w.heap a).owner)
    (hn : ∀ a, (w'.heap a).next = (w.heap a).next)
    (hp : ∀ a, (w'.heap a).prev = (w.heap a).prev) (hsz : w.size ≤ w'.size) : Sound w' := by
  constructor
  · intro a o ha
    rw [ho] at ha
    obtain ⟨vs, hl, hm⟩ := hs.listed a o ha
    exact ⟨vs, hl.same_links ho hn hp, hm⟩
  · intro a o ha
    rw [ho] at ha
    exact Nat.lt_of_lt_of_le (hs.bound a o ha) hsz

theorem Reg.reg_start {w : World T} (hs : Sound w) (i : Nat) : Reg i [] w w :=
  ⟨hs, Nat.le_refl _, by simp, fun _ _ => rfl, fun _ _ => rfl,
   fun a h1 h2 => absurd h2 (Nat.not_lt.mpr h1), fun _ _ h _ => h, rfl, rfl, rfl,
   fun _ _ => rfl,
   fun st hst _ => ⟨st, hst, rfl, fun _ h => h, fun _ h => Or.inl h, fun p hp => by cases hp⟩⟩

theorem Reg.compose {i : Nat} {Ra Rb : List Addr} {w w1 w2 : World T} (h1 : Reg i Ra w w1)
    (h2 : Reg i Rb w1 w2) (hRa : ∀ p ∈ Ra, p < w.size) (hRb : ∀ p ∈ Rb, p < w.size) :
    Reg i (Ra ++ Rb) w w2 := by
  have hlt : ∀ a, a < w.size → a < w1.size := fun a h => Nat.lt_of_lt_of_le h h1.size
  refine ⟨h2.sound, Nat.le_trans h1.size h2.size, ?_, ?_, ?_, ?_, ?_,
    h2.binding.trans h1.binding, h2.current.trans h1.current, h2.length.trans h1.length,
    fun j hj => (h2.others j hj).trans (h1.others j hj), ?_⟩
  · have := h1.size_le
    have := h2.size_le
    simp only [List.length_append]
    omega
  · intro a ha; rw [h2.owner a (hlt a ha), h1.owner a ha]
  · intro a ha; rw [h2.func a (hlt a ha), h1.func a ha]
  · intro a ha1 ha2
    by_cases ha : a < w1.size
    · obtain ⟨hf, p, hp, ho⟩ := h1.fresh a ha1 ha
      exact ⟨by rw [h2.func a ha, hf], p, List.mem_append_left _ hp, by rw [h2.owner a ha, ho]⟩
    · obtain ⟨hf, p, hp, ho⟩ := h2.fresh a (Nat.le_of_not_lt ha) ha2
      exact ⟨hf, p, List.mem_append_right _ hp, by rw [ho, h1.owner p (hRb p hp)]⟩
  · intro o vs hl hR
    refine h2.lists o vs (h1.lists o vs hl (fun p hp => hR p (List.mem_append_left _ hp))) ?_
    intro p hp
    rw [h1.owner p (hRb p hp)]
    exact hR p (List.mem_append_right _ hp)
  · intro st hst hdeps
    obtain ⟨st1, hst1, hprop1, hsub1, horg1, hreg1⟩ := h1.state st hst hdeps
    have hdeps1 : ∀ q ∈ st1.deps, q < w1.size := by
      intro q hq
      rcases horg1 q hq with h | h
      · exact hlt q (hdeps q h)
      · exact h.2
    obtain ⟨st2, hst2, hprop2, hsub2, horg2, hreg2⟩ := h2.state st1 hst1 hdeps1
    refine ⟨st2, hst2, hprop2.trans hprop1, fun q hq => hsub2 q (hsub1 q hq), ?_, ?_⟩
    · intro q hq
      rcases horg2 q hq with h | h
      · rcases horg1 q h with h' | h'
        · exact Or.inl h'
        · exact Or.inr ⟨h'.1, Nat.lt_of_lt_of_le h'.2 h2.size⟩
      · exact Or.inr ⟨Nat.le_trans h1.size h.1, h.2⟩
    · intro p hp
      rcases List.mem_append.mp hp with hp | hp
      · have := hreg1 p hp
        rw [List.any_eq_true] at this ⊢
        obtain ⟨q, hq, hqo⟩ := this
        refine ⟨q, hsub2 q hq, ?_⟩
        rw [h2.owner q (hdeps1 q hq), h2.owner p (hlt p (hRa p hp))]
        exact hqo
      · exact hreg2 p hp

/-- The function `register_property` on a property `p` that has an owner,
while state `i` is current: either `p` is registered already and nothing
happens, or a subscription is put behind `p`. -/
theorem register_property_reg (w : World T) (p o : Addr) (i : Nat) (st : binding_state)
    (hs : Sound w) (hp : (w.heap p).owner = some o) (hc : w.current = some i)
    (hst : w.states.get? i = some st) (hdeps : ∀ q ∈ st.deps, q < w.size) :
    ∃ w', register_property p w = .ok w' ∧ Reg i [p] w w' ∧
      (∀ a, a < w.size → (w'.heap a).val = (w.heap a).val) ∧ w'.log = w.log := by
  have hst' : w.states[i]? = some st := by simpa using hst
  have hpz : p ≠ w.size := fun h => Nat.lt_irrefl _ (h ▸ hs.bound p o hp)
  have hplt : p < w.size := hs.bound p o hp
  by_cases hany : st.deps.any (fun q => (w.heap q).owner == (w.heap p).owner) = true
  · refine ⟨w, by simp [register_property, hc, hst', hany, pure, Except.pure], ?_,
      fun _ _ => rfl, rfl⟩
    exact ⟨hs, Nat.le_refl _, by simp, fun _ _ => rfl, fun _ _ => rfl,
      fun a h1 h2 => absurd h2 (Nat.not_lt.mpr h1), fun _ _ h _ => h, rfl, rfl, rfl,
      fun _ _ => rfl,
      fun st2 hst2 _ => by
        have : st2 = st := by rw [hst] at hst2; exact (Option.some.inj hst2).symm
        subst this
        exact ⟨st2, hst2, rfl, fun _ h => h, fun _ h => Or.inl h, fun q hq => by
          simp only [List.mem_singleton] at hq; subst hq; exact hany⟩⟩
  · have hilt : i < w.states.length := by
      have := List.getElem?_eq_some_iff.mp hst'
      exact this.1
    refine ⟨{ ((base_copy p w).setFunc w.size (.dependency i)) with
        states := ((base_copy p w).setFunc w.size (.dependency i)).states.set i
          { st with deps := st.deps ++ [w.size] } }, ?_, ?_, ?_, ?_⟩
    · simp only [register_property, hc, hst]
      rw [if_neg hany]
      rfl
    rotate_left
    · intro a ha
      have haz : a ≠ w.size := Nat.ne_of_lt ha
      simp [base_copy_val p w a haz, haz]
    · simp [base_copy]
    · have hsb := hs.base_copy_sound hp
      refine ⟨?_, ?_, ?_, ?_, ?_, ?_, ?_, ?_, ?_, ?_, ?_, ?_⟩
      · exact hsb.of_links (fun a => by simp) (fun a => by simp) (fun a => by simp)
          (by simp)
      · simp [base_copy_size]
      · simp [base_copy_size]
      · intro a ha
        have haz : a ≠ w.size := Nat.ne_of_lt ha
        simp [base_copy_owner p w hpz, haz]
      · intro a ha
        have haz : a ≠ w.size := Nat.ne_of_lt ha
        simp [base_copy_func, haz]
      · intro a h1 h2
        have haz : a = w.size := by
          simp [base_copy_size] at h2
          omega
        subst haz
        exact ⟨by simp, p, by simp, by simp [base_copy_owner p w hpz]⟩
      · intro o2 vs hl hR
        have ho2 : o2 ≠ o := by
          rintro rfl
          exact hR p (by simp) hp
        exact (hl.base_copy_other hs hp ho2).same_links (fun a => by simp) (fun a => by simp)
          (fun a => by simp)
      · simp [base_copy]
      · simp [base_copy, hc]
      · simp [base_copy]
      · intro j hj
        simp [base_copy, List.getElem?_set, Ne.symm hj]
      · intro st2 hst2 _
        have : st2 = st := by rw [hst] at hst2; exact (Option.some.inj hst2).symm
        subst this
        refine ⟨{ st2 with deps := st2.deps ++ [w.size] }, ?_, rfl, ?_, ?_, ?_⟩
        · simp [base_copy, List.getElem?_set, hilt]
        · intro q hq; simp [hq]
        · intro q hq
          simp only [List.mem_append, List.mem_singleton] at hq
          rcases hq with hq | hq
          · exact Or.inl hq
          · subst hq; exact Or.inr ⟨Nat.le_refl _, by simp [base_copy_size]⟩
        · intro q hq
          simp only [List.mem_singleton] at hq
          subst hq
          rw [List.any_eq_true]
          refine ⟨w.size, by simp, ?_⟩
          simp [base_copy_owner q w hpz, hpz]

/-- Evaluation of a computeFn while state `i` collects dependencies: the
value is the one over the current value slots, and every property read is
registered. -/
theorem eval_reg (i : Nat) : ∀ (e : Expr T) (w : World T) (st : binding_state),
    Sound w → w.is_currently_binding = true → w.current = some i →
    w.states.get? i = some st → (∀ q ∈ st.deps, q < w.size) →
    (∀ p ∈ e.reads, ∃ o, (w.heap p).owner = some o) →
    ∃ w', eval e w = .ok (e.now w, w') ∧ Reg i e.reads w w' ∧
      (∀ a, a < w.size → (w'.heap a).val = (w.heap a).val) ∧ w'.log = w.log
  | .lit c, w, st, hs, _, _, _, _, _ => ⟨w, rfl, Reg.reg_start hs i, fun _ _ => rfl, rfl⟩
  | .read p, w, st, hs, hb, hc, hst, hdeps, hr => by
    obtain ⟨o, hp⟩ := hr p (by simp [Expr.reads])
    obtain ⟨w', h1, hreg, hval, hlog⟩ := register_property_reg w p o i st hs hp hc hst hdeps
    refine ⟨w', ?_, hreg, hval, hlog⟩
    simp only [eval, value, hb, if_true, h1, bind, Except.bind, pure, Except.pure, Expr.now]
    rw [hval p (hs.bound p o hp)]
  | .app f a b, w, st, hs, hb, hc, hst, hdeps, hr => by
    have hra : ∀ p ∈ a.reads, ∃ o, (w.heap p).owner = some o := fun p hp =>
      hr p (by simp [Expr.reads, hp])
    have hrb : ∀ p ∈ b.reads, ∃ o, (w.heap p).owner = some o := fun p hp =>
      hr p (by simp [Expr.reads, hp])
    have hlta : ∀ p ∈ a.reads, p < w.size := fun p hp => by
      obtain ⟨o, ho⟩ := hra p hp; exact hs.bound p o ho
    have hltb : ∀ p ∈ b.reads, p < w.size := fun p hp => by
      obtain ⟨o, ho⟩ := hrb p hp; exact hs.bound p o ho
    obtain ⟨w1, h1, hreg1, hval1, hlog1⟩ := eval_reg i a w st hs hb hc hst hdeps hra
    obtain ⟨st1, hst1, _, _, horg1, _⟩ := hreg1.state st hst hdeps
    have hdeps1 : ∀ q ∈ st1.deps, q < w1.size := by
      intro q hq
      rcases horg1 q hq with h | h
      · exact Nat.lt_of_lt_of_le (hdeps q h) hreg1.size
      · exact h.2
    obtain ⟨w2, h2, hreg2, hval2, hlog2⟩ := eval_reg i b w1 st1 hreg1.sound (hreg1.binding.trans hb)
      (hreg1.current.trans hc) hst1 hdeps1 (fun p hp => by
        obtain ⟨o, ho⟩ := hrb p hp
        exact ⟨o, by rw [hreg1.owner p (hltb p hp), ho]⟩)
    refine ⟨w2, ?_, hreg1.compose hreg2 hlta hltb, ?_, hlog2.trans hlog1⟩
    · rw [eval, h1]
      simp only [bind, Except.bind]
      rw [h2]
      simp only [pure, Except.pure, Expr.now]
      rw [Expr.now_congr w w1 b (fun p hp => hval1 p (hltb p hp))]
    · intro x hx
      rw [hval2 x (Nat.lt_of_lt_of_le hx hreg1.size), hval1 x hx]

theorem Reg.of_frame {w w' : World T} (hs : Sound w) (hf : ValFrame w w') (i : Nat) :
    Reg i [] w w' := by
  refine ⟨hs.of_links hf.owner hf.next hf.prev (Nat.le_of_eq hf.size.symm),
    Nat.le_of_eq hf.size.symm, by simp [hf.size], fun a _ => hf.owner a, fun a _ => hf.func a,
    ?_, fun o vs hl _ => hl.val_frame hf, hf.binding, hf.current, by rw [hf.states],
    fun j _ => by rw [hf.states], ?_⟩
  · intro a h1 h2
    rw [hf.size] at h2
    exact absurd h2 (Nat.not_lt.mpr h1)
  · intro st hst _
    exact ⟨st, by rw [hf.states]; exact hst, rfl, fun _ h => h, fun _ h => Or.inl h,
      fun p hp => by cases hp⟩

/-- The list of an owner after a registration: the nodes it had, and the new
objects that point to this owner. -/
theorem Reg.grown {i : Nat} {R : List Addr} {w w' : World T} (h : Reg i R w w')
    (hs : Sound w) {o : Addr} {vs : List Addr} (hl : IsList w o vs) :
    ∃ vs', IsList w' o vs' ∧
      ∀ a, a ∈ vs' ↔ (a ∈ vs ∨ (w.size ≤ a ∧ a < w'.size ∧ (w'.heap a).owner = some o)) := by
  have hoo : (w.heap o).owner = some o := hl.owner o (by simp)
  have holt : o < w.size := hs.bound o o hoo
  obtain ⟨vs', hl', _⟩ := h.sound.listed o o (by rw [h.owner o holt, hoo])
  refine ⟨vs', hl', ?_⟩
  intro a
  constructor
  · intro ha
    have hao : (w'.heap a).owner = some o := hl'.owner a (List.mem_cons_of_mem _ ha)
    have hne : a ≠ o := fun e => (List.nodup_cons.mp hl'.nodup).1 (e ▸ ha)
    by_cases hlt : a < w.size
    · left
      rw [h.owner a hlt] at hao
      have := hs.mem_list hl hao
      simp only [List.mem_cons] at this
      rcases this with e | e
      · exact absurd e hne
      · exact e
    · exact Or.inr ⟨Nat.le_of_not_lt hlt, h.sound.bound a o hao, hao⟩
  · intro ha
    have hao : (w'.heap a).owner = some o ∧ a ≠ o := by
      rcases ha with ha | ⟨h1, _, h3⟩
      · have hm : a ∈ o :: vs := List.mem_cons_of_mem _ ha
        have hao := hl.owner a hm
        refine ⟨by rw [h.owner a (hs.bound a o hao), hao], ?_⟩
        exact fun e => (List.nodup_cons.mp hl.nodup).1 (e ▸ ha)
      · exact ⟨h3, fun e => Nat.lt_irrefl _ (Nat.lt_of_lt_of_le (e ▸ holt) h1)⟩
    have := h.sound.mem_list hl' hao.1
    simp only [List.mem_cons] at this
    rcases this with e | e
    · exact absurd e hao.2
    · exact e

theorem Role.reg {i : Nat} {R : List Addr} {w w' : World T} (h : Reg i R w w') (hs : Sound w)
    {st : binding_state} (hst : w.states.get? i = some st) (hdeps : ∀ q ∈ st.deps, q < w.size)
    {b a : Addr} (ha : a < w.size) (hr : Role w b a) : Role w' b a := by
  rcases hr with hr | hr | ⟨j, stj, h1, h2, h3⟩
  · exact Or.inl (by rw [h.func a ha, hr])
  · exact Or.inr (Or.inl (by rw [h.func a ha]; exact hr))
  · have hplt : stj.prop < w.size := hs.bound _ b h3
    refine Or.inr (Or.inr ?_)
    by_cases hj : j = i
    · subst hj
      have : stj = st := by rw [hst] at h2; exact (Option.some.inj h2).symm
      subst this
      obtain ⟨st', hst', hprop, _⟩ := h.state stj hst hdeps
      exact ⟨j, st', by rw [h.func a ha, h1], hst', by rw [hprop, h.owner _ hplt, h3]⟩
    · exact ⟨j, stj, by rw [h.func a ha, h1], by rw [h.others j hj, h2],
        by rw [h.owner _ hplt, h3]⟩

/-- The notification of a binder while its own binding state collects
dependencies: reading its value registers the bound property itself, then
the notifier is invoked. -/
theorem binder_notifies (w : World T) (b : Addr) (e : Expr T) (s nf : Callable T) (i : Nat)
    (st : binding_state) (arg : ValPtr T) (hs : Sound w)
    (hf : (w.heap b).func = .property_binder e s nf) (hq : Callable.quiet nf)
    (hown : (w.heap b).owner = some b) (hbind : w.is_currently_binding = true)
    (hc : w.current = some i) (hst : w.states.get? i = some st)
    (hdeps : ∀ q ∈ st.deps, q < w.size) (n : Nat) :
    ∃ w3, invoke (n + 2) b arg .notification w =
        .ok (w3.record .notifier b (some (w.heap b).val)) ∧
      Reg i [b] w w3 ∧ (∀ a, a < w.size → (w3.heap a).val = (w.heap a).val) ∧ w3.log = w.log := by
  obtain ⟨w3, h1, hreg, hval, hlog⟩ := register_property_reg w b b i st hs hown hc hst hdeps
  refine ⟨w3, ?_, hreg, hval, hlog⟩
  rw [invoke]
  simp only [hf, bindable_properties.value, hbind, if_true, h1, bind, Except.bind, pure,
    Except.pure]
  rw [hq b, run_nil, hval b (hs.bound b b hown)]

theorem Reg.single {i : Nat} {w w1 w2 w3 : World T} {b : Addr} (hs : Sound w)
    (h1 : ValFrame w w1) (h2 : Reg i [b] w1 w2) (h3 : ValFrame w2 w3) (hb : b < w.size) :
    Reg i [b] w w3 := by
  have hs1 : Sound w1 := hs.of_links h1.owner h1.next h1.prev (Nat.le_of_eq h1.size.symm)
  have ha := (Reg.of_frame hs h1 i).compose h2 (fun p hp => by cases hp)
    (fun p hp => by simp only [List.mem_singleton] at hp; subst hp; exact hb)
  have hb' := ha.compose (Reg.of_frame h2.sound h3 i)
    (fun p hp => by simp only [List.nil_append, List.mem_singleton] at hp; subst hp; exact hb)
    (fun p hp => by cases hp)
  simpa using hb'

/-- The write of the computed value to a bound property while its own
binding state collects dependencies: nothing happens when the property
already holds the value; otherwise the list receives it, the notifier is
invoked once with it, and the bound property is registered as a dependency
of itself. -/
theorem bind_commit (w : World T) (b : Addr) (vs : List Addr) (e : Expr T) (s nf : Callable T)
    (i : Nat) (st : binding_state) (hs : Sound w) (hb : Bound w b vs e s nf)
    (hbind : w.is_currently_binding = true) (hc : w.current = some i)
    (hst : w.states.get? i = some st) (hdeps : ∀ q ∈ st.deps, q < w.size)
    (hprop : (w.heap st.prop).owner = some b) (n : Nat) (hn : vs.length + 12 ≤ n) :
    ∃ w' vs' R, set_directly_as_owner n b (e.now w) w = .ok w' ∧ Reg i R w w' ∧
      (∀ p ∈ R, p = b) ∧ R.length ≤ 1 ∧ Bound w' b vs' e s nf ∧
      (w'.heap b).val = e.now w ∧
      (∀ a, a < w.size → a ∉ b :: vs → (w'.heap a).val = (w.heap a).val) ∧
      notified b w' = notified b w ++
        (if (w.heap b).val = e.now w then [] else [(some (e.now w), e.now w)]) ∧
      ((w.heap b).val ≠ e.now w →
        ∀ a ∈ vs, (w.heap a).func.mirrors → (w'.heap a).val = e.now w) := by
  have hbvs : b ∉ vs := (List.nodup_cons.mp hb.list.nodup).1
  have hbo : (w.heap b).owner = some b := hb.list.owner b (by simp)
  have hblt : b < w.size := hs.bound b b hbo
  by_cases hv : (w.heap b).val = e.now w
  · obtain ⟨m, rfl⟩ : ∃ m, n = m + 1 := ⟨n - 1, by omega⟩
    refine ⟨w, vs, [], ?_, Reg.reg_start hs i, (fun p hp => by cases hp), by simp, hb, hv,
      fun _ _ _ => rfl,
      by simp [hv], fun h => absurd hv h⟩
    rw [← hv]; exact set_directly_gate m b w
  · obtain ⟨k, rfl⟩ : ∃ k, n = k + 5 := ⟨n - 5, by omega⟩
    -- the value is stored
    have hfr1 : ValFrame w (w.setVal b (e.now w)) := ValFrame.setVal w b _
    have hb1 : Bound (w.setVal b (e.now w)) b vs e s nf := hb.bound_frame hfr1
    have hnow1 : e.now (w.setVal b (e.now w)) = e.now w :=
      Expr.now_congr w _ e (fun p hp => by
        have : p ≠ b := fun h => hb.reads p hp (by simp [h])
        simp [this])
    have hne1 : ((w.setVal b (e.now w)).heap b).func.nonempty = true := by
      rw [hb1.func]; rfl
    -- the silent loop
    obtain ⟨w2, h2, hf2, hout2, hnot2, _, hdone2⟩ := pass_rest b vs e s nf
      .initial_notification (Or.inl rfl) _ hb1 (by rw [hnow1]; simp) vs hb1.list.linked.tail
      (fun a ha => ha) (k + 2) (by omega)
    have hp1 : pass (k + 3) .initial_notification (.slot b) (some b) (w.setVal b (e.now w)) =
        .ok w2 := by
      rw [pass_succ, if_pos hne1, invoke_binder_initial (k + 1) b _ _ hb1.func, ok_bind,
        hb1.list.linked.next_head]
      exact h2
    have hf12 : ValFrame w w2 := hfr1.trans hf2
    have hs2 : Sound w2 := hs.of_links hf12.owner hf12.next hf12.prev (Nat.le_of_eq hf12.size.symm)
    have hb2 : Bound w2 b vs e s nf := hb.bound_frame hf12
    have hvb2 : (w2.heap b).val = e.now w := by rw [hout2 b hbvs]; simp
    have hne2 : (w2.heap b).func.nonempty = true := by rw [hb2.func]; rfl
    -- the notification of the binder
    obtain ⟨w3, h3, hreg3, hval3, hlog3⟩ := binder_notifies w2 b e s nf i st (.slot b) hs2
      hb2.func hb.quiet (by rw [hf12.owner]; exact hbo) (by rw [hf12.binding]; exact hbind)
      (by rw [hf12.current]; exact hc) (by rw [hf12.states]; exact hst)
      (by rw [hf12.size]; exact hdeps) k
    rw [hvb2] at h3
    obtain ⟨vs3, hl3, hmem3⟩ := hreg3.grown hs2 hb2.list
    obtain ⟨st3, hst3, hprop3, hsub3, horg3, hregb3⟩ := hreg3.state st
      (by rw [hf12.states]; exact hst) (by rw [hf12.size]; exact hdeps)
    have hplt : st.prop < w2.size := by rw [hf12.size]; exact hs.bound _ b hprop
    have hblt2 : b < w2.size := by rw [hf12.size]; exact hblt
    have hfr4 : ValFrame w3 (w3.record .notifier b (some (e.now w))) := ValFrame.record _ _ _ _
    have hown3 : ∀ p ∈ e.reads, (w3.heap p).owner = (w.heap p).owner := by
      intro p hp
      obtain ⟨o, ho⟩ := hb.owned p hp
      rw [hreg3.owner p (by rw [hf12.size]; exact hs.bound p o ho), hf12.owner]
    have hb3 : Bound w3 b vs3 e s nf := by
      refine ⟨hl3, ?_, by rw [hreg3.func b hblt2]; exact hb2.func, hb.quiet, ?_, ?_, ?_⟩
      · intro a ha
        rcases (hmem3 a).mp ha with h | ⟨h1, h2, _⟩
        · exact Role.reg hreg3 hs2 (by rw [hf12.states]; exact hst)
            (by rw [hf12.size]; exact hdeps)
            (hs2.bound a b (hb2.list.owner a (List.mem_cons_of_mem _ h))) (hb2.role a h)
        · exact Or.inr (Or.inr ⟨i, st3, (hreg3.fresh a h1 h2).1, hst3, by
            rw [hprop3, hreg3.owner _ hplt, hf12.owner]; exact hprop⟩)
      · refine Or.inr ⟨i, st3, by rw [hreg3.current, hf12.current]; exact hc, hst3, ?_⟩
        intro p hp
        rcases hb2.settled with h | ⟨i2, st2, hc2, hst2, hreg2⟩
        · rw [hf12.binding, hbind] at h; cases h
        · have hi : i2 = i := by
            rw [hf12.current, hc] at hc2
            exact (Option.some.inj hc2).symm
          subst hi
          have hst2' : st2 = st := by
            rw [hf12.states, hst] at hst2
            exact (Option.some.inj hst2).symm
          subst hst2'
          have := hreg2 p hp
          rw [List.any_eq_true] at this ⊢
          obtain ⟨q, hq, hqo⟩ := this
          obtain ⟨o, ho⟩ := hb2.owned p hp
          refine ⟨q, hsub3 q hq, ?_⟩
          rw [hreg3.owner q (by rw [hf12.size]; exact hdeps q hq),
            hreg3.owner p (hs2.bound p o ho)]
          exact hqo
      · intro p hp hm
        have hpo : (w3.heap p).owner = some b := hl3.owner p hm
        rw [hown3 p hp] at hpo
        exact hb.reads p hp (hs.mem_list hb.list hpo)
      · intro p hp
        obtain ⟨o, ho⟩ := hb.owned p hp
        exact ⟨o, by rw [hown3 p hp]; exact ho⟩
    have hb4 : Bound (w3.record .notifier b (some (e.now w))) b vs3 e s nf := hb3.bound_frame hfr4
    have hvb3 : (w3.heap b).val = e.now w := by rw [hval3 b hblt2]; exact hvb2
    have hnow3 : e.now (w3.record .notifier b (some (e.now w))) = e.now w := by
      refine (Expr.now_congr w _ e (fun p hp => ?_))
      obtain ⟨o, ho⟩ := hb.owned p hp
      have hplt : p < w.size := hs.bound p o ho
      have hpn : p ∉ vs := fun h => hb.reads p hp (List.mem_cons_of_mem _ h)
      have hpb : p ≠ b := fun h => hb.reads p hp (by simp [h])
      show (w3.heap p).val = (w.heap p).val
      rw [hval3 p (by rw [hf12.size]; exact hplt), hout2 p hpn]
      simp [hpb]
    -- the rest of the notifying loop
    have hlen3 : vs3.length ≤ vs.length + 1 := by
      have hsubset : vs3 ⊆ w2.size :: vs := by
        intro a ha
        rcases (hmem3 a).mp ha with h | ⟨h1, h2, _⟩
        · exact List.mem_cons_of_mem _ h
        · have hle := hreg3.size_le
          simp only [List.length_singleton] at hle
          have : a = w2.size :=
            Nat.le_antisymm (Nat.lt_succ_iff.mp (Nat.lt_of_lt_of_le h2 hle)) h1
          simp [this]
      have := (List.subperm_of_subset (List.nodup_cons.mp hl3.nodup).2 hsubset).length_le
      simpa using this
    obtain ⟨w5, h5, hf5, hout5, hnot5, hor5, _⟩ := pass_rest b vs3 e s nf .notification
      (Or.inr rfl) _ hb4 (by rw [hnow3]; exact hvb3) vs3 hb4.list.linked.tail (fun a ha => ha)
      (k + 2) (by omega)
    have hp2 : pass (k + 3) .notification (.slot b) (some b) w2 = .ok w5 := by
      rw [pass_succ, if_pos hne2, h3, ok_bind]
      have : ((w3.record .notifier b (some (e.now w))).heap b).next = vs3.head? :=
        hb4.list.linked.next_head
      rw [this]
      exact h5
    refine ⟨w5, vs3, [b], ?_, Reg.single hs hf12 hreg3 (hfr4.trans hf5) hblt,
      (fun p hp => by simpa using hp), by simp, hb4.bound_frame hf5, ?_, ?_, ?_, ?_⟩
    · rw [set_directly_succ, if_pos hv, notify_all_succ, hp1, ok_bind, hp2]
    · have hbvs3 : b ∉ vs3 := (List.nodup_cons.mp hl3.nodup).1
      rw [hout5 b hbvs3]
      exact hvb3
    · intro a ha hna
      have hna3 : a ∉ vs3 := by
        intro h
        rcases (hmem3 a).mp h with h | ⟨h1, _, _⟩
        · exact hna (List.mem_cons_of_mem _ h)
        · rw [hf12.size] at h1
          exact Nat.lt_irrefl _ (Nat.lt_of_lt_of_le ha h1)
      have hab : a ≠ b := fun h => hna (by simp [h])
      rw [hout5 a hna3]
      show (w3.heap a).val = (w.heap a).val
      rw [hval3 a (by rw [hf12.size]; exact ha),
        hout2 a (fun h => hna (List.mem_cons_of_mem _ h))]
      simp [hab]
    · have hn3 : notified b w3 = notified b w := by
        have h32 : notified b w3 = notified b w2 := by simp [notified, hlog3]
        rw [h32, hnot2]
        simp [notified]
      rw [hnot5, notified_record_notifier, if_neg hv, hn3, hvb3]
    · intro _ a ha hm
      have halt : a < w2.size := hs2.bound a b (hb2.list.owner a (List.mem_cons_of_mem _ ha))
      have h2a : (w2.heap a).val = e.now w := by
        have := hdone2 rfl a ha (by rw [hfr1.func]; exact hm)
        simpa using this
      rcases hor5 a with h | h
      · rw [h]
        show (w3.heap a).val = e.now w
        rw [hval3 a halt, h2a]
      · rw [h]
        exact hvb3

/-! ## The first evaluation of a binding -/

/-- The function `set_current_prop` when the state it replaces stays alive. -/
theorem set_current_prop_keep (n : Nat) (b : Addr) (w : World T)
    (hkeep : ∀ old st, w.current = some old → w.states.get? old = some st → st.deps ≠ []) :
    set_current_prop n b w = .ok { base_copy b w with
        states := (base_copy b w).states ++ [{ prop := w.size, deps := [] }],
        current := some (base_copy b w).states.length } := by
  unfold set_current_prop
  cases hc : w.current with
  | none => rfl
  | some old =>
    cases hst : w.states.get? old with
    | none =>
      simp only [hst]
      rfl
    | some st =>
      have hne := hkeep old st hc hst
      have : st.deps.isEmpty = false := by
        cases hd : st.deps with
        | nil => exact absurd hd hne
        | cons _ _ => rfl
      simp only [hst, this]
      rfl

theorem invoke_initial_binding (n : Nat) (b : Addr) (arg : ValPtr T) (w w2 w3 w4 : World T)
    (v : T) {e : Expr T} {s nf : Callable T} (hf : (w.heap b).func = .property_binder e s nf)
    (h2 : set_current_prop n b { w with is_currently_binding := true } = .ok w2)
    (h3 : eval e (w2.record .compute b none) = .ok (v, w3))
    (h4 : set_directly_as_owner n b v w3 = .ok w4) :
    invoke (n + 1) b arg .initial_binding w = .ok { w4 with is_currently_binding := false } := by
  rw [invoke]
  simp only [hf, h2, bind, Except.bind, h3, h4]
  rfl

theorem prepared_size (b : Addr) (f : Func T) (w : World T) :
    (prepared b f w).size = w.size + 1 := by
  simp [prepared, World.record, base_copy]

theorem prepared_binding (b : Addr) (f : Func T) (w : World T) :
    (prepared b f w).is_currently_binding = true := by
  simp [prepared, World.record, base_copy]

theorem prepared_current (b : Addr) (f : Func T) (w : World T) :
    (prepared b f w).current = some w.states.length := by
  simp [prepared, World.record, base_copy]

theorem prepared_states (b : Addr) (f : Func T) (w : World T) :
    (prepared b f w).states = w.states ++ [{ prop := w.size, deps := [] }] := by
  simp [prepared, World.record, base_copy]

theorem prepared_owner (b : Addr) (f : Func T) (w : World T) (hb : b ≠ w.size) (a : Addr) :
    ((prepared b f w).heap a).owner =
      if a = w.size then (w.heap b).owner else (w.heap a).owner := by
  have h := base_copy_owner b { w.setFunc b f with is_currently_binding := true } hb a
  simpa [prepared] using h

theorem prepared_next (b : Addr) (f : Func T) (w : World T) (hb : b ≠ w.size) (a : Addr) :
    ((prepared b f w).heap a).next =
      if a = b then some w.size else if a = w.size then (w.heap b).next
      else (w.heap a).next := by
  have h := base_copy_next b { w.setFunc b f with is_currently_binding := true } hb a
  simpa [prepared] using h

theorem prepared_prev (b : Addr) (f : Func T) (w : World T) (hb : b ≠ w.size) (a : Addr) :
    ((prepared b f w).heap a).prev =
      if (w.heap b).next = some a then some w.size else if a = w.size then some b
      else (w.heap a).prev := by
  have h := base_copy_prev b { w.setFunc b f with is_currently_binding := true } hb a
  simpa [prepared] using h

theorem prepared_func (b : Addr) (f : Func T) (w : World T) (a : Addr) :
    ((prepared b f w).heap a).func =
      if a = w.size then .empty else if a = b then f else (w.heap a).func := by
  have h := base_copy_func b { w.setFunc b f with is_currently_binding := true } a
  simp only [prepared, record_heap]
  rw [h]
  by_cases h1 : a = w.size
  · simp [h1]
  · by_cases h2 : a = b <;> simp [h1, h2]

theorem prepared_val (b : Addr) (f : Func T) (w : World T) (a : Addr) (ha : a ≠ w.size) :
    ((prepared b f w).heap a).val = (w.heap a).val := by
  have h := base_copy_val b { w.setFunc b f with is_currently_binding := true } a ha
  simp only [prepared, record_heap]
  rw [h]
  by_cases h2 : a = b <;> simp [h2]

theorem prepared_log (b : Addr) (f : Func T) (w : World T) :
    notified b (prepared b f w) = notified b w := by
  simp [notified, prepared, World.record, base_copy]

/-- The prepared state is sound, and the copy held by the new binding state
stands right behind the bound property. -/
theorem prepared_sound (b : Addr) (f : Func T) (w : World T) (vs : List Addr) (hs : Sound w)
    (hl : IsList w b vs) :
    Sound (prepared b f w) ∧ IsList (prepared b f w) b (w.size :: vs) := by
  have hbo : (w.heap b).owner = some b := hl.owner b (by simp)
  have hbz : b ≠ w.size := fun h => Nat.lt_irrefl _ (h ▸ hs.bound b b hbo)
  have hs0 : Sound { w.setFunc b f with is_currently_binding := true } :=
    hs.of_links (fun a => by simp) (fun a => by simp) (fun a => by simp) (Nat.le_refl _)
  have hl0 : IsList { w.setFunc b f with is_currently_binding := true } b vs :=
    hl.same_links (fun a => by simp) (fun a => by simp) (fun a => by simp)
  have hs1 := hs0.base_copy_sound (p := b) (o := b) (by simpa using hbo)
  have hl1 := hl0.base_copy_list (s := b) (by simp) (hs0.fresh hl0)
  constructor
  · exact hs1.of_links (fun a => rfl) (fun a => rfl) (fun a => rfl) (Nat.le_refl _)
  · have : (insert_after b w.size (b :: vs)).tail = w.size :: vs := by simp [insert_after]
    rw [← this]
    exact hl1.same_links (fun a => rfl) (fun a => rfl) (fun a => rfl)

theorem prepared_eq (n : Nat) (b : Addr) (f : Func T) (w : World T)
    (hkeep : ∀ old st, w.current = some old → w.states.get? old = some st → st.deps ≠ []) :
    (set_current_prop n b { w.setFunc b f with is_currently_binding := true }).map
      (fun w2 => w2.record .compute b none) = .ok (prepared b f w) := by
  rw [set_current_prop_keep n b _ (by simpa using hkeep)]
  rfl

theorem set_binding_run (n : Nat) (b : Addr) (e : Expr T) (s nf : Callable T)
    (w w3 w4 : World T) (v : T) (ho : is_owner w b = true)
    (hkeep : ∀ old st, w.current = some old → w.states.get? old = some st → st.deps ≠ [])
    (h3 : eval e (prepared b (.property_binder e s nf) w) = .ok (v, w3))
    (h4 : set_directly_as_owner n b v w3 = .ok w4) :
    set_binding (n + 1) b e s nf w = .ok (true, { w4 with is_currently_binding := false }) := by
  unfold set_binding
  simp only [ho, Bool.not_true, Bool.false_eq_true, if_false]
  rw [invoke_initial_binding n b .null (w.setFunc b (.property_binder e s nf)) _ w3 w4 v
    (show ((w.setFunc b (.property_binder e s nf)).heap b).func = .property_binder e s nf by simp)
    (set_current_prop_keep n b _ (by simpa using hkeep)) h3 h4]
  rfl

/-- The method `set_binding` on an owner with mirroring views, with a
computeFn that reads properties of other lists and an observing notifier:
it returns `true`; the owner holds the value of computeFn; the notifier was
invoked once with that value if it is a new one, and not otherwise. -/
theorem set_binding_spec (w : World T) (b : Addr) (vs : List Addr) (e : Expr T)
    (s nf : Callable T) (hs : Sound w) (hl : IsList w b vs)
    (hmir : ∀ a ∈ vs, (w.heap a).func.mirrors)
    (hreads : ∀ p ∈ e.reads, ∃ o, (w.heap p).owner = some o ∧ o ≠ b)
    (hq : Callable.quiet nf)
    (hkeep : ∀ old st, w.current = some old → w.states.get? old = some st → st.deps ≠ [])
    (n : Nat) (hn : vs.length + 15 ≤ n) :
    ∃ w' vs', set_binding n b e s nf w = .ok (true, w') ∧ Installed w w' b vs e s nf ∧
      Bound w' b vs' e s nf := by
  obtain ⟨m, rfl⟩ : ∃ m, n = m + 1 := ⟨n - 1, by omega⟩
  have hbo : (w.heap b).owner = some b := hl.owner b (by simp)
  have hblt : b < w.size := hs.bound b b hbo
  have hbz : b ≠ w.size := Nat.ne_of_lt hblt
  have hbvs : b ∉ vs := (List.nodup_cons.mp hl.nodup).1
  have hvlt : ∀ a ∈ vs, a < w.size := fun a ha =>
    hs.bound a b (hl.owner a (List.mem_cons_of_mem _ ha))
  have hplt : ∀ p ∈ e.reads, p < w.size := fun p hp => by
    obtain ⟨o, ho, _⟩ := hreads p hp
    exact hs.bound p o ho
  -- the prepared state
  obtain ⟨hsu, hlu⟩ := prepared_sound b (.property_binder e s nf) w vs hs hl
  have husz := prepared_size b (.property_binder e s nf) w
  have hstu : (prepared b (.property_binder e s nf) w).states.get? w.states.length =
      some { prop := w.size, deps := [] } := by
    rw [prepared_states]; simp
  have hownu : ∀ a, a < w.size → ((prepared b (.property_binder e s nf) w).heap a).owner =
      (w.heap a).owner := fun a ha => by
    rw [prepared_owner b _ w hbz]; simp [Nat.ne_of_lt ha]
  have hnowu : e.now (prepared b (.property_binder e s nf) w) = e.now w :=
    Expr.now_congr w _ e (fun p hp => prepared_val b _ w p (Nat.ne_of_lt (hplt p hp)))
  -- the evaluation of computeFn
  obtain ⟨w3, h3, hreg, hval3, hlog3⟩ := eval_reg w.states.length e
    (prepared b (.property_binder e s nf) w) { prop := w.size, deps := [] } hsu
    (prepared_binding _ _ _) (prepared_current _ _ _) hstu (fun q hq => by cases hq)
    (fun p hp => by
      obtain ⟨o, ho, _⟩ := hreads p hp
      exact ⟨o, by rw [hownu p (hplt p hp)]; exact ho⟩)
  obtain ⟨st3, hst3, hprop3, _, horg3, hregd3⟩ := hreg.state _ hstu (fun q hq => by cases hq)
  have hlt3 : ∀ a, a < w.size → a < (prepared b (.property_binder e s nf) w).size :=
    fun a ha => by rw [husz]; exact Nat.lt_succ_of_lt ha
  have hown3 : ∀ a, a < w.size → (w3.heap a).owner = (w.heap a).owner := fun a ha => by
    rw [hreg.owner a (hlt3 a ha), hownu a ha]
  have hval3' : ∀ a, a < w.size → (w3.heap a).val = (w.heap a).val := fun a ha => by
    rw [hval3 a (hlt3 a ha), prepared_val b _ w a (Nat.ne_of_lt ha)]
  have hfunc3 : ∀ a, a < w.size → a ≠ b → (w3.heap a).func = (w.heap a).func :=
    fun a ha hab => by
      rw [hreg.func a (hlt3 a ha), prepared_func]; simp [Nat.ne_of_lt ha, hab]
  have hfuncb3 : (w3.heap b).func = .property_binder e s nf := by
    rw [hreg.func b (hlt3 b hblt), prepared_func]; simp [hbz]
  have hown0 : (w3.heap w.size).owner = some b := by
    rw [hreg.owner _ (by rw [husz]; exact Nat.lt_succ_self _), prepared_owner b _ w hbz]
    simp [hbo]
  have hfunc0 : (w3.heap w.size).func = .empty := by
    rw [hreg.func _ (by rw [husz]; exact Nat.lt_succ_self _), prepared_func]
    simp
  have hnow3 : e.now w3 = e.now w := Expr.now_congr w w3 e (fun p hp => hval3' p (hplt p hp))
  have hrown3 : ∀ p ∈ e.reads, (w3.heap p).owner ≠ some b := by
    intro p hp h
    obtain ⟨o, ho, hob⟩ := hreads p hp
    rw [hown3 p (hplt p hp), ho] at h
    exact hob (Option.some.inj h)
  have hl3 : IsList w3 b (w.size :: vs) := hreg.lists b _ hlu (fun p hp h => by
    obtain ⟨o, ho, hob⟩ := hreads p hp
    rw [hownu p (hplt p hp), ho] at h
    exact hob (Option.some.inj h))
  have hb3 : Bound w3 b (w.size :: vs) e s nf := by
    refine ⟨hl3, ?_, hfuncb3, hq, ?_, ?_, ?_⟩
    · intro a ha
      simp only [List.mem_cons] at ha
      rcases ha with rfl | ha
      · exact Or.inl hfunc0
      · have hab : a ≠ b := fun h => hbvs (h ▸ ha)
        exact Or.inr (Or.inl (by rw [hfunc3 a (hvlt a ha) hab]; exact hmir a ha))
    · exact Or.inr ⟨w.states.length, st3, by rw [hreg.current, prepared_current], hst3, hregd3⟩
    · intro p hp hm
      exact hrown3 p hp (hl3.owner p hm)
    · intro p hp
      obtain ⟨o, ho, _⟩ := hreads p hp
      exact ⟨o, by rw [hown3 p (hplt p hp)]; exact ho⟩
  have hdeps3 : ∀ q ∈ st3.deps, q < w3.size := by
    intro q hq
    rcases horg3 q hq with h | h
    · cases h
    · exact h.2
  -- the write of the value
  obtain ⟨w4, vs4, R, h4, hreg4, hR, hRlen, hb4, hv4, hvals4, hnot4, hmir4⟩ := bind_commit w3 b
    (w.size :: vs) e s nf w.states.length st3 hreg.sound hb3
    (by rw [hreg.binding, prepared_binding]) (by rw [hreg.current, prepared_current]) hst3
    hdeps3 (by rw [hprop3]; exact hown0) m (by simp only [List.length_cons]; omega)
  rw [hnow3] at h4 hv4 hnot4 hmir4
  have hrun := set_binding_run m b e s nf w w3 w4 _ hl.is_owner hkeep h3 (by rw [hnowu]; exact h4)
  have hvb3 : (w3.heap b).val = (w.heap b).val := hval3' b hblt
  have hlt4 : ∀ a, a < w.size → a < w3.size := fun a ha =>
    Nat.lt_of_lt_of_le (hlt3 a ha) hreg.size
  obtain ⟨st4, hst4, hprop4, hsub4, _, _⟩ := hreg4.state st3 hst3 hdeps3
  refine ⟨{ w4 with is_currently_binding := false }, vs4, hrun, ?_, ?_⟩
  · refine ⟨hv4, ?_, ?_, ?_, ?_, rfl, ?_, ?_, hb4.func, ?_, ?_, ?_, ?_, ?_, ?_, ?_, ?_⟩
    · intro a ha hna
      have : a ∉ b :: w.size :: vs := by
        intro h
        simp only [List.mem_cons] at h
        rcases h with h | h | h
        · exact hna (by simp [h])
        · exact Nat.lt_irrefl _ (h ▸ ha)
        · exact hna (by simp [h])
      show (w4.heap a).val = (w.heap a).val
      rw [hvals4 a (hlt4 a ha) this, hval3' a ha]
    · intro hne a ha
      have hab : a ≠ b := fun h => hbvs (h ▸ ha)
      exact hmir4 (by rw [hvb3]; exact hne) a (List.mem_cons_of_mem _ ha)
        (by rw [hfunc3 a (hvlt a ha) hab]; exact hmir a ha)
    · have h1 : notified b { w4 with is_currently_binding := false } = notified b w4 := rfl
      have h2 : notified b w3 = notified b w := by
        rw [← prepared_log b (.property_binder e s nf) w]
        simp [notified, hlog3]
      rw [h1, hnot4, h2, hvb3]
    · exact hreg4.sound.of_links (fun _ => rfl) (fun _ => rfl) (fun _ => rfl) (Nat.le_refl _)
    · intro a ha
      show (w4.heap a).owner = (w.heap a).owner
      rw [hreg4.owner a (hlt4 a ha), hown3 a ha]
    · intro a ha hab
      show (w4.heap a).func = (w.heap a).func
      rw [hreg4.func a (hlt4 a ha), hfunc3 a ha hab]
    · exact Nat.le_trans (Nat.le_trans (by rw [husz]; exact Nat.le_succ _) hreg.size) hreg4.size
    · show w4.size ≤ _
      have h1 := hreg.size_le
      have h2 := hreg4.size_le
      rw [husz] at h1
      omega
    · intro a ha1 ha2
      show ((w4.heap a).owner = some b ∧ _) ∨ ((w4.heap a).func = _ ∧
        ∃ p ∈ e.reads, (w4.heap a).owner = (w.heap p).owner)
      by_cases h3' : a < w3.size
      · by_cases hu : a < (prepared b (.property_binder e s nf) w).size
        · have haz : a = w.size := by
            rw [husz] at hu
            exact Nat.le_antisymm (Nat.lt_succ_iff.mp hu) ha1
          subst haz
          left
          exact ⟨by rw [hreg4.owner _ h3', hown0], Or.inl (by rw [hreg4.func _ h3', hfunc0])⟩
        · obtain ⟨hf, p, hp, ho⟩ := hreg.fresh a (Nat.le_of_not_lt hu) h3'
          right
          exact ⟨by rw [hreg4.func _ h3', hf], p, hp, by
            rw [hreg4.owner _ h3', ho, hownu p (hplt p hp)]⟩
      · obtain ⟨hf, p, hp, ho⟩ := hreg4.fresh a (Nat.le_of_not_lt h3') ha2
        left
        have hpb := hR p hp
        subst hpb
        exact ⟨by rw [ho, hown3 p hblt, hbo], Or.inr hf⟩
    · intro p hp
      have hany := hregd3 p hp
      rw [List.any_eq_true] at hany
      obtain ⟨q, hq, hqo⟩ := hany
      have hqo' : (w3.heap q).owner = (w3.heap p).owner := by simpa using hqo
      rcases horg3 q hq with h | ⟨h1, h2⟩
      · cases h
      · refine ⟨q, ?_, Nat.lt_of_lt_of_le h2 hreg4.size, ?_, ?_⟩
        · rw [husz] at h1
          exact Nat.le_of_succ_le h1
        · show (w4.heap q).owner = (w.heap p).owner
          rw [hreg4.owner q h2, hqo', hown3 p (hplt p hp)]
        · show (w4.heap q).func = _
          rw [hreg4.func q h2]
          exact (hreg.fresh q h1 h2).1
    · show w4.current = _
      rw [hreg4.current, hreg.current, prepared_current]
    · show w4.states.length = _
      rw [hreg4.length, hreg.length, prepared_states]
      simp
    · intro j hj
      show w4.states.get? j = _
      rw [hreg4.others j (Nat.ne_of_lt hj), hreg.others j (Nat.ne_of_lt hj), prepared_states]
      simp [List.getElem?_append_left hj]
    · refine ⟨st4, hst4, ?_, ?_⟩
      · show (w4.heap st4.prop).owner = some b
        rw [hprop4, hprop3, hreg4.owner _ (Nat.lt_of_lt_of_le
          (by rw [husz]; exact Nat.lt_succ_self _) hreg.size), hown0]
      · intro hne hd
        cases hr : e.reads with
        | nil => exact hne hr
        | cons p _ =>
          have hany := hregd3 p (by rw [hr]; simp)
          rw [List.any_eq_true] at hany
          obtain ⟨q, hq, _⟩ := hany
          have := hsub4 q hq
          rw [hd] at this
          cases this
  · exact ⟨hb4.list.same_links (fun _ => rfl) (fun _ => rfl) (fun _ => rfl), hb4.role, hb4.func,
      hq, Or.inl rfl, hb4.reads, hb4.owned⟩

/-! ## C11: `set_binding` only on an owner -/

theorem Sound.init (filler : T) : Sound (World.init filler) :=
  ⟨fun a o h => by simp [World.init] at h, fun a o h => by simp [World.init] at h⟩

theorem Sound.property_new {w : World T} (hs : Sound w) (v : T) : Sound (property_new v w) := by
  constructor
  · intro a o ha
    by_cases haz : a = w.size
    · subst haz
      have ho : o = w.size := by simpa [bindable_properties.property_new] using ha.symm
      subst ho
      exact ⟨[], ⟨by simp, by simp [Linked, bindable_properties.property_new], by simp [bindable_properties.property_new],
        fun x hx => by
          simp only [List.mem_singleton] at hx
          subst hx
          simp [bindable_properties.property_new]⟩, by simp⟩
    · have ha' : (w.heap a).owner = some o := by simpa [bindable_properties.property_new, haz] using ha
      obtain ⟨vs, hl, hm⟩ := hs.listed a o ha'
      refine ⟨vs, hl.congr_on (fun x hx => ?_), hm⟩
      have hxz : x ≠ w.size := fun h => Nat.lt_irrefl _ (h ▸ hs.bound x o (hl.owner x hx))
      simp [bindable_properties.property_new, hxz]
  · intro a o ha
    by_cases haz : a = w.size
    · rw [haz]; simp [bindable_properties.property_new]
    · have ha' : (w.heap a).owner = some o := by simpa [bindable_properties.property_new, haz] using ha
      exact Nat.lt_of_lt_of_le (hs.bound a o ha') (by simp [bindable_properties.property_new])

/-- C11 (`set_binding` succeeds only on an owner): on a node that is not an
owner (a view or an orphaned node) `set_binding` returns `false` and the
state it returns is the state it was called in, log, binding states and heap
included.  On an owner every result it returns carries `true`.  And on an
owner with mirroring views, with a computeFn that reads properties of other
lists and an observing notifier, it returns; the owner then holds the value
computeFn returned, which is also the value of computeFn over the final
state, and the owner carries the binder. -/
theorem set_binding_only_on_owner (w : World T) (b : Addr) (e : Expr T) (s nf : Callable T) :
    (is_owner w b = false → ∀ fuel, set_binding fuel b e s nf w = .ok (false, w)) ∧
    (is_owner w b = true → ∀ fuel r, set_binding fuel b e s nf w = .ok r → r.1 = true) ∧
    (∀ vs, Sound w → IsList w b vs → (∀ a ∈ vs, (w.heap a).func.mirrors) →
      (∀ p ∈ e.reads, ∃ o, (w.heap p).owner = some o ∧ o ≠ b) → Callable.quiet nf →
      (∀ old st, w.current = some old → w.states.get? old = some st → st.deps ≠ []) →
      ∀ fuel, vs.length + 15 ≤ fuel →
        ∃ w', set_binding fuel b e s nf w = .ok (true, w') ∧ (w'.heap b).val = e.now w ∧
          (w'.heap b).val = e.now w' ∧ is_owner w' b = true ∧
          (w'.heap b).func = .property_binder e s nf) := by
  refine ⟨?_, ?_, ?_⟩
  · intro ho fuel
    simp [set_binding, ho, pure, Except.pure]
  · intro ho fuel r h
    unfold set_binding at h
    simp only [ho, Bool.not_true, Bool.false_eq_true, if_false] at h
    obtain ⟨w2, _, h2⟩ := bind_ok h
    cases h2
    rfl
  · intro vs hs hl hmir hreads hq hkeep fuel hfuel
    obtain ⟨w', vs', h, hi, hb⟩ := set_binding_spec w b vs e s nf hs hl hmir hreads hq hkeep
      fuel hfuel
    refine ⟨w', h, hi.value, ?_, hb.list.is_owner, hi.binder⟩
    rw [hi.value]
    refine (Expr.now_congr w w' e (fun p hp => ?_)).symm
    obtain ⟨o, ho, hob⟩ := hreads p hp
    refine hi.vals p (hs.bound p o ho) (fun hm => ?_)
    have := hl.owner p hm
    rw [ho] at this
    exact hob (Option.some.inj this)

/-- The property `p` (address 0) holds 1 and `b` (address 1) holds 0; `c`
(address 2) is a view of `p`.  `c.set_binding` returns `false` and changes
nothing; `b.set_binding` with computeFn `p + p` returns `true` and `b` holds 2. -/
theorem set_binding_only_on_owner_witness :
    set_binding 15 2 (.app (fun x y => x + y) (.read 0) (.read 0)) nop nop
        (property_copy 0 (property_new 0 (property_new 1 (World.init (0 : Int))))) =
      .ok (false, property_copy 0 (property_new 0 (property_new 1 (World.init (0 : Int))))) ∧
    ∃ w', set_binding 15 1 (.app (fun x y => x + y) (.read 0) (.read 0)) nop nop
        (property_new 0 (property_new 1 (World.init (0 : Int)))) = .ok (true, w') ∧
      (w'.heap 1).val = 2 :=
  ⟨(set_binding_only_on_owner _ 2 _ nop nop).1 (by decide) 15, by
    obtain ⟨w', h, hv, _⟩ := (set_binding_only_on_owner
      (property_new 0 (property_new 1 (World.init (0 : Int)))) 1
      (.app (fun x y => x + y) (.read 0) (.read 0)) nop nop).2.2 []
      (((Sound.init (0 : Int)).property_new 1).property_new 0)
      ⟨by decide, by decide, by decide, by decide⟩ (by simp)
      (fun p hp => by
        have hp0 : p = 0 := by simpa [Expr.reads] using hp
        subst hp0
        exact ⟨0, by decide, by decide⟩)
      (fun _ _ => rfl) (fun old st h => by simp [property_new, World.init] at h) 15
      (by decide)
    exact ⟨w', h, by rw [hv]; decide⟩⟩

/-! ## C15: the notifier of a binder -/

/-- A write to a property `p` that a binding of `b` depends on: the list of
`p` consists of mirroring views and of subscriptions of bindings of `b`, at
least one.  The write returns, `p` holds the new value, `b` holds the value
of its computeFn over the final state, and the notifier of `b` was invoked
once with that value if it is a new one for `b`, and not otherwise. -/
theorem dependency_write (w : World T) (b p : Addr) (vs vp : List Addr) (e : Expr T)
    (s nf : Callable T) (x : T) (hb : Bound w b vs e s nf)
    (hnb : w.is_currently_binding = false) (hlp : IsList w p vp) (hpb : p ≠ b)
    (hpf : (w.heap p).func.plain)
    (hclass : ∀ a ∈ vp, (w.heap a).func.mirrors ∨ ∃ j st, (w.heap a).func = .dependency j ∧
      w.states.get? j = some st ∧ (w.heap st.prop).owner = some b)
    (hsub : ∃ a ∈ vp, ∃ j st, (w.heap a).func = .dependency j ∧
      w.states.get? j = some st ∧ (w.heap st.prop).owner = some b)
    (hx : (w.heap p).val ≠ x) (n : Nat) (hn : vp.length + vs.length + 20 ≤ n) :
    ∃ w', assign n p x w = .ok w' ∧ ValFrame w w' ∧ (w'.heap p).val = x ∧
      (w'.heap b).val = e.now w' ∧
      notified b w' = notified b w ++
        (if (w.heap b).val = e.now w' then [] else [(some (e.now w'), e.now w')]) ∧
      (∀ a, a ∉ p :: vp → a ∉ b :: vs → (w'.heap a).val = (w.heap a).val) := by
  obtain ⟨m, rfl⟩ : ∃ m, n = m + 4 := ⟨n - 4, by omega⟩
  have hbo : (w.heap b).owner = some b := hb.list.owner b (by simp)
  -- the two lists are disjoint
  have hdisj : ∀ a ∈ p :: vp, a ∉ b :: vs := by
    intro a ha hm
    have h1 := hlp.owner a ha
    rw [hb.list.owner a hm] at h1
    exact hpb (Option.some.inj h1).symm
  have hbp : b ∉ p :: vp := fun h => hdisj b h (by simp)
  have hfr0 : ValFrame w (w.setVal p x) := ValFrame.setVal w p x
  -- the silent loop
  have key0 := pass_steps .initial_notification (.slot p)
    (fun r w1 => Linked w r ∧ (∀ a ∈ r, a ∈ p :: vp) ∧ ValFrame w w1 ∧
      (∀ a, a ∉ p :: vp → (w1.heap a).val = (w.heap a).val) ∧ w1.log = w.log ∧
      (w1.heap p).val = x ∧
      (∀ a ∈ p :: vp, a ∈ r ∨ (a = p ∨ (w.heap a).func.mirrors → (w1.heap a).val = x))) 3
    (by
      intro c r w1 ⟨hl, hin, hf, hout, hlog, hpv, hdone⟩
      have hc : c ∈ p :: vp := hin c (by simp)
      have hnext : (w1.heap c).next = r.head? := by rw [hf.next]; exact hl.next_head
      have hin' : ∀ a ∈ r, a ∈ p :: vp := fun a ha => hin a (List.mem_cons_of_mem _ ha)
      have hrole : ((w.heap c).func.mirrors ∨ (c = p ∧ (w.heap c).func.plain)) ∨
          ∃ j, (w.heap c).func = .dependency j := by
        simp only [List.mem_cons] at hc
        rcases hc with rfl | hc
        · exact Or.inl (Or.inr ⟨rfl, hpf⟩)
        · rcases hclass c hc with h | ⟨j, _, h, _⟩
          · exact Or.inl (Or.inl h)
          · exact Or.inr ⟨j, h⟩
      rcases hrole with hrole | ⟨j, hj⟩
      · obtain ⟨w2, h2, hf2, hout2, hv2, hlog2⟩ := step_spec w1 p c x .initial_notification 0
          (by rw [hf.owner]; exact hlp.owner c hc) hpv (by rw [hf.func]; exact hrole)
          (Or.inl rfl)
        refine ⟨w2, h2, by rw [hf2.next]; exact hnext, hl.tail, hin', hf.trans hf2, ?_, ?_, ?_,
          ?_⟩
        · intro a ha
          have hac : a ≠ c := fun h => ha (h ▸ hc)
          rw [hout2 a hac, hout a ha]
        · rw [hlog2, hlog]; simp
        · by_cases hpc : p = c
          · subst hpc
            rcases hv2 with h | ⟨h, _⟩
            · exact h
            · cases h
          · rw [hout2 p hpc]; exact hpv
        · intro a ha
          by_cases hac : a = c
          · right; intro _
            subst hac
            rcases hv2 with h | ⟨h, _⟩
            · exact h
            · cases h
          · rcases hdone a ha with h | h
            · simp only [List.mem_cons] at h
              rcases h with h | h
              · exact absurd h hac
              · exact Or.inl h
            · right; intro hm
              rw [hout2 a hac]; exact h hm
      · have hne : (w1.heap c).func.nonempty = true := by rw [hf.func, hj]; rfl
        refine ⟨w1, by
          rw [if_pos hne]
          exact invoke_dependency_initial 2 c _ w1 (by rw [hf.func]; exact hj),
          hnext, hl.tail, hin', hf, hout, hlog, hpv, ?_⟩
        intro a ha
        rcases hdone a ha with h | h
        · simp only [List.mem_cons] at h
          rcases h with rfl | h
          · right; intro hm
            rcases hm with hm | hm
            · subst hm
              exact hpv
            · rw [hj] at hm
              exact absurd hm (by simp [Func.mirrors])
          · exact Or.inl h
        · exact Or.inr h)
  obtain ⟨w1, h1, _, _, hf1, hout1, hlog1, hpv1, hdone1⟩ := key0 (p :: vp) (w.setVal p x) (m + 1)
    ⟨hlp.linked, fun a ha => ha, hfr0, fun a ha => by
      have hap : a ≠ p := fun h => ha (by simp [h])
      simp [hap], rfl, by simp, fun a ha => Or.inl ha⟩
    (by simp only [List.length_cons]; omega)
  have hx1 : ∀ a ∈ p :: vp, a = p ∨ (w.heap a).func.mirrors → (w1.heap a).val = x := by
    intro a ha hm
    rcases hdone1 a ha with h | h
    · cases h
    · exact h hm
  have hb1 : Bound w1 b vs e s nf := hb.bound_frame hf1
  have hvb1 : (w1.heap b).val = (w.heap b).val := hout1 b hbp
  -- the notifying loop
  have key1 := pass_steps .notification (.slot p)
    (fun r w2 => Linked w r ∧ (∀ a ∈ r, a ∈ p :: vp) ∧ ValFrame w1 w2 ∧
      (∀ a, a ∉ b :: vs → (w2.heap a).val = (w1.heap a).val) ∧
      (((w2.heap b).val = e.now w1 ∧ notified b w2 = notified b w ++
          (if (w.heap b).val = e.now w1 then [] else [(some (e.now w1), e.now w1)])) ∨
        ((∃ a ∈ r, ∃ j, (w.heap a).func = .dependency j) ∧ (w2.heap b).val = (w.heap b).val ∧
          notified b w2 = notified b w))) (vs.length + 13)
    (by
      intro c r w2 ⟨hl, hin, hf, hout, hstate⟩
      have hc : c ∈ p :: vp := hin c (by simp)
      have hcb : c ≠ b := fun h => hbp (h ▸ hc)
      have hcn : c ∉ b :: vs := hdisj c hc
      have hnext : (w2.heap c).next = r.head? := by
        rw [hf.next, hf1.next]; exact hl.next_head
      have hin' : ∀ a ∈ r, a ∈ p :: vp := fun a ha => hin a (List.mem_cons_of_mem _ ha)
      have hf02 : ValFrame w w2 := hf1.trans hf
      have hpv2 : (w2.heap p).val = x := by
        rw [hout p (hdisj p (by simp))]; exact hpv1
      have hnow2 : e.now w2 = e.now w1 := Expr.now_congr w1 w2 e (fun q hq =>
        hout q (hb.reads q hq))
      have hrole : ((w.heap c).func.mirrors ∨ (c = p ∧ (w.heap c).func.plain)) ∨
          ∃ j st, (w.heap c).func = .dependency j ∧ w.states.get? j = some st ∧
            (w.heap st.prop).owner = some b := by
        simp only [List.mem_cons] at hc
        rcases hc with rfl | hc
        · exact Or.inl (Or.inr ⟨rfl, hpf⟩)
        · rcases hclass c hc with h | h
          · exact Or.inl (Or.inl h)
          · exact Or.inr h
      rcases hrole with hrole | ⟨j, st, hj, hst, hprop⟩
      · -- the owner itself or a mirroring view
        have hnd : ∀ j, (w.heap c).func ≠ .dependency j := by
          intro j hj
          rcases hrole with h | ⟨_, h⟩
          · rw [hj] at h; exact absurd h (by simp [Func.mirrors])
          · rw [hj] at h; exact absurd h (by simp [Func.plain])
        obtain ⟨w3, h3, hf3, hout3, hv3, hlog3⟩ := step_spec w2 p c x .notification
          (vs.length + 10) (by rw [hf02.owner]; exact hlp.owner c hc) hpv2
          (by rw [hf02.func]; exact hrole) (Or.inr rfl)
        have hsame : ∀ a, (w3.heap a).val = (w2.heap a).val := by
          intro a
          by_cases hac : a = c
          · subst hac
            rcases hv3 with h | ⟨_, h⟩
            · rw [h, hout a hcn]
              refine (hx1 a hc ?_).symm
              rcases hrole with h | ⟨h, _⟩
              · exact Or.inr h
              · exact Or.inl h
            · exact h
          · exact hout3 a hac
        have hnot3 : notified b w3 = notified b w2 := by
          rw [notified_append b w2 w3 _ hlog3]
          split_ifs <;> simp [hcb]
        refine ⟨w3, h3, by rw [hf3.next]; exact hnext, hl.tail, hin', hf.trans hf3, ?_, ?_⟩
        · intro a ha; rw [hsame a, hout a ha]
        · rcases hstate with ⟨h1', h2'⟩ | ⟨⟨a, ha, j, hj⟩, h2', h3'⟩
          · exact Or.inl ⟨by rw [hsame b]; exact h1', by rw [hnot3]; exact h2'⟩
          · right
            refine ⟨⟨a, ?_, j, hj⟩, by rw [hsame b]; exact h2', by rw [hnot3]; exact h3'⟩
            simp only [List.mem_cons] at ha
            rcases ha with rfl | ha
            · exact absurd hj (hnd j)
            · exact ha
      · -- a subscription: the bound property is recomputed
        have hne : (w2.heap c).func.nonempty = true := by rw [hf02.func, hj]; rfl
        have hb2 : Bound w2 b vs e s nf := hb.bound_frame hf02
        obtain ⟨w3, h3, hf3, hv3, hout3, hnot3, _⟩ := update_spec w2 b vs e s nf hb2
          (Or.inl (by rw [hf02.binding]; exact hnb)) (vs.length + 12) (Nat.le_refl _)
        rw [hnow2] at hv3 hnot3
        refine ⟨w3, ?_, by rw [hf3.next]; exact hnext, hl.tail, hin', hf.trans hf3, ?_, ?_⟩
        · rw [if_pos hne, invoke_dependency (vs.length + 12) c _ w2
            (by rw [hf02.func]; exact hj) (by rw [hf02.states]; exact hst)
            (by rw [hf02.owner]; exact hprop)]
          exact h3
        · intro a ha; rw [hout3 a ha, hout a ha]
        · left
          rcases hstate with ⟨h1', h2'⟩ | ⟨_, h2', h3'⟩
          · exact ⟨hv3, by rw [hnot3, if_pos h1', h2']; simp⟩
          · exact ⟨hv3, by rw [hnot3, h2', h3']⟩)
  obtain ⟨a0, ha0, j0, st0, hj0, _, _⟩ := hsub
  obtain ⟨w2, h2, _, _, hf2, hout2, hstate2⟩ := key1 (p :: vp) w1 (m + 1)
    ⟨hlp.linked, fun a ha => ha, ValFrame.refl w1, fun _ _ => rfl,
      Or.inr ⟨⟨a0, List.mem_cons_of_mem _ ha0, j0, hj0⟩, hvb1, by
        simp [notified, hlog1]⟩⟩
    (by simp only [List.length_cons]; omega)
  have hnow2 : e.now w2 = e.now w1 := Expr.now_congr w1 w2 e (fun q hq => hout2 q (hb.reads q hq))
  rcases hstate2 with ⟨hv, hnot⟩ | ⟨⟨a, ha, _⟩, _, _⟩
  · refine ⟨w2, ?_, hf1.trans hf2, ?_, by rw [hnow2]; exact hv, by
      rw [hnow2]; exact hnot, fun a h1a h2a => by rw [hout2 a h2a, hout1 a h1a]⟩
    · rw [assign_succ, hlp.is_owner, if_pos rfl, set_directly_succ, if_pos hx,
        notify_all_succ]
      have h1' : pass (m + 1) .initial_notification (.slot p) (some p) (w.setVal p x) =
          .ok w1 := h1
      have h2' : pass (m + 1) .notification (.slot p) (some p) w1 = .ok w2 := h2
      rw [h1', ok_bind, h2']
    · rw [hout2 p (hdisj p (by simp))]; exact hpv1
  · cases ha

/-- After `set_binding`, the list of a property that computeFn reads holds
the views it had and subscriptions of the new binding state, at least one. -/
theorem Installed.subscription_list {w w' : World T} {b : Addr} {vs : List Addr}
    {e : Expr T} {s nf : Callable T} (hi : Installed w w' b vs e s nf) (hs : Sound w)
    {p : Addr} {vp0 : List Addr} (hp : p ∈ e.reads) (hlp : IsList w p vp0)
    (hmir : ∀ a ∈ vp0, (w.heap a).func.mirrors) (hpb : p ≠ b)
    (hbo : (w.heap b).owner = some b) :
    ∃ vp, IsList w' p vp ∧
      (∀ a ∈ vp, (w'.heap a).func.mirrors ∨ ∃ j st, (w'.heap a).func = .dependency j ∧
        w'.states.get? j = some st ∧ (w'.heap st.prop).owner = some b) ∧
      (∃ a ∈ vp, ∃ j st, (w'.heap a).func = .dependency j ∧
        w'.states.get? j = some st ∧ (w'.heap st.prop).owner = some b) ∧
      vp.length ≤ vp0.length + e.reads.length + 2 := by
  have hpo : (w.heap p).owner = some p := hlp.owner p (by simp)
  have hplt : p < w.size := hs.bound p p hpo
  obtain ⟨vp, hl', _⟩ := hi.sound.listed p p (by rw [hi.owner p hplt, hpo])
  obtain ⟨st, hst, hprop, _⟩ := hi.state
  have hcls : ∀ a ∈ vp, a ∈ vp0 ∨ (w.size ≤ a ∧ a < w'.size ∧
      (w'.heap a).func = .dependency w.states.length) := by
    intro a ha
    have hao : (w'.heap a).owner = some p := hl'.owner a (List.mem_cons_of_mem _ ha)
    have hap : a ≠ p := fun h => (List.nodup_cons.mp hl'.nodup).1 (h ▸ ha)
    by_cases halt : a < w.size
    · left
      rw [hi.owner a halt] at hao
      have := hs.mem_list hlp hao
      simp only [List.mem_cons] at this
      rcases this with h | h
      · exact absurd h hap
      · exact h
    · right
      have hle := Nat.le_of_not_lt halt
      have hlt := hi.sound.bound a p hao
      rcases hi.fresh a hle hlt with ⟨h1, _⟩ | ⟨h1, _⟩
      · rw [hao] at h1
        exact absurd (Option.some.inj h1) hpb
      · exact ⟨hle, hlt, h1⟩
  refine ⟨vp, hl', ?_, ?_, ?_⟩
  · intro a ha
    rcases hcls a ha with h | ⟨_, _, h⟩
    · left
      have hao := hlp.owner a (List.mem_cons_of_mem _ h)
      have hab : a ≠ b := by
        rintro rfl
        rw [hbo] at hao
        exact hpb (Option.some.inj hao).symm
      rw [hi.func a (hs.bound a p hao) hab]
      exact hmir a h
    · exact Or.inr ⟨_, st, h, hst, hprop⟩
  · obtain ⟨d, hd1, hd2, hd3, hd4⟩ := hi.subscribed p hp
    rw [hpo] at hd3
    have hdm := hi.sound.mem_list hl' hd3
    simp only [List.mem_cons] at hdm
    rcases hdm with h | h
    · rw [h] at hd1
      exact absurd hplt (Nat.not_lt.mpr hd1)
    · exact ⟨d, h, _, st, hd4, hst, hprop⟩
  · have hsubset : vp ⊆ vp0 ++ List.range' w.size (e.reads.length + 2) := by
      intro a ha
      rcases hcls a ha with h | ⟨h1, h2, _⟩
      · exact List.mem_append_left _ h
      · refine List.mem_append_right _ ?_
        rw [List.mem_range'_1]
        exact ⟨h1, Nat.lt_of_lt_of_le h2 (by have := hi.size_le; omega)⟩
    have := (List.subperm_of_subset (List.nodup_cons.mp hl'.nodup).2 hsubset).length_le
    simpa [Nat.add_assoc] using this

/-- After `set_binding`, a list has at most the nodes it had and the new objects. -/
theorem Installed.list_length {w w' : World T} {b : Addr} {vs : List Addr}
    {e : Expr T} {s nf : Callable T} (hi : Installed w w' b vs e s nf) (hs : Sound w)
    {o : Addr} {v0 v' : List Addr} (hl : IsList w o v0) (hl' : IsList w' o v') :
    v'.length ≤ v0.length + e.reads.length + 2 := by
  have hsubset : v' ⊆ v0 ++ List.range' w.size (e.reads.length + 2) := by
    intro a ha
    have hao : (w'.heap a).owner = some o := hl'.owner a (List.mem_cons_of_mem _ ha)
    have hap : a ≠ o := fun h => (List.nodup_cons.mp hl'.nodup).1 (h ▸ ha)
    by_cases halt : a < w.size
    · rw [hi.owner a halt] at hao
      have := hs.mem_list hl hao
      simp only [List.mem_cons] at this
      rcases this with h | h
      · exact absurd h hap
      · exact List.mem_append_left _ h
    · refine List.mem_append_right _ ?_
      rw [List.mem_range'_1]
      have h2 := hi.sound.bound a o hao
      exact ⟨Nat.le_of_not_lt halt, Nat.lt_of_lt_of_le h2 (by have := hi.size_le; omega)⟩
  have := (List.subperm_of_subset (List.nodup_cons.mp hl'.nodup).2 hsubset).length_le
  simpa [Nat.add_assoc] using this

/-- C15 (the notifier of a binder fires once per committed change).  First
part, at `set_binding` on an owner with mirroring views, a computeFn that
reads properties of other lists and an observing notifier: the call
returns, the owner holds the value of computeFn, and the notifier was invoked
once with that value, at a moment when the owner already held it, if the
value is a new one, and not at all otherwise; the state it leaves is one to
which the second part applies, for every property that computeFn reads.
Second part, at a write of a new value to a property on which the binding
depends: the write returns, the bound property holds the value of
computeFn over the final state, and its notifier was invoked once with that
value, at a moment when the bound property already held it, if the value is
a new one for the bound property, and not at all otherwise. -/
theorem binder_notifier_once (w : World T) (b : Addr) (vs : List Addr) (e : Expr T)
    (s nf : Callable T) (hq : Callable.quiet nf) :
    (Sound w → IsList w b vs → (∀ a ∈ vs, (w.heap a).func.mirrors) →
      (∀ p ∈ e.reads, ∃ o, (w.heap p).owner = some o ∧ o ≠ b) →
      (∀ old st, w.current = some old → w.states.get? old = some st → st.deps ≠ []) →
      ∀ fuel, vs.length + 15 ≤ fuel →
        ∃ w' vs', set_binding fuel b e s nf w = .ok (true, w') ∧ (w'.heap b).val = e.now w ∧
          notified b w' = notified b w ++
            (if (w.heap b).val = e.now w then [] else [(some (e.now w), e.now w)]) ∧
          Bound w' b vs' e s nf ∧ w'.is_currently_binding = false ∧
          vs'.length ≤ vs.length + e.reads.length + 2 ∧
          (∀ a, a < w.size → a ∉ b :: vs → (w'.heap a).val = (w.heap a).val) ∧
          (∀ a, a < w.size → (w'.heap a).owner = (w.heap a).owner) ∧
          ∀ p vp0, p ∈ e.reads → IsList w p vp0 → (∀ a ∈ vp0, (w.heap a).func.mirrors) →
            (w.heap p).func.plain →
            ∃ vp, IsList w' p vp ∧ (w'.heap p).func.plain ∧
              (∀ a ∈ vp, (w'.heap a).func.mirrors ∨ ∃ j st, (w'.heap a).func = .dependency j ∧
                w'.states.get? j = some st ∧ (w'.heap st.prop).owner = some b) ∧
              (∃ a ∈ vp, ∃ j st, (w'.heap a).func = .dependency j ∧
                w'.states.get? j = some st ∧ (w'.heap st.prop).owner = some b) ∧
              vp.length ≤ vp0.length + e.reads.length + 2) ∧
    (Bound w b vs e s nf → w.is_currently_binding = false →
      ∀ p vp x, IsList w p vp → p ≠ b → (w.heap p).func.plain →
        (∀ a ∈ vp, (w.heap a).func.mirrors ∨ ∃ j st, (w.heap a).func = .dependency j ∧
          w.states.get? j = some st ∧ (w.heap st.prop).owner = some b) →
        (∃ a ∈ vp, ∃ j st, (w.heap a).func = .dependency j ∧
          w.states.get? j = some st ∧ (w.heap st.prop).owner = some b) →
        (w.heap p).val ≠ x → ∀ fuel, vp.length + vs.length + 20 ≤ fuel →
          ∃ w', assign fuel p x w = .ok w' ∧ (w'.heap p).val = x ∧
            (w'.heap b).val = e.now w' ∧
            notified b w' = notified b w ++
              (if (w.heap b).val = e.now w' then [] else [(some (e.now w'), e.now w')]) ∧
            (∀ a, a ∉ p :: vp → a ∉ b :: vs → (w'.heap a).val = (w.heap a).val)) := by
  refine ⟨?_, ?_⟩
  · intro hs hl hmir hreads hkeep fuel hfuel
    obtain ⟨w', vs', h, hi, hb⟩ := set_binding_spec w b vs e s nf hs hl hmir hreads hq hkeep
      fuel hfuel
    have hbo : (w.heap b).owner = some b := hl.owner b (by simp)
    refine ⟨w', vs', h, hi.value, hi.fired, hb, hi.idle, hi.list_length hs hl hb.list, hi.vals,
      hi.owner, ?_⟩
    intro p vp0 hp hlp hmirp hplain
    have hpb : p ≠ b := by
      obtain ⟨o, ho, hob⟩ := hreads p hp
      rintro rfl
      rw [hbo] at ho
      exact hob (Option.some.inj ho).symm
    obtain ⟨vp, hl', hcl, hsub, hlen⟩ := hi.subscription_list hs hp hlp hmirp hpb hbo
    refine ⟨vp, hl', ?_, hcl, hsub, hlen⟩
    rw [hi.func p (hs.bound p p (hlp.owner p (by simp))) hpb]
    exact hplain
  · intro hb hnb p vp x hlp hpb hpf hclass hsub hx fuel hfuel
    obtain ⟨w', h, _, hpv, hbv, hnot, hout⟩ := dependency_write w b p vs vp e s nf x hb hnb hlp
      hpb hpf hclass hsub hx fuel hfuel
    exact ⟨w', h, hpv, hbv, hnot, hout⟩

/-- The test `PythagorasExample`: `set_binding` on the hypotenuse invokes the
notifier once, with 29; a write of 99 to `y` then invokes it once more, with
101; and in the run of the test itself, `request_change(101)` on the
hypotenuse, the notifier has fired exactly twice, with 29 and then 101, each
time when the hypotenuse already held the value. -/
theorem binder_notifier_once_witness :
    (∃ r w'', set_binding 15 2 pythagoras_binding pythagoras_setter nop pythagoras_start = .ok r ∧
      notified 2 r.2 = [(some 29, 29)] ∧ assign 40 1 99 r.2 = .ok w'' ∧
      notified 2 w'' = [(some 29, 29), (some 101, 101)]) ∧
    (set_binding 12 2 pythagoras_binding pythagoras_setter nop pythagoras_start >>=
      fun r => request_change 30 2 101 r.2).toOption.map (fun w => notified 2 w) =
        some [(some 29, 29), (some 101, 101)] := by
  refine ⟨?_, by decide!⟩
  have hs : Sound pythagoras_start :=
    (((Sound.init (0 : Int)).property_new 20).property_new 21).property_new 0
  have hq : Callable.quiet (nop : Callable Int) := fun _ _ => rfl
  obtain ⟨w', vs', hset, hval, hnot, hb, hidle, hlen, hvals, howner, hlists⟩ :=
    (binder_notifier_once pythagoras_start 2 [] pythagoras_binding pythagoras_setter nop hq).1
      hs ⟨by decide, by decide, by decide, by decide⟩ (by simp)
      (fun p hp => by
        have hp' : p = 0 ∨ p = 1 := by simpa [pythagoras_binding, Expr.reads] using hp
        rcases hp' with rfl | rfl
        · exact ⟨0, by decide, by decide⟩
        · exact ⟨1, by decide, by decide⟩)
      (fun old st h => by simp [pythagoras_start, property_new, World.init] at h) 15
      (by decide)
  have hnow : pythagoras_binding.now pythagoras_start = 29 := by decide
  rw [hnow] at hval hnot
  have hnot' : notified 2 w' = [(some 29, 29)] := by
    rw [hnot]; decide
  obtain ⟨vp, hlp, hplain, hclass, hsub, hlenp⟩ := hlists 1 []
    (by simp [pythagoras_binding, Expr.reads]) ⟨by decide, by decide, by decide, by decide⟩
    (by simp) (by simp [pythagoras_start, property_new, World.init, Func.plain])
  have hv1 : (w'.heap 1).val = 21 := by
    rw [hvals 1 (by decide) (by decide)]; decide
  have hv0 : (w'.heap 0).val = 20 := by
    rw [hvals 0 (by decide) (by decide)]; decide
  have ho0 : (w'.heap 0).owner = some 0 := by
    rw [howner 0 (by decide)]; decide
  have hreads : (pythagoras_binding : Expr Int).reads.length = 2 := by decide
  rw [hreads] at hlen hlenp
  simp only [List.length_nil] at hlen hlenp
  obtain ⟨w'', hassign, hpv, hbv, hnot'', hout⟩ :=
    (binder_notifier_once w' 2 vs' pythagoras_binding pythagoras_setter nop hq).2 hb hidle 1 vp
      99 hlp (by decide) hplain hclass hsub (by rw [hv1]; decide) 40 (by omega)
  have h0p : (0 : Addr) ∉ 1 :: vp := by
    intro h
    have := hlp.owner 0 h
    rw [ho0] at this
    exact absurd (Option.some.inj this) (by decide)
  have h0b : (0 : Addr) ∉ 2 :: vs' := by
    intro h
    have := hb.list.owner 0 h
    rw [ho0] at this
    exact absurd (Option.some.inj this) (by decide)
  have hnow'' : pythagoras_binding.now w'' = 101 := by
    simp only [pythagoras_binding, Expr.now]
    rw [hout 0 h0p h0b, hv0, hpv]
    decide
  rw [hnow'', hval, hnot'] at hnot''
  exact ⟨(true, w'), w'', hset, hnot', hassign, by rw [hnot'']; decide⟩

/-! ## C13: two layers of bindings -/

theorem Layers.keep {w w' : World Int} (h : Layers w) (hf : ValFrame w w') : Layers w' := by
  obtain ⟨st0, h01, h02⟩ := h.st0
  obtain ⟨st1, h11, h12⟩ := h.st1
  obtain ⟨d1, hd1, hd2⟩ := h.sub_b1
  refine ⟨h.sound.of_links hf.owner hf.next hf.prev (Nat.le_of_eq hf.size.symm),
    by rw [hf.binding, h.idle], fun p hp => by rw [hf.owner, hf.func]; exact h.src p hp,
    by rw [hf.owner, hf.func]; exact h.b1, by rw [hf.owner, hf.func]; exact h.b2,
    ⟨st0, by rw [hf.states, h01], by rw [hf.owner, h02]⟩,
    ⟨st1, by rw [hf.states, h11], by rw [hf.owner, h12]⟩,
    fun a p hp ha hap => by rw [hf.func]; exact h.cls_src a p hp (by rw [← hf.owner]; exact ha) hap,
    fun a ha ha3 => by rw [hf.func]; exact h.cls_b1 a (by rw [← hf.owner]; exact ha) ha3,
    fun a ha ha4 => by rw [hf.func]; exact h.cls_b2 a (by rw [← hf.owner]; exact ha) ha4,
    fun p hp => by
      obtain ⟨d, hd, hdp⟩ := h.sub_src p hp
      exact ⟨d, by rw [hf.owner, hd], hdp⟩,
    ⟨d1, by rw [hf.owner, hd1], by rw [hf.func, hd2]⟩, by rw [hf.size]; exact h.size⟩

/-- A list of a sound state is shorter than the number of objects. -/
theorem Sound.length_lt {w : World T} (hs : Sound w) {o : Addr} {vs : List Addr}
    (hl : IsList w o vs) : vs.length < w.size := by
  have hsubset : o :: vs ⊆ List.range w.size := by
    intro a ha
    rw [List.mem_range]
    exact hs.bound a o (hl.owner a ha)
  have := (List.subperm_of_subset hl.nodup hsubset).length_le
  simp only [List.length_cons, List.length_range] at this
  omega

/-- The second layer of the test as a bound property. -/
theorem Layers.second {w : World Int} (h : Layers w) :
    ∃ vs2, Bound w 4 vs2 layer_two nop nop ∧ vs2.length < 14 := by
  obtain ⟨vs2, hl, _⟩ := h.sound.listed 4 4 h.b2.1
  obtain ⟨st1, h11, h12⟩ := h.st1
  refine ⟨vs2, ⟨hl, ?_, h.b2.2, fun _ _ => rfl, Or.inl h.idle, ?_, ?_⟩,
    Nat.lt_of_lt_of_le (h.sound.length_lt hl) h.size⟩
  · intro a ha
    have hao := hl.owner a (List.mem_cons_of_mem _ ha)
    have ha4 : a ≠ 4 := fun e => (List.nodup_cons.mp hl.nodup).1 (e ▸ ha)
    rcases h.cls_b2 a hao ha4 with hf | hf
    · exact Or.inl hf
    · exact Or.inr (Or.inr ⟨1, st1, hf, h11, h12⟩)
  · intro p hp hm
    have hp3 : p = 3 := by simpa [layer_two, Expr.reads] using hp
    subst hp3
    have := hl.owner 3 hm
    rw [h.b1.1] at this
    exact absurd (Option.some.inj this) (by decide)
  · intro p hp
    have hp3 : p = 3 := by simpa [layer_two, Expr.reads] using hp
    subst hp3
    exact ⟨3, h.b1.1⟩

theorem layer_one_now (w : World Int) :
    layer_one.now w = (w.heap 0).val + (w.heap 1).val + (w.heap 2).val := rfl

theorem layer_two_now (w : World Int) :
    layer_two.now w = (w.heap 3).val + (w.heap 3).val := rfl

/-- A recomputation of the first layer: `bound_prop` receives the sum of the
sources, and `bound_prop2` follows through the subscription in the list of
`bound_prop`. -/
theorem Layers.first_update {w : World Int} (h : Layers w)
    (h2 : (w.heap 4).val = (w.heap 3).val + (w.heap 3).val) (n : Nat) (hn : 50 ≤ n) :
    ∃ w', update n 3 w = .ok w' ∧ ValFrame w w' ∧
      (w'.heap 3).val = (w.heap 0).val + (w.heap 1).val + (w.heap 2).val ∧
      (w'.heap 4).val = (w'.heap 3).val + (w'.heap 3).val ∧
      (∀ a, a < 3 → (w'.heap a).val = (w.heap a).val) := by
  obtain ⟨m, rfl⟩ : ∃ m, n = m + 5 := ⟨n - 5, by omega⟩
  have hq : Callable.quiet (nop : Callable Int) := fun _ _ => rfl
  rw [update_binder (m + 3) 3 w h.b1.2 (Or.inl h.idle), layer_one_now]
  by_cases hv : (w.heap 3).val = (w.heap 0).val + (w.heap 1).val + (w.heap 2).val
  · refine ⟨w.record .compute 3 none, ?_, ValFrame.record _ _ _ _, hv, h2, fun _ _ => rfl⟩
    rw [← hv]
    exact set_directly_gate (m + 2) 3 (w.record .compute 3 none)
  · obtain ⟨vs1, hl, _⟩ := h.sound.listed 3 3 h.b1.1
    have hlen : vs1.length < 14 := Nat.lt_of_lt_of_le (h.sound.length_lt hl) h.size
    have hfr0 : ValFrame w ((w.record .compute 3 none).setVal 3
        ((w.heap 0).val + (w.heap 1).val + (w.heap 2).val)) :=
      (ValFrame.record _ _ _ _).trans (ValFrame.setVal _ _ _)
    have hL0 := h.keep hfr0
    have hcls : ∀ c ∈ (3 : Addr) :: vs1, (c = 3 ∧ ∃ e s nf, (w.heap c).func =
          .property_binder e s nf) ∨ (w.heap c).func = .empty ∨
        (w.heap c).func = .dependency 0 ∨ (w.heap c).func = .dependency 1 := by
      intro c hc
      by_cases hc3 : c = 3
      · subst hc3
        exact Or.inl ⟨rfl, _, _, _, h.b1.2⟩
      · exact Or.inr (h.cls_b1 c (hl.owner c hc) hc3)
    -- the silent loop changes nothing
    have key0 := pass_steps .initial_notification (.slot 3)
      (fun r u => Linked w r ∧ (∀ a ∈ r, a ∈ (3 : Addr) :: vs1) ∧
        u = (w.record .compute 3 none).setVal 3
          ((w.heap 0).val + (w.heap 1).val + (w.heap 2).val)) 1
      (by
        intro c r u ⟨hlk, hin, hu⟩
        subst hu
        have hc := hin c (by simp)
        have hnext : ((((w.record .compute 3 none).setVal 3
            ((w.heap 0).val + (w.heap 1).val + (w.heap 2).val)).heap c).next) = r.head? := by
          rw [hfr0.next]; exact hlk.next_head
        refine ⟨_, ?_, hnext, hlk.tail, fun a ha => hin a (List.mem_cons_of_mem _ ha), rfl⟩
        rcases hcls c hc with ⟨_, e, s, nf, hf⟩ | hf | hf | hf
        · rw [if_pos (by rw [hfr0.func, hf]; rfl)]
          exact invoke_binder_initial 0 c _ _ (by rw [hfr0.func]; exact hf)
        · rw [if_neg (by rw [hfr0.func, hf]; simp [Func.nonempty])]
          rfl
        · rw [if_pos (by rw [hfr0.func, hf]; rfl)]
          exact invoke_dependency_initial 0 c _ _ (by rw [hfr0.func]; exact hf)
        · rw [if_pos (by rw [hfr0.func, hf]; rfl)]
          exact invoke_dependency_initial 0 c _ _ (by rw [hfr0.func]; exact hf))
    obtain ⟨u1, hp1, _, _, hu1⟩ := key0 ((3 : Addr) :: vs1) _ (m + 1)
      ⟨hl.linked, fun a ha => ha, rfl⟩ (by simp only [List.length_cons]; omega)
    subst hu1
    -- the notifying loop
    obtain ⟨st0, h01, h02⟩ := h.st0
    obtain ⟨st1, h11, h12⟩ := h.st1
    have key1 := pass_steps .notification (.slot 3)
      (fun r u => Linked w r ∧ (∀ a ∈ r, a ∈ (3 : Addr) :: vs1) ∧ ValFrame w u ∧
        (u.heap 3).val = (w.heap 0).val + (w.heap 1).val + (w.heap 2).val ∧
        (∀ a, a < 3 → (u.heap a).val = (w.heap a).val) ∧
        ((u.heap 4).val = (u.heap 3).val + (u.heap 3).val ∨
          ∃ a ∈ r, (w.heap a).func = .dependency 1)) 27
      (by
        intro c r u ⟨hlk, hin, hf, hv3, hsrc, hst⟩
        have hc := hin c (by simp)
        have hnext : (u.heap c).next = r.head? := by rw [hf.next]; exact hlk.next_head
        have hin' : ∀ a ∈ r, a ∈ (3 : Addr) :: vs1 := fun a ha =>
          hin a (List.mem_cons_of_mem _ ha)
        have hLu := h.keep hf
        have hst' : ∀ u' : World Int, (u'.heap 4).val = (u.heap 4).val →
            (u'.heap 3).val = (u.heap 3).val → (w.heap c).func ≠ .dependency 1 →
            ((u'.heap 4).val = (u'.heap 3).val + (u'.heap 3).val ∨
              ∃ a ∈ r, (w.heap a).func = .dependency 1) := by
          intro u' e4 e3 hne
          rcases hst with hs | ⟨a, ha, haf⟩
          · exact Or.inl (by rw [e4, e3]; exact hs)
          · right
            simp only [List.mem_cons] at ha
            rcases ha with rfl | ha
            · exact absurd haf hne
            · exact ⟨a, ha, haf⟩
        rcases hcls c hc with ⟨hc3, _⟩ | hfc | hfc | hfc
        · -- the bound property itself: its notifier
          subst hc3
          refine ⟨u.record .notifier 3 (some (u.heap 3).val), ?_, hnext, hlk.tail, hin',
            hf.trans (ValFrame.record _ _ _ _), hv3, hsrc, ?_⟩
          · rw [if_pos (by rw [hLu.b1.2]; rfl)]
            exact invoke_mono (invoke_binder_notification 0 3 _ u hLu.b1.2 hq
              (Or.inl hLu.idle)) (by omega)
          · exact hst' _ rfl rfl (by rw [h.b1.2]; simp)
        · -- a node without handler
          refine ⟨u, ?_, hnext, hlk.tail, hin', hf, hv3, hsrc, ?_⟩
          · rw [if_neg (by rw [hf.func, hfc]; simp [Func.nonempty])]
            rfl
          · exact hst' _ rfl rfl (by rw [hfc]; simp)
        · -- a subscription of the first state: a recomputation of the same value
          refine ⟨u.record .compute 3 none, ?_, hnext, hlk.tail, hin',
            hf.trans (ValFrame.record _ _ _ _), hv3, hsrc, ?_⟩
          · rw [if_pos (by rw [hf.func, hfc]; rfl),
              invoke_dependency 26 c _ u (by rw [hf.func]; exact hfc)
                (by rw [hf.states]; exact h01) (by rw [hf.owner]; exact h02),
              update_binder 24 3 u hLu.b1.2 (Or.inl hLu.idle), layer_one_now,
              hsrc 0 (by decide), hsrc 1 (by decide), hsrc 2 (by decide), ← hv3]
            exact set_directly_gate 23 3 (u.record .compute 3 none)
          · exact hst' _ rfl rfl (by rw [hfc]; simp)
        · -- a subscription of the second state: the second layer is recomputed
          obtain ⟨vs2, hb2, hlen2⟩ := hLu.second
          obtain ⟨u', hu', hf', hv4, hout, _⟩ := update_spec u 4 vs2 layer_two nop nop hb2
            (Or.inl hLu.idle) 26 (by omega)
          have hnot4 : ∀ a, (u.heap a).owner ≠ some 4 → a ∉ (4 : Addr) :: vs2 :=
            fun a ha hm => ha (hb2.list.owner a hm)
          have h3' : (u'.heap 3).val = (u.heap 3).val :=
            hout 3 (hnot4 3 (by rw [hLu.b1.1]; simp))
          refine ⟨u', ?_, by rw [hf'.next]; exact hnext, hlk.tail, hin', hf.trans hf',
            by rw [h3']; exact hv3, ?_, Or.inl ?_⟩
          · rw [if_pos (by rw [hf.func, hfc]; rfl),
              invoke_dependency 26 c _ u (by rw [hf.func]; exact hfc)
                (by rw [hf.states]; exact h11) (by rw [hf.owner]; exact h12)]
            exact hu'
          · intro a ha
            rw [hout a (hnot4 a (by
              rw [(hLu.src a ha).1]
              intro e
              have e4 : a = 4 := Option.some.inj e
              rw [e4] at ha
              exact absurd ha (by decide)))]
            exact hsrc a ha
          · rw [hv4, layer_two_now, h3'])
    obtain ⟨d, hd1, hd2⟩ := h.sub_b1
    obtain ⟨u2, hp2, _, _, hf2, hv3, hsrc, hst⟩ := key1 ((3 : Addr) :: vs1) _ (m + 1)
      ⟨hl.linked, fun a ha => ha, hfr0, by simp, fun a ha => by
        have : a ≠ 3 := Nat.ne_of_lt ha
        simp [this], Or.inr ⟨d, h.sound.mem_list hl hd1, hd2⟩⟩
      (by simp only [List.length_cons]; omega)
    refine ⟨u2, ?_, hf2, hv3, ?_, hsrc⟩
    · rw [set_directly_succ, if_pos (by simpa using hv), notify_all_succ]
      have hp1' : pass (m + 1) .initial_notification (.slot 3) (some 3)
          ((w.record .compute 3 none).setVal 3
            ((w.heap 0).val + (w.heap 1).val + (w.heap 2).val)) = .ok _ := hp1
      rw [hp1', ok_bind]
      exact hp2
    · rcases hst with hs | ⟨a, ha, _⟩
      · exact hs
      · cases ha

/-- A write to one of the three sources of a settled two-layer world: the
write returns, the source holds the new value, the other sources keep theirs,
and both layers hold the values of their computeFns over the final state. -/
theorem Layers.write {w : World Int} (h : Layers w)
    (h2 : (w.heap 4).val = (w.heap 3).val + (w.heap 3).val)
    (h1 : (w.heap 3).val = (w.heap 0).val + (w.heap 1).val + (w.heap 2).val)
    (p : Addr) (hp : p < 3) (x : Int) (n : Nat) (hn : 100 ≤ n) :
    ∃ w', assign n p x w = .ok w' ∧ ValFrame w w' ∧ (w'.heap p).val = x ∧
      (∀ a, a < 3 → a ≠ p → (w'.heap a).val = (w.heap a).val) ∧
      (w'.heap 4).val = (w'.heap 3).val + (w'.heap 3).val ∧
      (w'.heap 3).val = (w'.heap 0).val + (w'.heap 1).val + (w'.heap 2).val := by
  obtain ⟨m, rfl⟩ : ∃ m, n = m + 4 := ⟨n - 4, by omega⟩
  have hpo : (w.heap p).owner = some p := (h.src p hp).1
  have hpf : (w.heap p).func = .default_setter := (h.src p hp).2
  have hio : is_owner w p = true := by simp [is_owner, hpo]
  by_cases hx : (w.heap p).val = x
  · refine ⟨w, ?_, ValFrame.refl w, hx, fun _ _ _ => rfl, h2, h1⟩
    rw [assign_succ, hio, if_pos rfl, ← hx]
    exact set_directly_gate (m + 2) p w
  obtain ⟨vp, hlp, _⟩ := h.sound.listed p p hpo
  have hlen : vp.length < 14 := Nat.lt_of_lt_of_le (h.sound.length_lt hlp) h.size
  have hp3 : p ≠ 3 := Nat.ne_of_lt hp
  have hp4 : p ≠ 4 := Nat.ne_of_lt (Nat.lt_trans hp (by decide))
  have hcls : ∀ a ∈ p :: vp, a = p ∨ (w.heap a).func = .dependency 0 := by
    intro a ha
    by_cases hap : a = p
    · exact Or.inl hap
    · exact Or.inr (h.cls_src a p hp (hlp.owner a ha) hap)
  have hfr0 : ValFrame w (w.setVal p x) := ValFrame.setVal w p x
  -- the silent loop
  have key0 := pass_steps .initial_notification (.slot p)
    (fun r u => Linked w r ∧ (∀ a ∈ r, a ∈ p :: vp) ∧ ValFrame w u ∧
      (∀ a, (u.heap a).val = ((w.setVal p x).heap a).val)) 3
    (by
      intro c r u ⟨hlk, hin, hf, hv⟩
      have hc := hin c (by simp)
      have hnext : (u.heap c).next = r.head? := by rw [hf.next]; exact hlk.next_head
      have hin' : ∀ a ∈ r, a ∈ p :: vp := fun a ha => hin a (List.mem_cons_of_mem _ ha)
      have hpv : (u.heap p).val = x := by rw [hv p]; simp
      rcases hcls c hc with hcp | hfc
      · subst hcp
        obtain ⟨u', hu', hf', hout, hval, _⟩ := step_spec u c c x .initial_notification 0
          (by rw [hf.owner]; exact hpo) hpv
          (Or.inr ⟨rfl, by rw [hf.func, hpf]; simp [Func.plain]⟩) (Or.inl rfl)
        refine ⟨u', hu', by rw [hf'.next]; exact hnext, hlk.tail, hin', hf.trans hf', ?_⟩
        intro a
        by_cases hac : a = c
        · subst hac
          rcases hval with e | ⟨e, _⟩
          · rw [e]; simp
          · cases e
        · rw [hout a hac]; exact hv a
      · refine ⟨u, ?_, hnext, hlk.tail, hin', hf, hv⟩
        rw [if_pos (by rw [hf.func, hfc]; rfl)]
        exact invoke_dependency_initial 2 c _ u (by rw [hf.func]; exact hfc))
  obtain ⟨u1, hp1, _, _, hf1, hv1⟩ := key0 (p :: vp) (w.setVal p x) (m + 1)
    ⟨hlp.linked, fun a ha => ha, hfr0, fun _ => rfl⟩
    (by simp only [List.length_cons]; omega)
  have hv1p : (u1.heap p).val = x := by rw [hv1 p]; simp
  have hv1o : ∀ a, a ≠ p → (u1.heap a).val = (w.heap a).val := by
    intro a ha
    rw [hv1 a]; simp [ha]
  obtain ⟨st0, h01, h02⟩ := h.st0
  -- the notifying loop
  have key1 := pass_steps .notification (.slot p)
    (fun r u => Linked w r ∧ (∀ a ∈ r, a ∈ p :: vp) ∧ ValFrame w u ∧
      (u.heap p).val = x ∧ (∀ a, a < 3 → a ≠ p → (u.heap a).val = (w.heap a).val) ∧
      (u.heap 4).val = (u.heap 3).val + (u.heap 3).val ∧
      ((u.heap 3).val = (u.heap 0).val + (u.heap 1).val + (u.heap 2).val ∨
        ∃ a ∈ r, a ≠ p)) 53
    (by
      intro c r u ⟨hlk, hin, hf, hpv, hsrc, hu2, hst⟩
      have hc := hin c (by simp)
      have hnext : (u.heap c).next = r.head? := by rw [hf.next]; exact hlk.next_head
      have hin' : ∀ a ∈ r, a ∈ p :: vp := fun a ha => hin a (List.mem_cons_of_mem _ ha)
      rcases hcls c hc with hcp | hfc
      · subst hcp
        obtain ⟨u', hu', hf', hout, hval, _⟩ := step_spec u c c x .notification 50
          (by rw [hf.owner]; exact hpo) hpv
          (Or.inr ⟨rfl, by rw [hf.func, hpf]; simp [Func.plain]⟩) (Or.inr rfl)
        have hsame : ∀ a, (u'.heap a).val = (u.heap a).val := by
          intro a
          by_cases hac : a = c
          · subst hac
            rcases hval with e | ⟨_, e⟩
            · rw [e, hpv]
            · exact e
          · exact hout a hac
        refine ⟨u', hu', by rw [hf'.next]; exact hnext, hlk.tail, hin', hf.trans hf',
          by rw [hsame]; exact hpv, fun a ha hac => by rw [hsame]; exact hsrc a ha hac,
          by rw [hsame, hsame]; exact hu2, ?_⟩
        rcases hst with hs | ⟨a, ha, hac⟩
        · left
          rw [hsame, hsame, hsame, hsame]; exact hs
        · right
          simp only [List.mem_cons] at ha
          rcases ha with rfl | ha
          · exact absurd rfl hac
          · exact ⟨a, ha, hac⟩
      · obtain ⟨u', hu', hf', hv3, hv4, hout⟩ := (h.keep hf).first_update hu2 52 (by omega)
        refine ⟨u', ?_, by rw [hf'.next]; exact hnext, hlk.tail, hin', hf.trans hf',
          by rw [hout p hp]; exact hpv, fun a ha hac => by rw [hout a ha]; exact hsrc a ha hac,
          hv4, Or.inl ?_⟩
        · rw [if_pos (by rw [hf.func, hfc]; rfl),
            invoke_dependency 52 c _ u (by rw [hf.func]; exact hfc)
              (by rw [hf.states]; exact h01) (by rw [hf.owner]; exact h02)]
          exact hu'
        · rw [hv3, hout 0 (by decide), hout 1 (by decide), hout 2 (by decide)])
  obtain ⟨d, hd1, hd2⟩ := h.sub_src p hp
  have hdm : d ∈ vp := by
    have := h.sound.mem_list hlp hd1
    simp only [List.mem_cons] at this
    rcases this with e | e
    · exact absurd e hd2
    · exact e
  obtain ⟨u2, hp2, _, _, hf2, hpv2, hsrc2, hu24, hst2⟩ := key1 (p :: vp) u1 (m + 1)
    ⟨hlp.linked, fun a ha => ha, hf1, hv1p, fun a _ hac => hv1o a hac, by
      rw [hv1o 4 (Ne.symm hp4), hv1o 3 (Ne.symm hp3)]; exact h2,
      Or.inr ⟨d, List.mem_cons_of_mem _ hdm, hd2⟩⟩
    (by simp only [List.length_cons]; omega)
  refine ⟨u2, ?_, hf2, hpv2, hsrc2, hu24, ?_⟩
  · rw [assign_succ, hio, if_pos rfl, set_directly_succ, if_pos hx, notify_all_succ]
    have hp1' : pass (m + 1) .initial_notification (.slot p) (some p) (w.setVal p x) =
        .ok u1 := hp1
    rw [hp1', ok_bind]
    exact hp2
  · rcases hst2 with hs | ⟨a, ha, _⟩
    · exact hs
    · cases ha

theorem layers_start_size (a1 a2 a3 a4 a5 : Int) : (layers_start a1 a2 a3 a4 a5).size = 5 := rfl

theorem layers_start_node (a1 a2 a3 a4 a5 : Int) (a : Addr) (ha : a < 5) :
    ((layers_start a1 a2 a3 a4 a5).heap a).owner = some a ∧
      ((layers_start a1 a2 a3 a4 a5).heap a).func = .default_setter ∧
      ((layers_start a1 a2 a3 a4 a5).heap a).next = none ∧
      ((layers_start a1 a2 a3 a4 a5).heap a).prev = none := by
  have h5 : ∀ k : Nat, k < 5 → k = 0 ∨ k = 1 ∨ k = 2 ∨ k = 3 ∨ k = 4 := by
    intro k hk; omega
  have h := h5 a ha
  rcases h with rfl | rfl | rfl | rfl | rfl <;> exact ⟨rfl, rfl, rfl, rfl⟩

theorem layers_start_sound (a1 a2 a3 a4 a5 : Int) : Sound (layers_start a1 a2 a3 a4 a5) :=
  ((((Sound.init 0).property_new a1).property_new a2).property_new a3).property_new a4
    |>.property_new a5

theorem layers_start_list (a1 a2 a3 a4 a5 : Int) (a : Addr) (ha : a < 5) :
    IsList (layers_start a1 a2 a3 a4 a5) a [] := by
  obtain ⟨h1, _, h3, h4⟩ := layers_start_node a1 a2 a3 a4 a5 a ha
  exact ⟨by simp, h3, h4, fun x hx => by simp at hx; subst hx; exact h1⟩

/-- The two bindings of the two-layer setting, installed one after the other
on five fresh properties: both calls return `true`, the result is a two-layer
world, the sources keep their values and both layers hold the values of their
computeFns. -/
theorem layers_installed (a1 a2 a3 a4 a5 : Int) (n1 n2 : Nat) (hn1 : 15 ≤ n1) (hn2 : 15 ≤ n2) :
    ∃ w1 w2, set_binding n1 3 layer_one nop nop (layers_start a1 a2 a3 a4 a5) = .ok (true, w1) ∧
      set_binding n2 4 layer_two nop nop w1 = .ok (true, w2) ∧ Layers w2 ∧
      (w2.heap 0).val = a1 ∧ (w2.heap 1).val = a2 ∧ (w2.heap 2).val = a3 ∧
      (w2.heap 3).val = a1 + a2 + a3 ∧ (w2.heap 4).val = (w2.heap 3).val + (w2.heap 3).val := by
  have hs0 := layers_start_sound a1 a2 a3 a4 a5
  have hnode := layers_start_node a1 a2 a3 a4 a5
  have hqn : Callable.quiet (nop : Callable Int) := fun _ _ => rfl
  have hlt3 : ∀ k : Nat, k < 3 → k = 0 ∨ k = 1 ∨ k = 2 := by intro k hk; omega
  have h35 : ∀ k : Nat, k < 3 → k < 5 := by intro k hk; omega
  have hmem1 : ∀ p : Addr, p ∈ layer_one.reads → p < 3 := by
    intro p hp
    have hp' : p ∈ [(0 : Addr), 1, 2] := hp
    simp only [List.mem_cons, List.mem_singleton, List.not_mem_nil, or_false] at hp'
    rcases hp' with rfl | rfl | rfl <;> decide
  have hmem2 : ∀ p : Addr, p ∈ layer_two.reads → p = 3 := by
    intro p hp
    have hp' : p ∈ [(3 : Addr), 3] := hp
    simp only [List.mem_cons, List.mem_singleton, List.not_mem_nil, or_false] at hp'
    rcases hp' with rfl | rfl <;> rfl
  -- the first binding
  obtain ⟨w1, _, hb1, I1, _⟩ := set_binding_spec (layers_start a1 a2 a3 a4 a5) 3 [] layer_one
    nop nop hs0 (layers_start_list a1 a2 a3 a4 a5 3 (by decide)) (fun a ha => by cases ha)
    (fun p hp => ⟨p, (hnode p (h35 p (hmem1 p hp))).1, Nat.ne_of_lt (hmem1 p hp)⟩)
    hqn (fun old st h => absurd (show (none : Option Nat) = some old from h) (by simp))
    n1 (by simpa using hn1)
  have hz1 : 5 ≤ w1.size := I1.size
  have hz1' : w1.size ≤ 10 := I1.size_le
  have hlen1 : w1.states.length = 1 := I1.length
  have hown1 : ∀ a : Addr, a < 5 → (w1.heap a).owner = some a := fun a ha => by
    rw [I1.owner a ha]; exact (hnode a ha).1
  have hfun1 : ∀ a : Addr, a < 5 → a ≠ 3 → (w1.heap a).func = .default_setter :=
    fun a ha h3 => by rw [I1.func a ha h3]; exact (hnode a ha).2.1
  have hfresh1 : ∀ a : Addr, 5 ≤ a → a < w1.size →
      ((w1.heap a).owner = some 3 ∧
        ((w1.heap a).func = .empty ∨ (w1.heap a).func = .dependency 0)) ∨
      ((w1.heap a).func = .dependency 0 ∧ ∃ p : Addr, p < 3 ∧ (w1.heap a).owner = some p) := by
    intro a h5 hlt
    rcases I1.fresh a h5 hlt with h | ⟨h, p, hp, hpo⟩
    · exact Or.inl h
    · exact Or.inr ⟨h, p, hmem1 p hp, by rw [hpo]; exact (hnode p (h35 p (hmem1 p hp))).1⟩
  obtain ⟨st0, hst0, hst0o, hst0d⟩ := I1.state
  have hst0' : w1.states.get? 0 = some st0 := hst0
  -- the second binding
  obtain ⟨vs4, hl4, _⟩ := I1.sound.listed 4 4 (hown1 4 (by decide))
  have hnil : ∀ a, a ∉ vs4 := by
    intro a ha
    have hao := hl4.owner a (List.mem_cons_of_mem _ ha)
    have ha4 : a ≠ 4 := fun h => (List.nodup_cons.mp hl4.nodup).1 (h ▸ ha)
    by_cases h5 : a < 5
    · rw [hown1 a h5] at hao
      exact ha4 (Option.some.inj hao)
    · rcases hfresh1 a (Nat.le_of_not_lt h5) (I1.sound.bound a 4 hao) with ⟨h, _⟩ | ⟨_, p, hp, h⟩
      · rw [hao] at h
        exact absurd (Option.some.inj h) (by decide)
      · rw [hao] at h
        have e := Option.some.inj h
        rw [← e] at hp
        exact absurd hp (by decide)
  have hvs4 : vs4 = [] := List.eq_nil_iff_forall_not_mem.mpr hnil
  subst hvs4
  obtain ⟨w2, _, hb2, I2, _⟩ := set_binding_spec w1 4 [] layer_two nop nop I1.sound hl4
    (fun a ha => by cases ha)
    (fun p hp => ⟨3, by rw [hmem2 p hp]; exact hown1 3 (by decide), by decide⟩)
    hqn
    (fun old st h hst => by
      rw [I1.current] at h
      have e := Option.some.inj h
      rw [← e, hst0] at hst
      rw [← Option.some.inj hst]
      exact hst0d (by simp [layer_one, Expr.reads]))
    n2 (by simpa using hn2)
  have hz2 : w1.size ≤ w2.size := I2.size
  have hz2' : w2.size ≤ 14 := by
    have h := I2.size_le
    have hr : layer_two.reads.length = 2 := rfl
    rw [hr] at h
    omega
  have hlt1 : ∀ a : Addr, a < 5 → a < w1.size := fun a ha => Nat.lt_of_lt_of_le ha hz1
  have hown2 : ∀ a : Addr, a < 5 → (w2.heap a).owner = some a := fun a ha => by
    rw [I2.owner a (hlt1 a ha)]; exact hown1 a ha
  obtain ⟨st1, hst1, hst1o, _⟩ := I2.state
  have hst1' : w2.states.get? 1 = some st1 := by rw [← hlen1]; exact hst1
  have hfresh2 : ∀ a : Addr, w1.size ≤ a → a < w2.size →
      ((w2.heap a).owner = some 4 ∧
        ((w2.heap a).func = .empty ∨ (w2.heap a).func = .dependency 1)) ∨
      ((w2.heap a).func = .dependency 1 ∧ (w2.heap a).owner = some 3) := by
    intro a h5 hlt
    rcases I2.fresh a h5 hlt with h | ⟨h, p, hp, hpo⟩
    · rw [hlen1] at h
      exact Or.inl h
    · rw [hlen1] at h
      exact Or.inr ⟨h, by rw [hpo, hmem2 p hp]; exact hown1 3 (by decide)⟩
  -- the classes of the nodes of the final state
  have hcls : ∀ a o, (w2.heap a).owner = some o → a ≠ o →
      (o < 3 ∧ (w2.heap a).func = .dependency 0) ∨
      (o = 3 ∧ ((w2.heap a).func = .empty ∨ (w2.heap a).func = .dependency 0 ∨
        (w2.heap a).func = .dependency 1)) ∨
      (o = 4 ∧ ((w2.heap a).func = .empty ∨ (w2.heap a).func = .dependency 1)) := by
    intro a o hao hne
    by_cases h5 : a < 5
    · rw [hown2 a h5] at hao
      exact absurd (Option.some.inj hao) hne
    by_cases h1 : a < w1.size
    · have hf : (w2.heap a).func = (w1.heap a).func :=
        I2.func a h1 (fun e => h5 (by rw [e]; decide))
      rw [I2.owner a h1] at hao
      rcases hfresh1 a (Nat.le_of_not_lt h5) h1 with ⟨h, hc⟩ | ⟨hc, p, hp, h⟩
      · rw [hao] at h
        right; left
        refine ⟨Option.some.inj h, ?_⟩
        rw [hf]
        rcases hc with hc | hc
        · exact Or.inl hc
        · exact Or.inr (Or.inl hc)
      · rw [hao] at h
        left
        rw [Option.some.inj h, hf]
        exact ⟨hp, hc⟩
    · rcases hfresh2 a (Nat.le_of_not_lt h1) (I2.sound.bound a o hao) with ⟨h, hc⟩ | ⟨hc, h⟩
      · rw [hao] at h
        right; right
        exact ⟨Option.some.inj h, hc⟩
      · rw [hao] at h
        right; left
        exact ⟨Option.some.inj h, Or.inr (Or.inr hc)⟩
  have hL : Layers w2 := by
    refine ⟨I2.sound, I2.idle, ?_, ?_, ?_, ?_, ⟨st1, hst1', hst1o⟩, ?_, ?_, ?_, ?_, ?_, hz2'⟩
    · intro p hp
      refine ⟨hown2 p (h35 p hp), ?_⟩
      rw [I2.func p (hlt1 p (h35 p hp)) (Nat.ne_of_lt (Nat.lt_trans hp (by decide)))]
      exact hfun1 p (h35 p hp) (Nat.ne_of_lt hp)
    · refine ⟨hown2 3 (by decide), ?_⟩
      rw [I2.func 3 (hlt1 3 (by decide)) (by decide)]
      exact I1.binder
    · exact ⟨hown2 4 (by decide), I2.binder⟩
    · refine ⟨st0, ?_, ?_⟩
      · rw [← hst0']
        exact I2.others 0 (by rw [hlen1]; decide)
      · rw [I2.owner st0.prop (I1.sound.bound _ 3 hst0o)]
        exact hst0o
    · intro a p hp hao hne
      rcases hcls a p hao hne with ⟨_, h⟩ | ⟨e, _⟩ | ⟨e, _⟩
      · exact h
      · rw [e] at hp; exact absurd hp (by decide)
      · rw [e] at hp; exact absurd hp (by decide)
    · intro a hao hne
      rcases hcls a 3 hao hne with ⟨e, _⟩ | ⟨_, h⟩ | ⟨e, _⟩
      · exact absurd e (by decide)
      · exact h
      · exact absurd e (by decide)
    · intro a hao hne
      rcases hcls a 4 hao hne with ⟨e, _⟩ | ⟨e, _⟩ | ⟨_, h⟩
      · exact absurd e (by decide)
      · exact absurd e (by decide)
      · exact h
    · intro p hp
      obtain ⟨d, hd1, hd2, hd3, _⟩ := I1.subscribed p (by
        rcases hlt3 p hp with rfl | rfl | rfl <;> simp [layer_one, Expr.reads])
      refine ⟨d, ?_, fun e => ?_⟩
      · rw [I2.owner d hd2, hd3]
        exact (hnode p (h35 p hp)).1
      · rw [e] at hd1
        exact absurd (Nat.lt_of_lt_of_le (h35 p hp) hd1) (Nat.lt_irrefl _)
    · obtain ⟨d, _, _, hd3, hd4⟩ := I2.subscribed 3 (by simp [layer_two, Expr.reads])
      refine ⟨d, ?_, ?_⟩
      · rw [hd3]; exact hown1 3 (by decide)
      · rw [hd4, hlen1]
  have hout2 : ∀ a : Addr, a < 4 → (w2.heap a).val = (w1.heap a).val := fun a ha =>
    I2.vals a (hlt1 a (Nat.lt_trans ha (by decide))) (by
      simp only [List.mem_cons, List.not_mem_nil, or_false]
      exact Nat.ne_of_lt ha)
  have hout1 : ∀ a : Addr, a < 3 → (w1.heap a).val = ((layers_start a1 a2 a3 a4 a5).heap a).val :=
    fun a ha => I1.vals a (h35 a ha) (by
      simp only [List.mem_cons, List.not_mem_nil, or_false]
      exact Nat.ne_of_lt ha)
  have hv3 : (w1.heap 3).val = a1 + a2 + a3 := I1.value
  refine ⟨w1, w2, hb1, hb2, hL, ?_, ?_, ?_, ?_, ?_⟩
  · rw [hout2 0 (by decide), hout1 0 (by decide)]; rfl
  · rw [hout2 1 (by decide), hout1 1 (by decide)]; rfl
  · rw [hout2 2 (by decide), hout1 2 (by decide)]; rfl
  · rw [hout2 3 (by decide)]; exact hv3
  · rw [I2.value, hout2 3 (by decide)]; rfl

/-- A sequence of writes to the three sources of a settled two-layer world:
every write returns, the sources hold the values written last, and both
layers hold the values of their computeFns over the final state. -/
theorem Layers.writes_spec (ws : List (Addr × Int)) (fuel : Nat) (hfuel : 100 ≤ fuel) :
    ∀ w : World Int, Layers w → (w.heap 4).val = (w.heap 3).val + (w.heap 3).val →
      (w.heap 3).val = (w.heap 0).val + (w.heap 1).val + (w.heap 2).val →
      (∀ q ∈ ws, q.1 < 3) →
      ∃ w', writes fuel ws w = .ok w' ∧ Layers w' ∧
        (w'.heap 4).val = (w'.heap 3).val + (w'.heap 3).val ∧
        (w'.heap 3).val = (w'.heap 0).val + (w'.heap 1).val + (w'.heap 2).val ∧
        ∀ p : Addr, p < 3 → (w'.heap p).val = written p (w.heap p).val ws := by
  induction ws with
  | nil =>
    intro w h h2 h1 _
    exact ⟨w, rfl, h, h2, h1, fun _ _ => rfl⟩
  | cons q rest ih =>
    intro w h h2 h1 hws
    obtain ⟨p, x⟩ := q
    have hp : p < 3 := hws (p, x) (by simp)
    obtain ⟨u, hu, hf, hpv, hsrc, hu2, hu1⟩ := h.write h2 h1 p hp x fuel hfuel
    obtain ⟨w', hw', hL', h2', h1', hvals⟩ := ih u (h.keep hf) hu2 hu1
      (fun q hq => hws q (List.mem_cons_of_mem _ hq))
    refine ⟨w', ?_, hL', h2', h1', ?_⟩
    · show (assign fuel p x w >>= writes fuel rest) = .ok w'
      rw [hu, ok_bind]
      exact hw'
    · intro a ha
      rw [hvals a ha]
      show written a (u.heap a).val rest = written a (if p = a then x else (w.heap a).val) rest
      by_cases hpa : p = a
      · rw [if_pos hpa, ← hpa, hpv]
      · rw [if_neg hpa, hsrc a ha (Ne.symm hpa)]

/-- C13. The setting of the test `BindingsMultiplePropsTwoLayers`, with five
fresh integer properties of arbitrary initial values: `set_binding` of
`prop1 + prop2 + prop3` on `bound_prop` and of `bound_prop + bound_prop` on
`bound_prop2` both return `true`; then every finite sequence of assignments
to the three sources runs to its end, each assignment returning; the sources
hold the values written last, `bound_prop` reads the sum of the values of
the three sources, and `bound_prop2` reads twice that.  As every prefix of a
sequence of assignments is one, this holds after each assignment. -/
theorem multi_layer_binding (a1 a2 a3 a4 a5 : Int) (ws : List (Addr × Int))
    (hws : ∀ q ∈ ws, q.1 < 3) (fuel : Nat) (hfuel : 100 ≤ fuel) :
    ∃ w1 w2 w' b1,
      set_binding fuel 3 layer_one nop nop (layers_start a1 a2 a3 a4 a5) = .ok (true, w1) ∧
      set_binding fuel 4 layer_two nop nop w1 = .ok (true, w2) ∧
      writes fuel ws w2 = .ok w' ∧
      (w'.heap 0).val = written 0 a1 ws ∧ (w'.heap 1).val = written 1 a2 ws ∧
      (w'.heap 2).val = written 2 a3 ws ∧
      b1 = (w'.heap 0).val + (w'.heap 1).val + (w'.heap 2).val ∧
      value 3 w' = .ok (b1, w') ∧ value 4 w' = .ok (b1 + b1, w') := by
  obtain ⟨w1, w2, hb1, hb2, hL, hv0, hv1, hv2, hv3, hv4⟩ :=
    layers_installed a1 a2 a3 a4 a5 fuel fuel (by omega) (by omega)
  obtain ⟨w', hw', hL', h2', h1', hvals⟩ := Layers.writes_spec ws fuel hfuel w2 hL hv4
    (by rw [hv3, hv0, hv1, hv2]) hws
  refine ⟨w1, w2, w', _, hb1, hb2, hw', ?_, ?_, ?_, rfl, ?_, ?_⟩
  · rw [hvals 0 (by decide), hv0]
  · rw [hvals 1 (by decide), hv1]
  · rw [hvals 2 (by decide), hv2]
  · rw [value_not_binding w' 3 hL'.idle, h1']
  · rw [value_not_binding w' 4 hL'.idle, h2', h1']

/-- The run of the test `BindingsMultiplePropsTwoLayers` with the values 123,
223 and 323: at its end `bound_prop` reads 669 and `bound_prop2` reads
1338. -/
theorem multi_layer_binding_witness :
    (∀ q ∈ [((0 : Addr), (123 : Int)), (1, 223), (2, 323)], q.1 < 3) ∧ 100 ≤ 100 ∧
    ∃ w1 w2 w',
      set_binding 100 3 layer_one nop nop (layers_start 0 0 0 0 0) = .ok (true, w1) ∧
      set_binding 100 4 layer_two nop nop w1 = .ok (true, w2) ∧
      writes 100 [(0, 123), (1, 223), (2, 323)] w2 = .ok w' ∧
      value 3 w' = .ok (669, w') ∧ value 4 w' = .ok (1338, w') := by
  refine ⟨by decide, by decide, ?_⟩
  obtain ⟨w1, w2, w', b1, hb1, hb2, hw', hv0, hv1, hv2, hb, h3, h4⟩ :=
    multi_layer_binding 0 0 0 0 0 [(0, 123), (1, 223), (2, 323)] (by decide) 100 (by decide)
  have e0 : written (0 : Addr) (0 : Int) [(0, 123), (1, 223), (2, 323)] = 123 := by decide
  have e1 : written (1 : Addr) (0 : Int) [(0, 123), (1, 223), (2, 323)] = 223 := by decide
  have e2 : written (2 : Addr) (0 : Int) [(0, 123), (1, 223), (2, 323)] = 323 := by decide
  rw [hv0, hv1, hv2, e0, e1, e2] at hb
  have hb' : b1 = 669 := by rw [hb]; decide
  rw [hb'] at h3 h4
  exact ⟨w1, w2, w', hb1, hb2, hw', h3, h4⟩

/-! ## C14: inverse binding -/

/-- In a sound state the successor of a node of a list is a node of the same list. -/
theorem Sound.next_owner {w : World T} (hs : Sound w) {c d o : Addr}
    (hc : (w.heap c).owner = some o) (hn : (w.heap c).next = some d) :
    (w.heap d).owner = some o := by
  obtain ⟨vs, hl, hm⟩ := hs.listed c o hc
  exact hl.owner d (List.mem_cons_of_mem _ (Linked.next_mem hl.linked hm hn))

theorem Sound.sound_frame {w w' : World T} (hs : Sound w) (hf : ValFrame w w') : Sound w' :=
  hs.of_links hf.owner hf.next hf.prev (Nat.le_of_eq hf.size.symm)

theorem Observing.observing_frame {w w' : World T} (h : Observing w) (hf : ValFrame w w') :
    Observing w' := fun a ha => by
  rw [hf.func]
  exact h a (by rw [← hf.size]; exact ha)

theorem setter_calls_append (w w' : World T) (es : List (Event T)) (h : w'.log = w.log ++ es) :
    setter_calls w' = setter_calls w ++ es.filterMap (fun ev =>
      if ev.callee = .setter then some (ev.node, ev.value) else none) := by
  simp [setter_calls, h, List.filterMap_append]

theorem setter_calls_setVal (w : World T) (a : Addr) (v : T) :
    setter_calls (w.setVal a v) = setter_calls w := by
  simp [setter_calls]

theorem setter_calls_record_notifier (w : World T) (a : Addr) (v : Option T) :
    setter_calls (w.record .notifier a v) = setter_calls w := by
  rw [setter_calls_append w _ [_] rfl]
  simp

theorem setter_calls_record_compute (w : World T) (a : Addr) (v : Option T) :
    setter_calls (w.record .compute a v) = setter_calls w := by
  rw [setter_calls_append w _ [_] rfl]
  simp

theorem setter_calls_record_setter (w : World T) (a : Addr) (v : Option T) :
    setter_calls (w.record .setter a v) = setter_calls w ++ [(a, v)] := by
  rw [setter_calls_append w _ [_] rfl]
  simp

theorem run_nil_ok {n : Nat} {w w' : World T} (h : run n [] w = .ok w') : w' = w := by
  cases n with
  | zero => rw [run] at h; cases h
  | succ k => rw [run_nil] at h; cases h; rfl

/-- In a sound idle state whose notifiers only observe, a notification, a
recomputation or a direct write invokes no setter callable. -/
theorem no_setter_all : ∀ n : Nat,
    (∀ this value type (w w' : World T) o, Sound w → Observing w →
      w.is_currently_binding = false → (w.heap this).owner = some o →
      type ≠ .setter → type ≠ .initial_binding →
      invoke n this value type w = .ok w' → setter_calls w' = setter_calls w) ∧
    (∀ this (w w' : World T) o, Sound w → Observing w →
      w.is_currently_binding = false → (w.heap this).owner = some o →
      update n this w = .ok w' → setter_calls w' = setter_calls w) ∧
    (∀ type value c (w w' : World T), Sound w → Observing w →
      w.is_currently_binding = false → (∀ x, c = some x → ∃ o, (w.heap x).owner = some o) →
      type ≠ .setter → type ≠ .initial_binding →
      pass n type value c w = .ok w' → setter_calls w' = setter_calls w) ∧
    (∀ this value (w w' : World T) o, Sound w → Observing w →
      w.is_currently_binding = false → (w.heap this).owner = some o →
      notify_all n this value w = .ok w' → setter_calls w' = setter_calls w) ∧
    (∀ this (v : T) (w w' : World T) o, Sound w → Observing w →
      w.is_currently_binding = false → (w.heap this).owner = some o →
      set_directly_as_owner n this v w = .ok w' → setter_calls w' = setter_calls w) ∧
    (∀ this (v : T) (w w' : World T), Sound w → Observing w →
      w.is_currently_binding = false →
      assign n this v w = .ok w' → setter_calls w' = setter_calls w) := by
  intro n
  induction n with
  | zero =>
    refine ⟨?_, ?_, ?_, ?_, ?_, ?_⟩
    · intro this value type w w' o _ _ _ _ _ _ h; rw [invoke] at h; cases h
    · intro this w w' o _ _ _ _ h; rw [update] at h; cases h
    · intro type value c w w' _ _ _ _ _ _ h; rw [pass] at h; cases h
    · intro this value w w' o _ _ _ _ h; rw [notify_all] at h; cases h
    · intro this v w w' o _ _ _ _ h; rw [set_directly_as_owner] at h; cases h
    · intro this v w w' _ _ _ h; rw [assign] at h; cases h
  | succ n ih =>
    obtain ⟨hi, hu, hp, hn, hd, ha⟩ := ih
    refine ⟨?_, ?_, ?_, ?_, ?_, ?_⟩
    · intro this value type w w' o hs hobs hb ho hts htb h
      have hlt : this < w.size := hs.bound this o ho
      have hq := hobs this hlt
      rw [invoke] at h
      cases hf : (w.heap this).func with
      | empty => simp only [hf] at h; cases h
      | default_setter =>
        simp only [hf] at h
        obtain ⟨v, _, h2⟩ := bind_ok h
        exact ha _ _ _ _ hs hobs hb h2
      | default_notifier =>
        simp only [hf] at h
        obtain ⟨v, _, h2⟩ := bind_ok h
        cases h2
        exact setter_calls_setVal w this v
      | property_setter setter =>
        simp only [hf] at h
        cases type <;> (try exact absurd rfl hts) <;> (cases h; rfl)
      | property_notifier notifier =>
        simp only [hf] at h
        rw [hf] at hq
        cases type <;> (try simp only at h) <;> (try exact absurd rfl hts) <;>
          (try exact absurd rfl htb) <;> (try (cases h; rfl))
        · obtain ⟨v, _, h2⟩ := bind_ok h
          cases h2
          exact setter_calls_setVal w this v
        · obtain ⟨v, _, h2⟩ := bind_ok h
          rw [hq this v] at h2
          rw [run_nil_ok h2]
          exact setter_calls_record_notifier w this _
      | property_binder binding setter notifier =>
        simp only [hf] at h
        rw [hf] at hq
        cases type <;> (try simp only at h) <;> (try exact absurd rfl hts) <;>
          (try exact absurd rfl htb) <;> (try (cases h; rfl))
        · rw [eval_not_binding _ (show (w.record .compute this none).is_currently_binding = false
            from hb)] at h
          have hfr := ValFrame.record w .compute this none
          rw [hd _ _ _ _ o (hs.sound_frame hfr) (hobs.observing_frame hfr) hb ho h]
          exact setter_calls_record_compute w this none
        · rw [value_not_binding w this hb] at h
          have h2 : run n (notifier this (w.heap this).val)
              (w.record .notifier this (some (w.heap this).val)) = .ok w' := h
          rw [hq this _] at h2
          rw [run_nil_ok h2]
          exact setter_calls_record_notifier w this _
      | dependency st =>
        simp only [hf] at h
        cases type <;> (try simp only at h) <;> (try exact absurd rfl hts) <;>
          (try exact absurd rfl htb) <;> (try (cases h; rfl))
        split at h
        · cases h
        · rename_i bs hbs
          split at h
          · rename_i o' ho'
            obtain ⟨vs, hl, _⟩ := hs.listed _ _ ho'
            exact hu _ _ _ o' hs hobs hb (hl.owner o' (by simp)) h
          · cases h; rfl
    · intro this w w' o hs hobs hb ho h
      rw [update] at h
      split at h
      · exact hi _ _ _ _ _ o hs hobs hb ho (by decide) (by decide) h
      · cases h; rfl
    · intro type value c w w' hs hobs hb hc hts htb h
      cases c with
      | none => rw [pass] at h; cases h; rfl
      | some c =>
        obtain ⟨o, ho⟩ := hc c rfl
        rw [pass_succ] at h
        obtain ⟨w1, h1, h2⟩ := bind_ok h
        have hf1 : ValFrame w w1 := by
          split at h1
          · exact (val_frame_all n).1 _ _ _ _ _ hb htb h1
          · cases h1; exact ValFrame.refl w
        have e1 : setter_calls w1 = setter_calls w := by
          split at h1
          · exact hi _ _ _ _ _ o hs hobs hb ho hts htb h1
          · cases h1; rfl
        rw [hp _ _ _ _ _ (hs.sound_frame hf1) (hobs.observing_frame hf1) (by rw [hf1.binding, hb])
          (fun x hx => ⟨o, (hs.sound_frame hf1).next_owner (by rw [hf1.owner]; exact ho) hx⟩)
          hts htb h2, e1]
    · intro this value w w' o hs hobs hb ho h
      rw [notify_all_succ] at h
      obtain ⟨w1, h1, h2⟩ := bind_ok h
      have hf1 := (val_frame_all n).2.2.1 _ _ _ _ _ hb (by decide) h1
      rw [hp _ _ _ _ _ (hs.sound_frame hf1) (hobs.observing_frame hf1) (by rw [hf1.binding, hb])
        (fun x hx => ⟨o, by cases hx; rw [hf1.owner]; exact ho⟩) (by decide) (by decide) h2,
        hp _ _ _ _ _ hs hobs hb (fun x hx => ⟨o, by cases hx; exact ho⟩) (by decide)
          (by decide) h1]
    · intro this v w w' o hs hobs hb ho h
      rw [set_directly_as_owner] at h
      split at h
      · have hfr := ValFrame.setVal w this v
        rw [hn _ _ _ _ o (hs.sound_frame hfr) (hobs.observing_frame hfr) hb
          (by rw [hfr.owner]; exact ho) h]
        exact setter_calls_setVal w this v
      · cases h; rfl
    · intro this v w w' hs hobs hb h
      rw [assign_succ] at h
      split at h
      · rename_i hio
        have ho : (w.heap this).owner = some this := by
          simpa [is_owner] using hio
        exact hd _ _ _ _ this hs hobs hb ho h
      · cases h; rfl

theorem Pushes.pushes_frame {w w' : World T} {b : Addr} {st : Stmt T} (h : Pushes w b st)
    (hf : ValFrame w w') : Pushes w' b st := by
  obtain ⟨h1, h2, vp, hl, hcls, a0, ha0, j0, bs0, hj0, hs0, ho0⟩ := h
  refine ⟨h1, by rw [hf.func, h2], vp, hl.val_frame hf, ?_, a0, ha0, j0, bs0, by rw [hf.func, hj0],
    by rw [hf.states, hs0], by rw [hf.owner, ho0]⟩
  intro a ha
  rcases hcls a ha with h | ⟨j, bs, hj, hs, ho⟩
  · exact Or.inl (by rw [hf.func]; exact h)
  · exact Or.inr ⟨j, bs, by rw [hf.func, hj], by rw [hf.states, hs], by rw [hf.owner, ho]⟩

/-- One statement of a setterFn that pushes a value into a dependency of the
binding of `b`: the statement returns, the dependency holds the value, no
setter callable is invoked, and `b` holds the value of its computeFn over
the new state unless no value slot changed at all. -/
theorem push_spec (u : World T) (b : Addr) (vs : List Addr) (e : Expr T) (s nf : Callable T)
    (st : Stmt T) (hs : Sound u) (hobs : Observing u) (hb : Bound u b vs e s nf)
    (hidle : u.is_currently_binding = false) (hp : Pushes u b st) (n : Nat)
    (hn : 2 * u.size + 26 ≤ n) :
    ∃ u', exec n st u = .ok u' ∧ ValFrame u u' ∧ setter_calls u' = setter_calls u ∧
      (u'.heap st.target).val = st.arg.now u ∧
      ((u'.heap b).val = e.now u' ∨ ∀ a, (u'.heap a).val = (u.heap a).val) ∧
      (∀ a, a ∉ b :: vs → (u.heap a).owner ≠ some st.target →
        (u'.heap a).val = (u.heap a).val) := by
  obtain ⟨hpb, hpf, vp, hlp, hcls, hsub⟩ := hp
  have hl1 : vp.length < u.size := hs.length_lt hlp
  have hl2 : vs.length < u.size := hs.length_lt hb.list
  obtain ⟨k, rfl⟩ : ∃ k, n = k + 6 := ⟨n - 6, by omega⟩
  have hpo : (u.heap st.target).owner = some st.target := hlp.owner _ (by simp)
  have hio : is_owner u st.target = true := hlp.is_owner
  -- the write itself
  have key : ∃ u', set_directly_as_owner k st.target (st.arg.now u) u = .ok u' ∧
      ((u.heap st.target).val = st.arg.now u → u' = u) ∧
      ValFrame u u' ∧ setter_calls u' = setter_calls u ∧
      (u'.heap st.target).val = st.arg.now u ∧
      ((u'.heap b).val = e.now u' ∨ ∀ a, (u'.heap a).val = (u.heap a).val) ∧
      (∀ a, a ∉ b :: vs → (u.heap a).owner ≠ some st.target →
        (u'.heap a).val = (u.heap a).val) := by
    by_cases hx : (u.heap st.target).val = st.arg.now u
    · obtain ⟨k', rfl⟩ : ∃ k', k = k' + 1 := ⟨k - 1, by omega⟩
      refine ⟨u, ?_, fun _ => rfl, ValFrame.refl u, rfl, hx, Or.inr (fun _ => rfl),
        fun _ _ _ => rfl⟩
      rw [← hx]
      exact set_directly_gate k' _ u
    · obtain ⟨u', h, hf, hpv, hbv, _, hout⟩ := dependency_write u b st.target vs vp e s nf
        (st.arg.now u) hb hidle hlp hpb (by rw [hpf]; trivial) hcls hsub hx (k + 1) (by omega)
      have hno := (no_setter_all (k + 1)).2.2.2.2.2 _ _ _ _ hs hobs hidle h
      rw [assign_succ, hio, if_pos rfl] at h
      refine ⟨u', h, fun h' => absurd h' hx, hf, hno, hpv, Or.inl hbv, ?_⟩
      intro a h1 h2
      exact hout a (fun hm => h2 (hlp.owner a hm)) h1
  obtain ⟨u', hD, hgate, hrest⟩ := key
  refine ⟨u', ?_, hrest⟩
  have hA : assign (k + 5) st.target (st.arg.now u) u = .ok u' := by
    rw [assign_succ, hio, if_pos rfl]
    exact set_directly_mono hD (by omega)
  cases st with
  | assign p ex =>
    rw [exec, eval_not_binding u hidle]
    exact hA
  | set p ex =>
    rw [exec, eval_not_binding u hidle]
    show set (k + 5) p (ex.now u) u = .ok u'
    rw [set_succ]
    have hio' : is_owner u p = true := hio
    rw [hio']
    exact set_directly_mono hD (by omega)
  | request_change p ex =>
    rw [exec, eval_not_binding u hidle]
    show request_change (k + 5) p (ex.now u) u = .ok u'
    by_cases hx : (u.heap p).val = ex.now u
    · rw [hgate hx, ← hx]
      exact request_gate u p p (k + 3) hpo
    · rw [request_default u p p (ex.now u) (k + 1) hpo hpo hpf hx]
      exact set_directly_mono hD (by omega)

/-- The body of a setterFn all of whose statements push values into
dependencies of the binding of `b`. -/
theorem pushes_run (b : Addr) (vs : List Addr) (e : Expr T) (s nf : Callable T) :
    ∀ (l : List (Stmt T)) (u : World T) (n : Nat), Sound u → Observing u →
      Bound u b vs e s nf → u.is_currently_binding = false → (∀ st ∈ l, Pushes u b st) →
      l.length + 2 * u.size + 27 ≤ n →
      ∃ u', run n l u = .ok u' ∧ ValFrame u u' ∧ setter_calls u' = setter_calls u ∧
        ((u'.heap b).val = e.now u' ∨ ∀ a, (u'.heap a).val = (u.heap a).val) ∧
        (∀ a, a ∉ b :: vs → (∀ st ∈ l, (u.heap a).owner ≠ some st.target) →
          (u'.heap a).val = (u.heap a).val) ∧
        (l = [] → u' = u) ∧
        (∀ st, l = [st] → (u'.heap st.target).val = st.arg.now u)
  | [], u, n, _, _, _, _, _, hn => by
    obtain ⟨m, rfl⟩ : ∃ m, n = m + 1 := ⟨n - 1, by omega⟩
    exact ⟨u, run_nil m u, ValFrame.refl u, rfl, Or.inr (fun _ => rfl), fun _ _ _ => rfl,
      fun _ => rfl, fun st h => by cases h⟩
  | st :: rest, u, n, hs, hobs, hb, hidle, hp, hn => by
    obtain ⟨m, rfl⟩ : ∃ m, n = m + 1 := ⟨n - 1, by omega⟩
    simp only [List.length_cons] at hn
    obtain ⟨u1, h1, hf1, hc1, hv1, hd1, ho1⟩ := push_spec u b vs e s nf st hs hobs hb hidle
      (hp st (by simp)) m (by omega)
    obtain ⟨u', h2, hf2, hc2, hd2, ho2, hnil2, _⟩ := pushes_run b vs e s nf rest u1 m
      (hs.sound_frame hf1) (hobs.observing_frame hf1) (hb.bound_frame hf1)
      (by rw [hf1.binding, hidle])
      (fun x hx => (hp x (List.mem_cons_of_mem _ hx)).pushes_frame hf1)
      (by rw [hf1.size]; omega)
    refine ⟨u', by rw [run_succ_cons, h1, ok_bind]; exact h2, hf1.trans hf2, by rw [hc2, hc1],
      ?_, ?_, (fun h => by cases h), ?_⟩
    · rcases hd2 with h | h
      · exact Or.inl h
      · rcases hd1 with h' | h'
        · left
          rw [h b, h', Expr.now_congr u1 u' e (fun p _ => h p)]
        · exact Or.inr (fun a => by rw [h a, h' a])
    · intro a ha hall
      rw [ho2 a ha (fun x hx => by
        rw [hf1.owner]; exact hall x (List.mem_cons_of_mem _ hx)),
        ho1 a ha (hall st (by simp))]
    · intro st' hst'
      have e1 : st' = st := by
        have := List.cons.inj hst'
        exact this.1.symm
      have e2 : rest = [] := (List.cons.inj hst').2
      subst e1
      rw [hnil2 e2]
      exact hv1

/-- C14 (inverse binding): on a binder `b` with computeFn `e` and setterFn
`s`, a `request_change(v)` from `b` or one of its views, with `v` different
from the value of `b`, is exactly one recorded invocation of `s` on `b` with
`v` followed by the body of `s`: nothing stores `v` into `b`.  When `s` does
nothing, the heap is unchanged.  When every statement of `s` pushes a value
into a dependency of the binding (an assignment, a `set` or a
`request_change` on an owner with the default handler whose list holds
mirroring views and subscriptions of the binding), in a sound idle state
whose notifiers only observe: the request returns; `s` was invoked once, with
`v`, and no other setter callable was; afterwards `b` holds the value of its
computeFn over the final state, unless no value slot changed at all, in which
case `b` holds what it held; hence a `b` that held the value of its computeFn
before holds it after; values outside the list of `b` and the lists of the
targets are unchanged; and the target of a setterFn with a single statement
holds the value pushed. -/
theorem inverse_binding (w : World T) (b c : Addr) (v : T) (e : Expr T) (s nf : Callable T)
    (hc : (w.heap c).owner = some b) (hf : (w.heap b).func = .property_binder e s nf)
    (hne : (w.heap b).val ≠ v) :
    (∀ fuel, request_change (fuel + 3) c v w =
      run fuel (s b v) (w.record .setter b (some v))) ∧
    (s b v = [] → ∀ fuel, 4 ≤ fuel →
      ∃ w', request_change fuel c v w = .ok w' ∧ w'.heap = w.heap ∧
        calls w' = calls w ++ [(.setter, b, some v)]) ∧
    (∀ vs, Sound w → Observing w → Bound w b vs e s nf → w.is_currently_binding = false →
      (∀ st ∈ s b v, Pushes w b st) →
      ∀ fuel, (s b v).length + 2 * w.size + 30 ≤ fuel →
        ∃ w', request_change fuel c v w = .ok w' ∧
          setter_calls w' = setter_calls w ++ [(b, some v)] ∧
          ((w'.heap b).val = e.now w' ∨ ∀ a, (w'.heap a).val = (w.heap a).val) ∧
          ((w.heap b).val = e.now w → (w'.heap b).val = e.now w') ∧
          (∀ a, a ∉ b :: vs → (∀ st ∈ s b v, (w.heap a).owner ≠ some st.target) →
            (w'.heap a).val = (w.heap a).val) ∧
          (∀ st, s b v = [st] → (w'.heap st.target).val = st.arg.now w)) := by
  have hstep : ∀ fuel, request_change (fuel + 3) c v w =
      run fuel (s b v) (w.record .setter b (some v)) := by
    intro fuel
    rw [request_change_succ, hc]
    simp only
    rw [set_using_setter_succ, if_pos hne, invoke]
    simp [hf, deref, bind, Except.bind]
  refine ⟨hstep, ?_, ?_⟩
  · intro hs fuel hfuel
    obtain ⟨m, rfl⟩ : ∃ m, fuel = m + 1 + 3 := ⟨fuel - 4, by omega⟩
    refine ⟨w.record .setter b (some v), by rw [hstep, hs, run_nil], rfl, ?_⟩
    simp [calls, World.record]
  · intro vs hs hobs hb hidle hp fuel hfuel
    obtain ⟨m, rfl⟩ : ∃ m, fuel = m + 3 := ⟨fuel - 3, by omega⟩
    have hfr : ValFrame w (w.record .setter b (some v)) := ValFrame.record w _ _ _
    obtain ⟨w', h, _, hcalls, hd, hout, _, hone⟩ := pushes_run b vs e s nf (s b v)
      (w.record .setter b (some v)) m (hs.sound_frame hfr) (hobs.observing_frame hfr)
      (hb.bound_frame hfr) hidle (fun st hst => (hp st hst).pushes_frame hfr)
      (by rw [hfr.size]; omega)
    refine ⟨w', by rw [hstep]; exact h, by rw [hcalls, setter_calls_record_setter], hd, ?_,
      hout, ?_⟩
    · intro hset
      rcases hd with h1 | h1
      · exact h1
      · have h2 : ∀ a, (w'.heap a).val = (w.heap a).val := h1
        rw [h2 b, hset]
        exact (Expr.now_congr w w' e (fun p _ => h2 p)).symm
    · intro st hst
      rw [hone st hst]
      exact (Expr.now_congr w (w.record .setter b (some v)) st.arg (fun _ _ => rfl))

/-- The test `PythagorasExample`: after `set_binding` the hypotenuse reads 29;
`request_change(101)` on it invokes the setter once, with 101, which requests
99 on `y`; afterwards `x = 20`, `y = 99` and the hypotenuse reads 101. -/
theorem inverse_binding_witness :
    ∃ r w', set_binding 15 2 pythagoras_binding pythagoras_setter nop pythagoras_start = .ok r ∧
      (r.2.heap 2).val = 29 ∧
      request_change 50 2 101 r.2 =
        run 47 (pythagoras_setter 2 101) (r.2.record .setter 2 (some 101)) ∧
      request_change 50 2 101 r.2 = .ok w' ∧
      setter_calls w' = [(2, some 101)] ∧
      [(w'.heap 0).val, (w'.heap 1).val, (w'.heap 2).val] = [20, 99, 101] := by
  have hs : Sound pythagoras_start :=
    (((Sound.init (0 : Int)).property_new 20).property_new 21).property_new 0
  have hq : Callable.quiet (nop : Callable Int) := fun _ _ => rfl
  have hl : ∀ a : Addr, a < 3 → IsList pythagoras_start a [] := by
    have h3 : ∀ k : Nat, k < 3 → k = 0 ∨ k = 1 ∨ k = 2 := by intro k hk; omega
    intro a ha
    rcases h3 a ha with rfl | rfl | rfl <;> exact ⟨by decide, by decide, by decide, by decide⟩
  have hreads : ∀ p : Addr, p ∈ pythagoras_binding.reads → p = 0 ∨ p = 1 := by
    intro p hp
    simpa [pythagoras_binding, Expr.reads] using hp
  obtain ⟨w1, vs, hset, hi, hb⟩ := set_binding_spec pythagoras_start 2 [] pythagoras_binding
    pythagoras_setter nop hs (hl 2 (by decide)) (fun a ha => by cases ha)
    (fun p hp => by
      rcases hreads p hp with rfl | rfl
      · exact ⟨0, by decide, by decide⟩
      · exact ⟨1, by decide, by decide⟩)
    hq (fun old st h => by simp [pythagoras_start, property_new, World.init] at h) 15
    (by decide)
  have hz : w1.size ≤ 7 := hi.size_le
  have hcalls0 : setter_calls w1 = [] := by
    have hE : (set_binding 15 2 pythagoras_binding pythagoras_setter nop
        pythagoras_start).toOption.map (fun r => setter_calls r.2) = some [] := by decide!
    rw [hset] at hE
    simpa [Except.toOption] using hE
  have hown : ∀ a : Addr, a < 3 → (w1.heap a).owner = some a := by
    have h3 : ∀ k : Nat, k < 3 → k = 0 ∨ k = 1 ∨ k = 2 := by intro k hk; omega
    intro a ha
    rw [hi.owner a ha]
    rcases h3 a ha with rfl | rfl | rfl <;> decide
  have hval : (w1.heap 2).val = 29 := by
    rw [hi.value]; decide
  have hv0 : (w1.heap 0).val = 20 := by
    rw [hi.vals 0 (by decide) (by decide)]; decide
  have hobs : Observing w1 := by
    intro a ha
    by_cases h3 : a < 3
    · by_cases h2 : a = 2
      · rw [h2, hi.binder]
        exact hq
      · rw [hi.func a h3 h2]
        have h3' : ∀ k : Nat, k < 3 → k ≠ 2 → k = 0 ∨ k = 1 := by intro k hk; omega
        rcases h3' a h3 h2 with rfl | rfl <;> trivial
    · rcases hi.fresh a (Nat.le_of_not_lt h3) ha with ⟨_, h | h⟩ | ⟨h, _⟩ <;> rw [h] <;> trivial
  have hpush : ∀ st ∈ pythagoras_setter 2 101, Pushes w1 2 st := by
    intro st hst
    simp only [pythagoras_setter, List.mem_singleton] at hst
    subst hst
    obtain ⟨vp, hlp, hcls, hsub, _⟩ := hi.subscription_list hs
      (show (1 : Addr) ∈ pythagoras_binding.reads by simp [pythagoras_binding, Expr.reads])
      (hl 1 (by decide)) (fun a ha => by cases ha) (by decide) (by decide)
    refine ⟨by decide, ?_, vp, hlp, hcls, hsub⟩
    show (w1.heap 1).func = .default_setter
    rw [hi.func 1 (by decide) (by decide)]
    rfl
  obtain ⟨heq, _, hgen⟩ := inverse_binding w1 2 2 101 pythagoras_binding pythagoras_setter nop
    (hown 2 (by decide)) hb.func (by rw [hval]; decide)
  obtain ⟨w', hreq, hsc, _, hsettled, hout, hone⟩ := hgen vs hi.sound hobs hb hi.idle hpush 50
    (by
      have : (pythagoras_setter 2 101).length = 1 := rfl
      rw [this]; omega)
  have hv1' : (w'.heap 1).val = 99 := by
    have h := hone _ rfl
    have h' : (w'.heap 1).val = isqrt (101 * 101 - (w1.heap 0).val * (w1.heap 0).val) := h
    rw [h', hv0]
    decide
  have hv0' : (w'.heap 0).val = 20 := by
    rw [hout 0 (fun hm => by
        have := hb.list.owner 0 hm
        rw [hown 0 (by decide)] at this
        exact absurd (Option.some.inj this) (by decide))
      (fun st hst => by
        simp only [pythagoras_setter, List.mem_singleton] at hst
        subst hst
        rw [hown 0 (by decide)]
        decide), hv0]
  have hv2' : (w'.heap 2).val = 101 := by
    rw [hsettled (by rw [hval, Expr.now_congr pythagoras_start w1 pythagoras_binding
      (fun p hp => by
        rcases hreads p hp with rfl | rfl
        · exact hi.vals 0 (by decide) (by decide)
        · exact hi.vals 1 (by decide) (by decide))]; decide)]
    simp only [pythagoras_binding, Expr.now]
    rw [hv0', hv1']
    decide
  refine ⟨(true, w1), w', hset, hval, heq 47, hreq, by rw [hsc, hcalls0]; rfl, ?_⟩
  rw [hv0', hv1', hv2']

end bindable_properties
